import Mathlib

/-!
# SearchServer: a shallow embedding of the indexing and ranking engine

Conventions of the embedding.

* `std::string` and `std::string_view` are lists of characters (`Str`); the
  code of a `char` is `Char.toNat`.
* `std::map<K, V>` is an association list kept in ascending key order
  (`StdMap`), `std::set<K>` a list kept in ascending order (`StdSet`); the
  order on strings is the lexicographic one, as with `std::less<>`.
* `double` values are exact rationals; the library function `log` is a
  parameter `ln : ℚ → ℚ` of every definition that calls it.
* `int` is `Int`; the one place where the code adds unboundedly many `int`s
  (`ComputeAverageRating`) wraps to 32 bits explicitly.
* A C++ exception is the `error` case of `Except`; a method that mutates the
  server returns the state it leaves behind next to its outcome.
* Only the sequenced execution policy is embedded for `FindTopDocuments`.
-/

/-! ## Strings, maps and sets -/

/-- A `std::string` or `std::string_view`: a sequence of characters. -/
abbrev Str := List Char

/-- The exceptions the code throws. -/
inductive Error where
  | invalid_argument
  | out_of_range
deriving DecidableEq, Repr

/-- A `std::map<K, V>`: key and value pairs in ascending key order. -/
abbrev StdMap (κ ν : Type) := List (κ × ν)

/-- A `std::set<K>`: elements in ascending order. -/
abbrev StdSet (κ : Type) := List κ

/-- The lookup `find(k)` (also behind `count` and `at`): the value stored under `k`. -/
def StdMap.find {κ ν : Type} [LinearOrder κ] : StdMap κ ν → κ → Option ν
  | [], _ => none
  | (k', v) :: rest, k => if k = k' then some v else StdMap.find rest k

/-- The member `count(k)`: 1 when the key is present, 0 otherwise. -/
def StdMap.count {κ ν : Type} [LinearOrder κ] (m : StdMap κ ν) (k : κ) : Nat :=
  if (StdMap.find m k).isSome then 1 else 0

/-- Access through `operator[]` followed by a write: the entry for `k` becomes
`f` of the old entry (`none` when the key was absent and is created at its
place in the order). -/
def StdMap.upsert {κ ν : Type} [LinearOrder κ] : StdMap κ ν → κ → (Option ν → ν) → StdMap κ ν
  | [], k, f => [(k, f none)]
  | (k', v) :: rest, k, f =>
    if k < k' then (k, f none) :: (k', v) :: rest
    else if k = k' then (k', f (some v)) :: rest
    else (k', v) :: StdMap.upsert rest k f

/-- The member `emplace(k, v)`: inserts when the key is absent, else changes nothing. -/
def StdMap.emplace {κ ν : Type} [LinearOrder κ] (m : StdMap κ ν) (k : κ) (v : ν) : StdMap κ ν :=
  StdMap.upsert m k (fun old => old.getD v)

/-- The member `erase(k)`. -/
def StdMap.erase {κ ν : Type} [LinearOrder κ] : StdMap κ ν → κ → StdMap κ ν
  | [], _ => []
  | (k', v) :: rest, k => if k = k' then rest else (k', v) :: StdMap.erase rest k

/-- The keys of a map, in iteration order. -/
def StdMap.keys {κ ν : Type} (m : StdMap κ ν) : List κ := m.map Prod.fst

/-- Well-formedness of a `std::map`: keys strictly ascending. -/
def StdMap.WF {κ ν : Type} [LinearOrder κ] (m : StdMap κ ν) : Prop :=
  (StdMap.keys m).Pairwise (· < ·)

/-- The member `insert(k)` of a `std::set`. -/
def StdSet.insert {κ : Type} [LinearOrder κ] : StdSet κ → κ → StdSet κ
  | [], k => [k]
  | k' :: rest, k =>
    if k < k' then k :: k' :: rest
    else if k = k' then k' :: rest
    else k' :: StdSet.insert rest k

/-- The member `erase(k)` of a `std::set`. -/
def StdSet.erase {κ : Type} [LinearOrder κ] : StdSet κ → κ → StdSet κ
  | [], _ => []
  | k' :: rest, k => if k = k' then rest else k' :: StdSet.erase rest k

/-- The member `count(k)` of a `std::set`. -/
def StdSet.count {κ : Type} [LinearOrder κ] (s : StdSet κ) (k : κ) : Nat :=
  if k ∈ s then 1 else 0

/-! ## string_processing.cpp -/

/-- The loop body of `SplitIntoWords`: the state is `(words, word)`. -/
def SplitIntoWords.step (st : List Str × Str) (c : Char) : List Str × Str :=
  if c = ' ' then
    if st.2 ≠ [] then (st.1 ++ [st.2], []) else (st.1, st.2)
  else (st.1, st.2 ++ [c])

/-- `SplitIntoWords(text)`. -/
def SplitIntoWords (text : Str) : List Str :=
  let st := text.foldl SplitIntoWords.step ([], [])
  if st.2 ≠ [] then st.1 ++ [st.2] else st.1

/-- `text.find(' ', 0)`: the position of the first space, `none` for `npos`. -/
def findSpace : Str → Option Nat
  | [] => none
  | c :: rest => if c = ' ' then some 0 else (findSpace rest).map (· + 1)

/-- The `while (true)` loop of `SplitIntoWordsView`, with a bound on the number of
rounds; each round consumes at least one character of `text`, so
`text.length + 1` rounds are always enough. -/
def SplitIntoWordsView.loop : Nat → Str → List Str → List Str
  | 0, _, words => words
  | fuel + 1, text, words =>
    match findSpace text with
    | none => words ++ [text]
    | some space => SplitIntoWordsView.loop fuel (text.drop (space + 1)) (words ++ [text.take space])

/-- `SplitIntoWordsView(text)`. -/
def SplitIntoWordsView (text : Str) : List Str :=
  SplitIntoWordsView.loop (text.length + 1) text []

/-! ## concurrent_map.h -/

/-- `ConcurrentMap<int, double>`: the buckets, without their mutexes. -/
structure ConcurrentMap where
  bucket_count_ : Nat
  buckets_ : List (StdMap Int ℚ)

/-- The constructor `ConcurrentMap(bucket_count)`. -/
def ConcurrentMap.new (bucket_count : Nat) : ConcurrentMap :=
  { bucket_count_ := bucket_count, buckets_ := List.replicate bucket_count [] }

/-- The bucket of a key: `static_cast<uint64_t>(key) % bucket_count_`. -/
def ConcurrentMap.bucketNumber (cm : ConcurrentMap) (key : Int) : Nat :=
  (key % 18446744073709551616).toNat % cm.bucket_count_

/-- The statement `cm[key].ref_to_value += v`: `operator[]` creates a
zero entry in the bucket of `key` when there is none. -/
def ConcurrentMap.add (cm : ConcurrentMap) (key : Int) (v : ℚ) : ConcurrentMap :=
  let i := ConcurrentMap.bucketNumber cm key
  { cm with buckets_ :=
      cm.buckets_.set i (StdMap.upsert (cm.buckets_.getD i []) key (fun old => old.getD 0 + v)) }

/-- `BuildOrdinaryMap()`: a fresh `std::map` filled with `result[key] = val`
for every entry of every bucket. -/
def ConcurrentMap.BuildOrdinaryMap (cm : ConcurrentMap) : StdMap Int ℚ :=
  cm.buckets_.foldl
    (fun result bucket =>
      bucket.foldl (fun result kv => StdMap.upsert result kv.1 (fun _ => kv.2)) result)
    []

/-! ## search_server.h, search_server.cpp -/

/-- `MAX_RESULT_DOCUMENT_COUNT`. -/
def MAX_RESULT_DOCUMENT_COUNT : Nat := 5

/-- `NUMBER_PARALLEL_PROCESSES`. -/
def NUMBER_PARALLEL_PROCESSES : Nat := 4

/-- `enum class DocumentStatus`. -/
inductive DocumentStatus where
  | ACTUAL
  | IRRELEVANT
  | BANNED
  | REMOVED
deriving DecidableEq, Repr

/-- `struct DocumentData`. -/
structure DocumentData where
  rating : Int
  status : DocumentStatus
deriving DecidableEq

/-- Modelled from the spec: `struct Document` of document.h, the triple
`(documentId, relevance, rating)` that `FindAllDocuments` builds with
`{document_id, relevance, rating}`. -/
structure Document where
  id : Int
  relevance : ℚ
  rating : Int
deriving DecidableEq

/-- `struct Query`. -/
structure Query where
  plus_words : StdSet Str
  minus_words : StdSet Str
deriving DecidableEq

/-- `struct QueryWord`. -/
structure QueryWord where
  data : Str
  is_minus : Bool
  is_stop : Bool
deriving DecidableEq

/-- The data members of `class SearchServer`. -/
structure SearchServer where
  stop_words_ : StdSet Str
  word_to_document_freqs_ : StdMap Str (StdMap Int ℚ)
  documents_ : StdMap Int DocumentData
  document_ids_ : StdSet Int

/-- A server right after construction with the stop words `stop_words`. -/
def SearchServer.fresh (stop_words : StdSet Str) : SearchServer :=
  { stop_words_ := stop_words, word_to_document_freqs_ := [], documents_ := [],
    document_ids_ := [] }

/-- `IsStopWord(word)`. -/
def SearchServer.IsStopWord (s : SearchServer) (word : Str) : Bool :=
  decide (StdSet.count s.stop_words_ word > 0)

/-- `IsValidWord(word)`: no character `c` with `c >= 0 && c < 32`. -/
def IsValidWord (word : Str) : Bool :=
  !(word.any (fun c => decide (0 ≤ c.toNat) && decide (c.toNat < 32)))

/-- The loop of `SplitIntoWordsNoStop` over the tokens. -/
def SearchServer.SplitIntoWordsNoStop.loop (s : SearchServer) :
    List Str → List Str → Except Error (List Str)
  | [], words => .ok words
  | word :: rest, words =>
    if !IsValidWord word then .error Error.invalid_argument
    else if !SearchServer.IsStopWord s word then
      SearchServer.SplitIntoWordsNoStop.loop s rest (words ++ [word])
    else SearchServer.SplitIntoWordsNoStop.loop s rest words

/-- `SplitIntoWordsNoStop(text)`. -/
def SearchServer.SplitIntoWordsNoStop (s : SearchServer) (text : Str) : Except Error (List Str) :=
  SearchServer.SplitIntoWordsNoStop.loop s (SplitIntoWords text) []

/-- The value of a 32-bit `int` after an operation whose exact result is `x`. -/
def wrap32 (x : Int) : Int := (x + 2147483648) % 4294967296 - 2147483648

/-- `ComputeAverageRating(ratings)`. -/
def ComputeAverageRating (ratings : List Int) : Int :=
  if ratings.isEmpty then 0
  else
    let rating_sum := ratings.foldl (fun rating_sum rating => wrap32 (rating_sum + rating)) 0
    Int.tdiv rating_sum (wrap32 (ratings.length : Int))

/-- The statement `word_to_document_freqs_[word][document_id] += inv_word_count`, in
exact arithmetic; `addWordFreqWith` makes the rounding of `double` explicit. -/
def addWordFreq (freqs : StdMap Str (StdMap Int ℚ)) (word : Str) (document_id : Int)
    (inv_word_count : ℚ) : StdMap Str (StdMap Int ℚ) :=
  StdMap.upsert freqs word
    (fun postings => StdMap.upsert (postings.getD []) document_id
      (fun old => old.getD 0 + inv_word_count))

/-- `AddDocument(document_id, document, status, ratings)`: the outcome and the
state the call leaves behind. With no word, `1.0 / words.size()` is never used.
The frequencies are exact rationals; `SearchServer.AddDocumentWith` is the same call
with the rounding of `double` explicit. -/
def SearchServer.AddDocument (s : SearchServer) (document_id : Int) (document : Str)
    (status : DocumentStatus) (ratings : List Int) : Except Error Unit × SearchServer :=
  if document_id < 0 ∨ StdMap.count s.documents_ document_id > 0 then
    (.error Error.invalid_argument, s)
  else
    match SearchServer.SplitIntoWordsNoStop s document with
    | .error e => (.error e, s)
    | .ok words =>
      let inv_word_count : ℚ := 1 / (words.length : ℚ)
      let freqs := words.foldl
        (fun freqs word => addWordFreq freqs word document_id inv_word_count)
        s.word_to_document_freqs_
      let documents := StdMap.emplace s.documents_ document_id
        { rating := ComputeAverageRating ratings, status := status }
      (.ok (), { s with
        word_to_document_freqs_ := freqs,
        documents_ := documents,
        document_ids_ := StdSet.insert s.document_ids_ document_id })

/-- `GetDocumentCount()`. -/
def SearchServer.GetDocumentCount (s : SearchServer) : Nat := s.documents_.length

/-- `GetWordFrequencies(document_id)`. -/
def SearchServer.GetWordFrequencies (s : SearchServer) (document_id : Int) : StdMap Str ℚ :=
  s.word_to_document_freqs_.foldl
    (fun word_frequencies entry =>
      match StdMap.find entry.2 document_id with
      | some freq => StdMap.emplace word_frequencies entry.1 freq
      | none => word_frequencies)
    []

/-- `RemoveDocument(seq, document_id)`: every posting list that holds the id
loses it; the word itself stays a key of the index. -/
def SearchServer.RemoveDocument (s : SearchServer) (document_id : Int) : SearchServer :=
  { s with
    word_to_document_freqs_ := s.word_to_document_freqs_.map
      (fun entry =>
        if StdMap.count entry.2 document_id > 0 then (entry.1, StdMap.erase entry.2 document_id)
        else entry),
    documents_ := StdMap.erase s.documents_ document_id,
    document_ids_ := StdSet.erase s.document_ids_ document_id }

/-- `ParseQueryWord(text)`. -/
def SearchServer.ParseQueryWord (s : SearchServer) (text : Str) : Except Error QueryWord :=
  if text.isEmpty then .error Error.invalid_argument
  else
    let is_minus := decide (text.head? = some '-')
    let word := if is_minus then text.drop 1 else text
    if word.isEmpty ∨ word.head? = some '-' ∨ !IsValidWord word then .error Error.invalid_argument
    else .ok { data := word, is_minus := is_minus, is_stop := SearchServer.IsStopWord s word }

/-- The loop of `ParseQuery`. -/
def SearchServer.ParseQuery.loop (s : SearchServer) : List Str → Query → Except Error Query
  | [], result => .ok result
  | word :: rest, result =>
    match SearchServer.ParseQueryWord s word with
    | .error e => .error e
    | .ok query_word =>
      if !query_word.is_stop then
        if query_word.is_minus then
          SearchServer.ParseQuery.loop s rest
            { result with minus_words := StdSet.insert result.minus_words query_word.data }
        else
          SearchServer.ParseQuery.loop s rest
            { result with plus_words := StdSet.insert result.plus_words query_word.data }
      else SearchServer.ParseQuery.loop s rest result

/-- `ParseQuery(query)`. -/
def SearchServer.ParseQuery (s : SearchServer) (query : List Str) : Except Error Query :=
  SearchServer.ParseQuery.loop s query { plus_words := [], minus_words := [] }

/-- `ComputeWordInverseDocumentFreq(word)`; called only for a word of the index. -/
def SearchServer.ComputeWordInverseDocumentFreq (ln : ℚ → ℚ) (s : SearchServer) (word : Str) : ℚ :=
  ln ((SearchServer.GetDocumentCount s : ℚ) * 1 /
    (((StdMap.find s.word_to_document_freqs_ word).getD []).length : ℚ))

/-- A document predicate `(document_id, status, rating) -> bool`. -/
abbrev DocumentPredicate := Int → DocumentStatus → Int → Bool

/-- The inner `for_each` of the plus-word loop of `FindAllDocuments`, over one
posting list; `documents_.at` throws on an id without metadata. -/
def SearchServer.FindAllDocuments.plusPostings (s : SearchServer)
    (document_predicate : DocumentPredicate) (inverse_document_freq : ℚ) :
    List (Int × ℚ) → ConcurrentMap → Except Error ConcurrentMap
  | [], acc => .ok acc
  | doc_id_word_freqs :: rest, acc =>
    match StdMap.find s.documents_ doc_id_word_freqs.1 with
    | none => .error Error.out_of_range
    | some document_data =>
      SearchServer.FindAllDocuments.plusPostings s document_predicate inverse_document_freq rest
        (if document_predicate doc_id_word_freqs.1 document_data.status document_data.rating then
          ConcurrentMap.add acc doc_id_word_freqs.1 (doc_id_word_freqs.2 * inverse_document_freq)
        else acc)

/-- The loop of `FindAllDocuments` over the plus words. -/
def SearchServer.FindAllDocuments.plusWords (ln : ℚ → ℚ) (s : SearchServer)
    (document_predicate : DocumentPredicate) :
    List Str → ConcurrentMap → Except Error ConcurrentMap
  | [], acc => .ok acc
  | word :: rest, acc =>
    match StdMap.find s.word_to_document_freqs_ word with
    | none => SearchServer.FindAllDocuments.plusWords ln s document_predicate rest acc
    | some postings =>
      match SearchServer.FindAllDocuments.plusPostings s document_predicate
          (SearchServer.ComputeWordInverseDocumentFreq ln s word) postings acc with
      | .error e => .error e
      | .ok acc1 => SearchServer.FindAllDocuments.plusWords ln s document_predicate rest acc1

/-- The statement `document_to_relevance.BuildOrdinaryMap().erase(id)`: the
accumulator it leaves behind, and the temporary map the erase acted on. -/
def eraseFromOrdinaryMap (document_to_relevance : ConcurrentMap) (id : Int) :
    ConcurrentMap × StdMap Int ℚ :=
  (document_to_relevance, StdMap.erase (ConcurrentMap.BuildOrdinaryMap document_to_relevance) id)

/-- The loop of `FindAllDocuments` over the minus words. -/
def SearchServer.FindAllDocuments.minusWords (s : SearchServer) :
    List Str → ConcurrentMap → ConcurrentMap
  | [], acc => acc
  | word :: rest, acc =>
    match StdMap.find s.word_to_document_freqs_ word with
    | none => SearchServer.FindAllDocuments.minusWords s rest acc
    | some postings =>
      SearchServer.FindAllDocuments.minusWords s rest
        (postings.foldl (fun acc doc_id_word_freqs =>
          (eraseFromOrdinaryMap acc doc_id_word_freqs.1).1) acc)

/-- The last loop of `FindAllDocuments`: one `Document` per entry of the ordinary map. -/
def SearchServer.FindAllDocuments.materialize (s : SearchServer) :
    List (Int × ℚ) → List Document → Except Error (List Document)
  | [], matched_documents => .ok matched_documents
  | entry :: rest, matched_documents =>
    match StdMap.find s.documents_ entry.1 with
    | none => .error Error.out_of_range
    | some document_data =>
      SearchServer.FindAllDocuments.materialize s rest
        (matched_documents ++ [{ id := entry.1, relevance := entry.2, rating := document_data.rating }])

/-- `FindAllDocuments(seq, query, document_predicate)`. -/
def SearchServer.FindAllDocuments (ln : ℚ → ℚ) (s : SearchServer) (query : Query)
    (document_predicate : DocumentPredicate) : Except Error (List Document) :=
  match SearchServer.FindAllDocuments.plusWords ln s document_predicate query.plus_words
      (ConcurrentMap.new NUMBER_PARALLEL_PROCESSES) with
  | .error e => .error e
  | .ok acc =>
    let document_to_relevance := SearchServer.FindAllDocuments.minusWords s query.minus_words acc
    SearchServer.FindAllDocuments.materialize s
      (ConcurrentMap.BuildOrdinaryMap document_to_relevance) []

/-- The comparison lambda that `FindTopDocuments` hands to `sort`. -/
def documentBefore (lhs rhs : Document) : Bool :=
  if abs (lhs.relevance - rhs.relevance) < 1 / 1000000 then decide (lhs.rating > rhs.rating)
  else decide (lhs.relevance > rhs.relevance)

/-- One insertion of the insertion sort: `x` is placed in front of the first element
that does not come before it. -/
def sortInsert {α : Type} (comp : α → α → Bool) (x : α) : List α → List α
  | [] => [x]
  | y :: rest => if comp y x then y :: sortInsert comp x rest else x :: y :: rest

/-- An insertion sort. It keeps the promise of the library `sort` (`StdSortContract`)
and stands for it in `FindTopDocuments`, for the properties that depend only on which
documents are returned; the order of the results is the matter of
`SearchServer.FindTopDocumentsWith`, where `sort` is any function that keeps the promise. -/
def stdSort {α : Type} (comp : α → α → Bool) : List α → List α
  | [] => []
  | x :: rest => sortInsert comp x (stdSort comp rest)

/-- `FindTopDocuments(seq, raw_query, document_predicate)`. -/
def SearchServer.FindTopDocuments (ln : ℚ → ℚ) (s : SearchServer) (raw_query : Str)
    (document_predicate : DocumentPredicate) : Except Error (List Document) :=
  match SearchServer.ParseQuery s (SplitIntoWordsView raw_query) with
  | .error e => .error e
  | .ok query =>
    match SearchServer.FindAllDocuments ln s query document_predicate with
    | .error e => .error e
    | .ok found =>
      let matched_documents := stdSort documentBefore found
      .ok (if matched_documents.length > MAX_RESULT_DOCUMENT_COUNT then
        matched_documents.take MAX_RESULT_DOCUMENT_COUNT
      else matched_documents)

/-- `FindTopDocuments(seq, raw_query, status)`. -/
def SearchServer.FindTopDocumentsByStatus (ln : ℚ → ℚ) (s : SearchServer) (raw_query : Str)
    (status : DocumentStatus) : Except Error (List Document) :=
  SearchServer.FindTopDocuments ln s raw_query
    (fun _ document_status _ => decide (document_status = status))

/-- `FindTopDocuments(seq, raw_query)`. -/
def SearchServer.FindTopDocumentsActual (ln : ℚ → ℚ) (s : SearchServer) (raw_query : Str) :
    Except Error (List Document) :=
  SearchServer.FindTopDocumentsByStatus ln s raw_query DocumentStatus.ACTUAL

/-! ## Reachable states -/

/-- A call that changes the server. -/
inductive Op where
  | add (document_id : Int) (document : Str) (status : DocumentStatus) (ratings : List Int)
  | remove (document_id : Int)

/-- The state after one call; a throwing `AddDocument` leaves what it leaves. -/
def SearchServer.apply (s : SearchServer) : Op → SearchServer
  | Op.add document_id document status ratings =>
    (SearchServer.AddDocument s document_id document status ratings).2
  | Op.remove document_id => SearchServer.RemoveDocument s document_id

/-- The state reached from a fresh server by a sequence of calls. -/
def SearchServer.run (stop_words : StdSet Str) (ops : List Op) : SearchServer :=
  ops.foldl SearchServer.apply (SearchServer.fresh stop_words)

/-! ## Notions used to state the properties -/

/-- The term frequency the index stores for a word and a document, if any:
the entry for `id` in the posting list of `word`. -/
def termFreq (freqs : StdMap Str (StdMap Int ℚ)) (word : Str) (id : Int) : Option ℚ :=
  (StdMap.find freqs word).bind (fun postings => StdMap.find postings id)

/-- The index and every posting list are well-formed maps. -/
def IndexWF (freqs : StdMap Str (StdMap Int ℚ)) : Prop :=
  StdMap.WF freqs ∧ ∀ e ∈ freqs, StdMap.WF e.2

/-- Consistency of a server state: the maps are well formed and every id of a
posting list has metadata. -/
structure SearchServer.Inv (s : SearchServer) : Prop where
  index_wf : IndexWF s.word_to_document_freqs_
  documents_wf : StdMap.WF s.documents_
  postings_known : ∀ word id, (termFreq s.word_to_document_freqs_ word id).isSome →
    (StdMap.find s.documents_ id).isSome

/-- The words `AddDocument` indexes: the tokens of the text that are not stop words. -/
def SearchServer.indexedWords (s : SearchServer) (document : Str) : List Str :=
  (SplitIntoWords document).filter (fun word => !SearchServer.IsStopWord s word)

/-- The entry `GetWordFrequencies` emits for one entry of the index, if any. -/
def wordFreqEntry (id : Int) (e : Str × StdMap Int ℚ) : Option (Str × ℚ) :=
  (StdMap.find e.2 id).map (fun freq => (e.1, freq))

/-- The accumulated value for a key: its entry in the bucket of the key. -/
def ConcurrentMap.get (cm : ConcurrentMap) (key : Int) : Option ℚ :=
  StdMap.find (cm.buckets_.getD (ConcurrentMap.bucketNumber cm key) []) key

/-- Well-formedness of an accumulator: as many buckets as `bucket_count_`, at
least one, each a well-formed map that holds only keys routed to it. -/
def ConcurrentMap.WF (cm : ConcurrentMap) : Prop :=
  cm.buckets_.length = cm.bucket_count_ ∧ 0 < cm.bucket_count_ ∧
  ∀ i, StdMap.WF (cm.buckets_.getD i []) ∧
    ∀ k ∈ StdMap.keys (cm.buckets_.getD i []), ConcurrentMap.bucketNumber cm k = i

/-- The value the last of the buckets that holds `key` stores for it. -/
def lastInBuckets : List (StdMap Int ℚ) → Int → Option ℚ
  | [], _ => none
  | bucket :: rest, key =>
    match lastInBuckets rest key with
    | some v => some v
    | none => StdMap.find bucket key

/-- The verdict of a document predicate on a stored document: the predicate
applied to the id and to the status and rating `documents_` holds for it. -/
def SearchServer.accepts (s : SearchServer) (document_predicate : DocumentPredicate)
    (id : Int) : Bool :=
  match StdMap.find s.documents_ id with
  | some document_data => document_predicate id document_data.status document_data.rating
  | none => false

/-- Adding an optional contribution to an optional accumulator entry. -/
def optAdd (entry contribution : Option ℚ) : Option ℚ :=
  match contribution with
  | none => entry
  | some x => some (entry.getD 0 + x)

/-- What one plus word contributes to the relevance of a document: its term
frequency times the inverse document frequency of the word, when the document is
in the posting list of the word and the predicate accepts it. -/
def SearchServer.contribution (ln : ℚ → ℚ) (s : SearchServer)
    (document_predicate : DocumentPredicate) (word : Str) (id : Int) : Option ℚ :=
  if SearchServer.accepts s document_predicate id then
    (termFreq s.word_to_document_freqs_ word id).map
      (fun tf => tf * SearchServer.ComputeWordInverseDocumentFreq ln s word)
  else none

/-- The `Document` built from an entry of the ordinary map. -/
def SearchServer.toDocument (s : SearchServer) (entry : Int × ℚ) : Document :=
  { id := entry.1, relevance := entry.2,
    rating := ((StdMap.find s.documents_ entry.1).map (fun data => data.rating)).getD 0 }

/-- Example: the stop word `and`. -/
def exampleStopWords : StdSet Str := ["and".toList]

/-- Example: three documents are added. -/
def exampleOps : List Op :=
  [Op.add 0 "white cat and fluffy tail".toList DocumentStatus.ACTUAL [8, -3],
   Op.add 1 "well groomed dog".toList DocumentStatus.ACTUAL [7, 2, 7],
   Op.add 2 "cat dog cat".toList DocumentStatus.BANNED [9]]

/-- Example: the query `cat dog`, parsed. -/
def exampleQuery : Query := { plus_words := ["cat".toList, "dog".toList], minus_words := [] }

/-- Example: a stand-in for the library function `log`. -/
def exampleLog : ℚ → ℚ := fun x => x - 1

/-- Example: a server without stop words that holds the one document `cat dog`. -/
def exampleCatDog : SearchServer :=
  SearchServer.run [] [Op.add 0 "cat dog".toList DocumentStatus.ACTUAL [5]]

/-! ## search_server.cpp: matching -/

/-- The test both overloads of `MatchDocument` apply to a word: it is a key of the
index and `find(word)->second.count(document_id)` is not zero. -/
def SearchServer.wordInDocument (s : SearchServer) (document_id : Int) (word : Str) : Bool :=
  match StdMap.find s.word_to_document_freqs_ word with
  | none => false
  | some postings => decide (StdMap.count postings document_id > 0)

/-- The loop of `MatchDocument(seq, ..)` over the plus words. -/
def SearchServer.MatchDocument.plusWords (s : SearchServer) (document_id : Int) :
    List Str → List Str → List Str
  | [], matched_words => matched_words
  | word :: rest, matched_words =>
    match StdMap.find s.word_to_document_freqs_ word with
    | none => SearchServer.MatchDocument.plusWords s document_id rest matched_words
    | some postings =>
      if StdMap.count postings document_id > 0 then
        SearchServer.MatchDocument.plusWords s document_id rest (matched_words ++ [word])
      else SearchServer.MatchDocument.plusWords s document_id rest matched_words

/-- The loop of `MatchDocument(seq, ..)` over the minus words: the first minus
word found in the document clears the matched words and ends the loop. -/
def SearchServer.MatchDocument.minusWords (s : SearchServer) (document_id : Int) :
    List Str → List Str → List Str
  | [], matched_words => matched_words
  | word :: rest, matched_words =>
    match StdMap.find s.word_to_document_freqs_ word with
    | none => SearchServer.MatchDocument.minusWords s document_id rest matched_words
    | some postings =>
      if StdMap.count postings document_id > 0 then []
      else SearchServer.MatchDocument.minusWords s document_id rest matched_words

/-- `MatchDocument(seq, raw_query, document_id)`; `documents_.at` throws last. -/
def SearchServer.MatchDocument (s : SearchServer) (raw_query : Str) (document_id : Int) :
    Except Error (List Str × DocumentStatus) :=
  match SearchServer.ParseQuery s (SplitIntoWordsView raw_query) with
  | .error e => .error e
  | .ok query =>
    let matched_words := SearchServer.MatchDocument.plusWords s document_id query.plus_words []
    let matched_words :=
      SearchServer.MatchDocument.minusWords s document_id query.minus_words matched_words
    match StdMap.find s.documents_ document_id with
    | none => .error Error.out_of_range
    | some document_data => .ok (matched_words, document_data.status)

/-- `MatchDocument(par, raw_query, document_id)`: `copy_if` and `any_of`. -/
def SearchServer.MatchDocumentPar (s : SearchServer) (raw_query : Str) (document_id : Int) :
    Except Error (List Str × DocumentStatus) :=
  match SearchServer.ParseQuery s (SplitIntoWordsView raw_query) with
  | .error e => .error e
  | .ok query =>
    let matched_words := query.plus_words.filter (SearchServer.wordInDocument s document_id)
    let matched_words :=
      if query.minus_words.any (SearchServer.wordInDocument s document_id) then []
      else matched_words
    match StdMap.find s.documents_ document_id with
    | none => .error Error.out_of_range
    | some document_data => .ok (matched_words, document_data.status)

/-! ## remove_duplicates.h, remove_duplicates.cpp -/

/-- The call `std::equal(lhs.begin(), lhs.end(), rhs.begin(), pred)` of
`key_compare`, made only for ranges of equal size. -/
def key_compare.equal : StdMap Str ℚ → StdMap Str ℚ → Bool
  | [], _ => true
  | _ :: _, [] => false
  | a :: lhs, b :: rhs => decide (a.1 = b.1) && key_compare.equal lhs rhs

/-- `key_compare(lhs, rhs)`. -/
def key_compare (lhs rhs : StdMap Str ℚ) : Bool :=
  decide (lhs.length = rhs.length) && key_compare.equal lhs rhs

/-- The body of the inner loop of `RemoveDuplicates`. -/
def RemoveDuplicates.step (s : SearchServer) (document_id_out : Int)
    (deleted_documents : StdSet Int) (document_id_in : Int) : StdSet Int :=
  if document_id_out ≠ document_id_in then
    if key_compare (SearchServer.GetWordFrequencies s document_id_out)
        (SearchServer.GetWordFrequencies s document_id_in) then
      if document_id_out > document_id_in then StdSet.insert deleted_documents document_id_out
      else if document_id_out < document_id_in then
        StdSet.insert deleted_documents document_id_in
      else deleted_documents
    else deleted_documents
  else deleted_documents

/-- The two nested loops of `RemoveDuplicates` over the ids of the server. -/
def RemoveDuplicates.deleted (s : SearchServer) : StdSet Int :=
  s.document_ids_.foldl
    (fun deleted_documents document_id_out =>
      s.document_ids_.foldl (RemoveDuplicates.step s document_id_out) deleted_documents)
    []

/-- `RemoveDuplicates(search_server)`, without its output to `std::cout`. -/
def RemoveDuplicates (s : SearchServer) : SearchServer :=
  (RemoveDuplicates.deleted s).foldl SearchServer.RemoveDocument s

/-! ## Notions used to state the properties of queries and removal -/

/-- A token with one leading `-` stripped, if it has one. -/
def stripMinus (token : Str) : Str :=
  if token.head? = some '-' then token.drop 1 else token

/-- The four ways a query token is malformed: it is empty, it is a lone `-`, it
starts with `--`, or what follows the optional `-` has a character with code in 0..31. -/
def malformedToken (token : Str) : Prop :=
  token = [] ∨ stripMinus token = [] ∨ (stripMinus token).head? = some '-' ∨
    ∃ c ∈ stripMinus token, c.toNat < 32

/-! ## search_server.cpp: the parallel removal -/

/-- `RemoveDocument(par, document_id)`: `for_each` erases the id from the posting
list of every word, whether the list holds it or not. -/
def SearchServer.RemoveDocumentPar (s : SearchServer) (document_id : Int) : SearchServer :=
  { s with
    word_to_document_freqs_ := s.word_to_document_freqs_.map
      (fun word_id_freqs => (word_id_freqs.1, StdMap.erase word_id_freqs.2 document_id)),
    documents_ := StdMap.erase s.documents_ document_id,
    document_ids_ := StdSet.erase s.document_ids_ document_id }

/-- A call that changes the server, with either overload of `RemoveDocument`. -/
inductive Call where
  | AddDocument (document_id : Int) (document : Str) (status : DocumentStatus)
      (ratings : List Int)
  | RemoveDocument (document_id : Int)
  | RemoveDocumentPar (document_id : Int)

/-- The state after one call; a throwing `AddDocument` leaves what it leaves. -/
def SearchServer.call (s : SearchServer) : Call → SearchServer
  | Call.AddDocument document_id document status ratings =>
    (SearchServer.AddDocument s document_id document status ratings).2
  | Call.RemoveDocument document_id => SearchServer.RemoveDocument s document_id
  | Call.RemoveDocumentPar document_id => SearchServer.RemoveDocumentPar s document_id

/-- The state reached from a fresh server by a sequence of calls of the three kinds. -/
def SearchServer.calls (stop_words : StdSet Str) (calls : List Call) : SearchServer :=
  calls.foldl SearchServer.call (SearchServer.fresh stop_words)

/-- The same call with the sequenced overload of `RemoveDocument`. -/
def Call.sequenced : Call → Op
  | Call.AddDocument document_id document status ratings =>
    Op.add document_id document status ratings
  | Call.RemoveDocument document_id => Op.remove document_id
  | Call.RemoveDocumentPar document_id => Op.remove document_id

/-! ## request_queue.h, request_queue.cpp -/

/-- `class RequestQueue` without its reference to the server: the window of
flags and the `int` counter. -/
structure RequestQueue where
  requests_ : List Bool
  number_of_no_result_requests_ : Int
deriving DecidableEq

/-- `sec_in_day_`. -/
def RequestQueue.sec_in_day_ : Nat := 1440

/-- The constructor `RequestQueue(search_server)`. -/
def RequestQueue.new : RequestQueue :=
  { requests_ := [], number_of_no_result_requests_ := 0 }

/-- The first half of `UpdateRequests`: a full window loses its front. -/
def RequestQueue.UpdateRequests.popFront (q : RequestQueue) : RequestQueue :=
  if q.requests_.length = RequestQueue.sec_in_day_ then
    { requests_ := q.requests_.tail,
      number_of_no_result_requests_ :=
        if q.requests_.head? = some true then wrap32 (q.number_of_no_result_requests_ - 1)
        else q.number_of_no_result_requests_ }
  else q

/-- The second half of `UpdateRequests`: the flag is pushed and counted. -/
def RequestQueue.UpdateRequests.pushBack (q : RequestQueue) (is_last_result_empty : Bool) :
    RequestQueue :=
  { requests_ := q.requests_ ++ [is_last_result_empty],
    number_of_no_result_requests_ :=
      if (q.requests_ ++ [is_last_result_empty]).getLast? = some true then
        wrap32 (q.number_of_no_result_requests_ + 1)
      else q.number_of_no_result_requests_ }

/-- `UpdateRequests(is_last_result_empty)`. -/
def RequestQueue.UpdateRequests (q : RequestQueue) (is_last_result_empty : Bool) :
    RequestQueue :=
  RequestQueue.UpdateRequests.pushBack (RequestQueue.UpdateRequests.popFront q)
    is_last_result_empty

/-- `AddFindRequest(raw_query, document_predicate)`, given the state of the server
the queue refers to: a throw of `FindTopDocuments` comes before `UpdateRequests`
and leaves the queue as it was. -/
def RequestQueue.AddFindRequest (ln : ℚ → ℚ) (search_server_ : SearchServer)
    (q : RequestQueue) (raw_query : Str) (document_predicate : DocumentPredicate) :
    Except Error (List Document) × RequestQueue :=
  match SearchServer.FindTopDocuments ln search_server_ raw_query document_predicate with
  | .error e => (.error e, q)
  | .ok documents => (.ok documents, RequestQueue.UpdateRequests q documents.isEmpty)

/-- `AddFindRequest(raw_query, status)`. -/
def RequestQueue.AddFindRequestByStatus (ln : ℚ → ℚ) (search_server_ : SearchServer)
    (q : RequestQueue) (raw_query : Str) (status : DocumentStatus) :
    Except Error (List Document) × RequestQueue :=
  match SearchServer.FindTopDocumentsByStatus ln search_server_ raw_query status with
  | .error e => (.error e, q)
  | .ok documents => (.ok documents, RequestQueue.UpdateRequests q documents.isEmpty)

/-- `AddFindRequest(raw_query)`. -/
def RequestQueue.AddFindRequestActual (ln : ℚ → ℚ) (search_server_ : SearchServer)
    (q : RequestQueue) (raw_query : Str) : Except Error (List Document) × RequestQueue :=
  match SearchServer.FindTopDocumentsActual ln search_server_ raw_query with
  | .error e => (.error e, q)
  | .ok documents => (.ok documents, RequestQueue.UpdateRequests q documents.isEmpty)

/-- `GetNoResultRequests()`. -/
def RequestQueue.GetNoResultRequests (q : RequestQueue) : Int :=
  q.number_of_no_result_requests_

/-- One `AddFindRequest` call: its overload, its arguments and the state the
referenced server is in when the call is made. -/
inductive FindRequest where
  | byPredicate (search_server_ : SearchServer) (raw_query : Str)
      (document_predicate : DocumentPredicate)
  | byStatus (search_server_ : SearchServer) (raw_query : Str) (status : DocumentStatus)
  | actual (search_server_ : SearchServer) (raw_query : Str)

/-- What `FindTopDocuments` gives inside the call. -/
def FindRequest.result (ln : ℚ → ℚ) : FindRequest → Except Error (List Document)
  | FindRequest.byPredicate search_server_ raw_query document_predicate =>
    SearchServer.FindTopDocuments ln search_server_ raw_query document_predicate
  | FindRequest.byStatus search_server_ raw_query status =>
    SearchServer.FindTopDocumentsByStatus ln search_server_ raw_query status
  | FindRequest.actual search_server_ raw_query =>
    SearchServer.FindTopDocumentsActual ln search_server_ raw_query

/-- The queue after one `AddFindRequest` call. -/
def RequestQueue.serve (ln : ℚ → ℚ) (q : RequestQueue) : FindRequest → RequestQueue
  | FindRequest.byPredicate search_server_ raw_query document_predicate =>
    (RequestQueue.AddFindRequest ln search_server_ q raw_query document_predicate).2
  | FindRequest.byStatus search_server_ raw_query status =>
    (RequestQueue.AddFindRequestByStatus ln search_server_ q raw_query status).2
  | FindRequest.actual search_server_ raw_query =>
    (RequestQueue.AddFindRequestActual ln search_server_ q raw_query).2

/-- The queue after a sequence of `AddFindRequest` calls on a fresh queue. -/
def RequestQueue.run (ln : ℚ → ℚ) (requests : List FindRequest) : RequestQueue :=
  requests.foldl (RequestQueue.serve ln) RequestQueue.new

/-- The flag a call records: `some true` for an empty result, `some false` for a
result with documents, nothing for a call that throws. -/
def recordedFlag : Except Error (List Document) → Option Bool
  | .ok documents => some documents.isEmpty
  | .error _ => none

/-- The flags of the calls that returned, oldest first. -/
def recordedFlags (ln : ℚ → ℚ) (requests : List FindRequest) : List Bool :=
  requests.filterMap (fun request => recordedFlag (FindRequest.result ln request))

/-- The number of calls among the most recent `min(n, 1440)` of `n` calls whose
`FindTopDocuments` result was empty. -/
def emptyAmongRecent (ln : ℚ → ℚ) (requests : List FindRequest) : Nat :=
  ((requests.drop (requests.length - 1440)).filter
    (fun request => recordedFlag (FindRequest.result ln request) == some true)).length

/-- The relevances of two documents differ by less than `1e-6`. -/
def closeRelevance (a b : Document) : Prop :=
  abs (a.relevance - b.relevance) < 1 / 1000000

instance closeRelevance.decidable (a b : Document) : Decidable (closeRelevance a b) :=
  inferInstanceAs (Decidable (abs (a.relevance - b.relevance) < 1 / 1000000))

/-- Neither document comes before the other under `documentBefore`. -/
def incomparable (a b : Document) : Prop :=
  documentBefore a b = false ∧ documentBefore b a = false

/-! ## The library `sort` and its contract -/

/-- The requirement the library puts on the comparison handed to `sort`, on the
elements of the range: a strict weak ordering, that is irreflexive and transitive
with a transitive incomparability. -/
abbrev StrictWeakOn {α : Type} (comp : α → α → Bool) (l : List α) : Prop :=
  (∀ a ∈ l, comp a a = false) ∧
  (∀ a ∈ l, ∀ b ∈ l, ∀ c ∈ l, comp a b = true → comp b c = true → comp a c = true) ∧
  (∀ a ∈ l, ∀ b ∈ l, ∀ c ∈ l,
    (comp a b = false ∧ comp b a = false) → (comp b c = false ∧ comp c b = false) →
      (comp a c = false ∧ comp c a = false))

/-- `FindTopDocuments(policy, raw_query, document_predicate)` with the library call
`sort` as a parameter. -/
def SearchServer.FindTopDocumentsWith
    (sort : (Document → Document → Bool) → List Document → List Document) (ln : ℚ → ℚ)
    (s : SearchServer) (raw_query : Str) (document_predicate : DocumentPredicate) :
    Except Error (List Document) :=
  match SearchServer.ParseQuery s (SplitIntoWordsView raw_query) with
  | .error e => .error e
  | .ok query =>
    match SearchServer.FindAllDocuments ln s query document_predicate with
    | .error e => .error e
    | .ok found =>
      let matched_documents := sort documentBefore found
      .ok (if matched_documents.length > MAX_RESULT_DOCUMENT_COUNT then
        matched_documents.take MAX_RESULT_DOCUMENT_COUNT
      else matched_documents)

/-- The integer nearest to `x`, the even one of two equally near. -/
def roundHalfEven (x : ℚ) : Int :=
  if x - (⌊x⌋ : Int) < 1 / 2 then ⌊x⌋
  else if 1 / 2 < x - (⌊x⌋ : Int) then ⌊x⌋ + 1
  else if ⌊x⌋ % 2 = 0 then ⌊x⌋ else ⌊x⌋ + 1

/-- The number of halvings that take `n` below 2, counted with fuel: the position
of the leading bit of `n`. -/
def leadingBit : Nat → Nat → Nat
  | 0, _ => 0
  | fuel + 1, n => if 2 ≤ n then leadingBit fuel (n / 2) + 1 else 0

/-- The exponent `e` with `2 ^ e ≤ |x| < 2 ^ (e + 1)`, for `x ≠ 0`. -/
def floorLog2 (x : ℚ) : Int :=
  if x.num.natAbs * 2 ^ leadingBit x.den x.den <
      x.den * 2 ^ leadingBit x.num.natAbs x.num.natAbs then
    (leadingBit x.num.natAbs x.num.natAbs : Int) - (leadingBit x.den x.den : Int) - 1
  else (leadingBit x.num.natAbs x.num.natAbs : Int) - (leadingBit x.den x.den : Int)

/-- The power `2 ^ e` for an integer exponent. -/
def pow2 (e : Int) : ℚ :=
  if 0 ≤ e then ((2 ^ e.toNat : Nat) : ℚ) else 1 / ((2 ^ (-e).toNat : Nat) : ℚ)

/-- The `double` nearest to `x`, the one with an even significand of two equally
near (the default rounding of IEEE 754 binary64): 53 significant bits, and multiples
of `2 ^ (-1074)` below `2 ^ (-1022)`. Values beyond the largest finite `double` are
outside the model. -/
def roundDouble (x : ℚ) : ℚ :=
  if x = 0 then 0
  else
    (roundHalfEven (x / pow2 (max (floorLog2 x) (-1022) - 52)) : ℚ) *
      pow2 (max (floorLog2 x) (-1022) - 52)

/-- The statement `word_to_document_freqs_[word][document_id] += inv_word_count` of
`AddDocument`, with the rounding `fl` of the addition explicit. -/
def addWordFreqWith (fl : ℚ → ℚ) (freqs : StdMap Str (StdMap Int ℚ)) (word : Str)
    (document_id : Int) (inv_word_count : ℚ) : StdMap Str (StdMap Int ℚ) :=
  StdMap.upsert freqs word
    (fun postings => StdMap.upsert (postings.getD []) document_id
      (fun old => fl (old.getD 0 + inv_word_count)))

/-- `AddDocument(document_id, document, status, ratings)` with the arithmetic of
`double` explicit: `fl` rounds the conversion of `words.size()`, the quotient
`1.0 / words.size()` and every `+=`. With `fl` the identity this is `AddDocument`
in exact arithmetic; with `roundDouble` it is the arithmetic of the program. -/
def SearchServer.AddDocumentWith (fl : ℚ → ℚ) (s : SearchServer) (document_id : Int)
    (document : Str) (status : DocumentStatus) (ratings : List Int) :
    Except Error Unit × SearchServer :=
  if document_id < 0 ∨ StdMap.count s.documents_ document_id > 0 then
    (.error Error.invalid_argument, s)
  else
    match SearchServer.SplitIntoWordsNoStop s document with
    | .error e => (.error e, s)
    | .ok words =>
      let inv_word_count : ℚ := fl (1 / fl (words.length : ℚ))
      let freqs := words.foldl
        (fun freqs word => addWordFreqWith fl freqs word document_id inv_word_count)
        s.word_to_document_freqs_
      let documents := StdMap.emplace s.documents_ document_id
        { rating := ComputeAverageRating ratings, status := status }
      (.ok (), { s with
        word_to_document_freqs_ := freqs,
        documents_ := documents,
        document_ids_ := StdSet.insert s.document_ids_ document_id })

/-- The state after one call, in the arithmetic `fl`. -/
def SearchServer.applyWith (fl : ℚ → ℚ) (s : SearchServer) : Op → SearchServer
  | Op.add document_id document status ratings =>
    (SearchServer.AddDocumentWith fl s document_id document status ratings).2
  | Op.remove document_id => SearchServer.RemoveDocument s document_id

/-- The state reached from a fresh server by a sequence of calls, in the arithmetic `fl`. -/
def SearchServer.runWith (fl : ℚ → ℚ) (stop_words : StdSet Str) (ops : List Op) :
    SearchServer :=
  ops.foldl (SearchServer.applyWith fl) (SearchServer.fresh stop_words)

/-- The value of an entry created at `0.0` after `count` statements `+= inv_word_count`. -/
def accumulated (fl : ℚ → ℚ) (inv_word_count : ℚ) (count : Nat) : ℚ :=
  Nat.iterate (fun freq => fl (freq + inv_word_count)) count 0

/-! ## Facts about maps and sets -/

theorem StdMap.WF_cons {κ ν : Type} [LinearOrder κ] (k : κ) (v : ν) (m : StdMap κ ν) :
    StdMap.WF ((k, v) :: m) ↔ (∀ x ∈ StdMap.keys m, k < x) ∧ StdMap.WF m := by
  simp [StdMap.WF, StdMap.keys, List.pairwise_cons]

theorem StdMap.WF_nil {κ ν : Type} [LinearOrder κ] : StdMap.WF ([] : StdMap κ ν) := by
  simp [StdMap.WF, StdMap.keys]

theorem StdMap.keys_cons {κ ν : Type} (k : κ) (v : ν) (m : StdMap κ ν) :
    StdMap.keys ((k, v) :: m) = k :: StdMap.keys m := rfl

theorem StdMap.find_none_of_lt {κ ν : Type} [LinearOrder κ] (m : StdMap κ ν) (k : κ)
    (h : ∀ x ∈ StdMap.keys m, k < x) : StdMap.find m k = none := by
  induction m with
  | nil => rfl
  | cons e rest ih =>
    obtain ⟨k', v⟩ := e
    have h1 : k < k' := h k' (by simp [StdMap.keys])
    have h2 : ∀ x ∈ StdMap.keys rest, k < x :=
      fun x hx => h x (by rw [StdMap.keys_cons]; exact List.mem_cons_of_mem _ hx)
    simp [StdMap.find, ne_of_lt h1, ih h2]

theorem StdMap.find_isSome_iff {κ ν : Type} [LinearOrder κ] (m : StdMap κ ν) (k : κ) :
    (StdMap.find m k).isSome ↔ k ∈ StdMap.keys m := by
  induction m with
  | nil => simp [StdMap.find, StdMap.keys]
  | cons e rest ih =>
    obtain ⟨k', v⟩ := e
    by_cases hk : k = k'
    · simp [StdMap.find, StdMap.keys, hk]
    · simp [StdMap.find, StdMap.keys_cons, hk, ih]

theorem StdMap.find_eq_none_iff {κ ν : Type} [LinearOrder κ] (m : StdMap κ ν) (k : κ) :
    StdMap.find m k = none ↔ k ∉ StdMap.keys m := by
  rw [← StdMap.find_isSome_iff]
  cases StdMap.find m k <;> simp

theorem StdMap.mem_of_find {κ ν : Type} [LinearOrder κ] (m : StdMap κ ν) (k : κ) (v : ν)
    (h : StdMap.find m k = some v) : (k, v) ∈ m := by
  induction m with
  | nil => simp [StdMap.find] at h
  | cons e rest ih =>
    obtain ⟨k', w⟩ := e
    by_cases hk : k = k'
    · simp [StdMap.find, hk] at h
      simp [hk, h]
    · simp [StdMap.find, hk] at h
      exact List.mem_cons_of_mem _ (ih h)

theorem StdMap.find_of_mem {κ ν : Type} [LinearOrder κ] (m : StdMap κ ν) (k : κ) (v : ν)
    (hwf : StdMap.WF m) (h : (k, v) ∈ m) : StdMap.find m k = some v := by
  induction m with
  | nil => simp at h
  | cons e rest ih =>
    obtain ⟨k', w⟩ := e
    rw [StdMap.WF_cons] at hwf
    rcases List.mem_cons.mp h with heq | hin
    · injection heq with h1 h2
      simp [StdMap.find, h1, h2]
    · have hlt : k' < k := hwf.1 k (by
        simp only [StdMap.keys, List.mem_map]
        exact ⟨(k, v), hin, rfl⟩)
      simp [StdMap.find, ne_of_gt hlt, ih hwf.2 hin]

theorem StdMap.mem_keys_upsert {κ ν : Type} [LinearOrder κ] (m : StdMap κ ν) (k : κ)
    (f : Option ν → ν) (x : κ) :
    x ∈ StdMap.keys (StdMap.upsert m k f) ↔ x = k ∨ x ∈ StdMap.keys m := by
  induction m with
  | nil => simp [StdMap.upsert, StdMap.keys]
  | cons e rest ih =>
    obtain ⟨k', w⟩ := e
    unfold StdMap.upsert
    by_cases h1 : k < k'
    · simp [h1, StdMap.keys]
    · by_cases h2 : k = k'
      · simp [h1, h2, StdMap.keys]
      · simp only [h1, h2, if_false, StdMap.keys_cons, List.mem_cons, ih]
        tauto

theorem StdMap.WF_upsert {κ ν : Type} [LinearOrder κ] (m : StdMap κ ν) (k : κ)
    (f : Option ν → ν) (hwf : StdMap.WF m) : StdMap.WF (StdMap.upsert m k f) := by
  induction m with
  | nil => simp [StdMap.upsert, StdMap.WF, StdMap.keys]
  | cons e rest ih =>
    obtain ⟨k', w⟩ := e
    have hwf2 := (StdMap.WF_cons k' w rest).mp hwf
    unfold StdMap.upsert
    by_cases h1 : k < k'
    · simp only [h1, if_true]
      rw [StdMap.WF_cons]
      refine ⟨?_, hwf⟩
      intro x hx
      rw [StdMap.keys_cons] at hx
      rcases List.mem_cons.mp hx with hx | hx
      · rw [hx]; exact h1
      · exact lt_trans h1 (hwf2.1 x hx)
    · by_cases h2 : k = k'
      · subst h2
        simp only [lt_irrefl, if_true, if_false]
        rw [StdMap.WF_cons]
        exact hwf2
      · simp only [h1, h2, if_false]
        rw [StdMap.WF_cons]
        refine ⟨?_, ih hwf2.2⟩
        intro x hx
        rcases (StdMap.mem_keys_upsert rest k f x).mp hx with hx | hx
        · rw [hx]
          exact lt_of_le_of_ne (not_lt.mp h1) (Ne.symm h2)
        · exact hwf2.1 x hx

theorem StdMap.find_upsert_self {κ ν : Type} [LinearOrder κ] (m : StdMap κ ν) (k : κ)
    (f : Option ν → ν) (hwf : StdMap.WF m) :
    StdMap.find (StdMap.upsert m k f) k = some (f (StdMap.find m k)) := by
  induction m with
  | nil => simp [StdMap.upsert, StdMap.find]
  | cons e rest ih =>
    obtain ⟨k', w⟩ := e
    have hwf2 := (StdMap.WF_cons k' w rest).mp hwf
    unfold StdMap.upsert
    by_cases h1 : k < k'
    · have hnone : StdMap.find ((k', w) :: rest) k = none := by
        apply StdMap.find_none_of_lt
        intro x hx
        rw [StdMap.keys_cons] at hx
        rcases List.mem_cons.mp hx with hx | hx
        · rw [hx]; exact h1
        · exact lt_trans h1 (hwf2.1 x hx)
      simp only [h1, if_true, hnone]
      simp [StdMap.find]
    · by_cases h2 : k = k'
      · simp [h1, h2, StdMap.find]
      · simp [h1, h2, StdMap.find, ih hwf2.2]

theorem StdMap.find_upsert_ne {κ ν : Type} [LinearOrder κ] (m : StdMap κ ν) (k : κ)
    (f : Option ν → ν) (x : κ) (hx : x ≠ k) :
    StdMap.find (StdMap.upsert m k f) x = StdMap.find m x := by
  induction m with
  | nil => simp [StdMap.upsert, StdMap.find, hx]
  | cons e rest ih =>
    obtain ⟨k', w⟩ := e
    unfold StdMap.upsert
    by_cases h1 : k < k'
    · simp [h1, StdMap.find, hx]
    · by_cases h2 : k = k'
      · subst h2
        simp [StdMap.find, hx]
      · by_cases h3 : x = k'
        · simp [h1, h2, StdMap.find, h3]
        · simp [h1, h2, StdMap.find, h3, ih]

theorem StdMap.mem_keys_erase {κ ν : Type} [LinearOrder κ] (m : StdMap κ ν) (k x : κ)
    (hx : x ∈ StdMap.keys (StdMap.erase m k)) : x ∈ StdMap.keys m := by
  induction m with
  | nil => simp [StdMap.erase, StdMap.keys] at hx
  | cons e rest ih =>
    obtain ⟨k', w⟩ := e
    unfold StdMap.erase at hx
    by_cases h1 : k = k'
    · simp only [h1, if_true] at hx
      rw [StdMap.keys_cons]
      exact List.mem_cons_of_mem _ hx
    · simp only [h1, if_false, StdMap.keys_cons] at hx
      rw [StdMap.keys_cons]
      rcases List.mem_cons.mp hx with hx | hx
      · rw [hx]; exact List.mem_cons_self _ _
      · exact List.mem_cons_of_mem _ (ih hx)

theorem StdMap.WF_erase {κ ν : Type} [LinearOrder κ] (m : StdMap κ ν) (k : κ)
    (hwf : StdMap.WF m) : StdMap.WF (StdMap.erase m k) := by
  induction m with
  | nil => simp [StdMap.erase, StdMap.WF, StdMap.keys]
  | cons e rest ih =>
    obtain ⟨k', w⟩ := e
    have hwf2 := (StdMap.WF_cons k' w rest).mp hwf
    unfold StdMap.erase
    by_cases h1 : k = k'
    · simp only [h1, if_true]
      exact hwf2.2
    · simp only [h1, if_false]
      rw [StdMap.WF_cons]
      exact ⟨fun x hx => hwf2.1 x (StdMap.mem_keys_erase rest k x hx), ih hwf2.2⟩

theorem StdMap.find_erase_self {κ ν : Type} [LinearOrder κ] (m : StdMap κ ν) (k : κ)
    (hwf : StdMap.WF m) : StdMap.find (StdMap.erase m k) k = none := by
  induction m with
  | nil => simp [StdMap.erase, StdMap.find]
  | cons e rest ih =>
    obtain ⟨k', w⟩ := e
    have hwf2 := (StdMap.WF_cons k' w rest).mp hwf
    unfold StdMap.erase
    by_cases h1 : k = k'
    · simp only [h1, if_true]
      exact StdMap.find_none_of_lt rest k' hwf2.1
    · simp [h1, StdMap.find, ih hwf2.2]

theorem StdMap.find_erase_ne {κ ν : Type} [LinearOrder κ] (m : StdMap κ ν) (k x : κ)
    (hx : x ≠ k) : StdMap.find (StdMap.erase m k) x = StdMap.find m x := by
  induction m with
  | nil => simp [StdMap.erase, StdMap.find]
  | cons e rest ih =>
    obtain ⟨k', w⟩ := e
    unfold StdMap.erase
    by_cases h1 : k = k'
    · subst h1
      simp [StdMap.find, hx]
    · by_cases h3 : x = k'
      · simp [h1, StdMap.find, h3]
      · simp [h1, StdMap.find, h3, ih]

theorem StdSet.mem_insert {κ : Type} [LinearOrder κ] (s : StdSet κ) (k x : κ) :
    x ∈ StdSet.insert s k ↔ x = k ∨ x ∈ s := by
  induction s with
  | nil => simp [StdSet.insert]
  | cons k' rest ih =>
    unfold StdSet.insert
    by_cases h1 : k < k'
    · simp [h1]
    · by_cases h2 : k = k'
      · simp [h1, h2]
      · simp only [h1, h2, if_false, List.mem_cons, ih]
        tauto

/-! ## Tokenizing a query -/

theorem findSpace_lt (text : Str) (i : Nat) (h : findSpace text = some i) : i < text.length := by
  induction text generalizing i with
  | nil => simp [findSpace] at h
  | cons c rest ih =>
    unfold findSpace at h
    split at h
    · injection h with h
      subst h
      simp
    · cases hr : findSpace rest with
      | none => simp [hr] at h
      | some j =>
        simp [hr] at h
        subst h
        have := ih j hr
        simp
        omega

/-- The loop of `SplitIntoWordsView` stops by itself: any two bounds above the
length of the text give the same result, so the bound never cuts the loop short. -/
theorem SplitIntoWordsView_loop_fuel (fuel1 fuel2 : Nat) (text : Str) (words : List Str)
    (h1 : text.length < fuel1) (h2 : text.length < fuel2) :
    SplitIntoWordsView.loop fuel1 text words = SplitIntoWordsView.loop fuel2 text words := by
  induction fuel1 generalizing fuel2 text words with
  | zero => omega
  | succ n ih =>
    cases fuel2 with
    | zero => omega
    | succ m =>
      unfold SplitIntoWordsView.loop
      cases hf : findSpace text with
      | none => rfl
      | some i =>
        have hi := findSpace_lt text i hf
        have hlen : (text.drop (i + 1)).length < text.length := by
          rw [List.length_drop]
          omega
        exact ih m _ _ (by omega) (by omega)

/-! ## The two tokenizers and `List.splitOn` -/

theorem splitOn_space_cons (c : Char) (cs : Str) :
    (c :: cs).splitOn ' ' =
      if c = ' ' then [] :: cs.splitOn ' ' else (cs.splitOn ' ').modifyHead (List.cons c) := by
  unfold List.splitOn
  rw [List.splitOnP_cons]
  by_cases h : c = ' ' <;> simp [h]

theorem splitOn_space_nil : ([] : Str).splitOn ' ' = [[]] := by
  unfold List.splitOn
  exact List.splitOnP_nil _

theorem splitOn_of_findSpace_none (text : Str) (h : findSpace text = none) :
    text.splitOn ' ' = [text] := by
  induction text with
  | nil => exact splitOn_space_nil
  | cons c cs ih =>
    unfold findSpace at h
    by_cases hc : c = ' '
    · simp [hc] at h
    · simp only [hc, if_false, Option.map_eq_none'] at h
      rw [splitOn_space_cons, if_neg hc, ih h]
      rfl

theorem splitOn_of_findSpace_some (text : Str) (i : Nat) (h : findSpace text = some i) :
    text.splitOn ' ' = text.take i :: (text.drop (i + 1)).splitOn ' ' := by
  induction text generalizing i with
  | nil => simp [findSpace] at h
  | cons c cs ih =>
    unfold findSpace at h
    by_cases hc : c = ' '
    · simp only [hc, if_true] at h
      injection h with h
      subst h
      rw [splitOn_space_cons, if_pos hc]
      rfl
    · simp only [hc, if_false] at h
      cases hj : findSpace cs with
      | none => simp [hj] at h
      | some j =>
        rw [hj] at h
        simp only [Option.map_some', Option.some.injEq] at h
        subst h
        rw [splitOn_space_cons, if_neg hc, ih j hj]
        rfl

theorem SplitIntoWordsView_loop_eq (fuel : Nat) (text : Str) (words : List Str)
    (hfuel : text.length < fuel) :
    SplitIntoWordsView.loop fuel text words = words ++ text.splitOn ' ' := by
  induction fuel generalizing text words with
  | zero => omega
  | succ n ih =>
    unfold SplitIntoWordsView.loop
    cases hf : findSpace text with
    | none => simp only [splitOn_of_findSpace_none text hf]
    | some i =>
      have hi := findSpace_lt text i hf
      have hlen : (text.drop (i + 1)).length < n := by
        rw [List.length_drop]
        omega
      simp only []
      rw [ih _ _ hlen, splitOn_of_findSpace_some text i hf]
      simp

/-- `SplitIntoWordsView` returns every segment between two spaces, empty ones included. -/
theorem SplitIntoWordsView_eq (text : Str) : SplitIntoWordsView text = text.splitOn ' ' := by
  unfold SplitIntoWordsView
  rw [SplitIntoWordsView_loop_eq _ _ _ (Nat.lt_succ_self _)]
  rfl

theorem modifyHead_modifyHead {α : Type} (f g : α → α) (l : List α) :
    (l.modifyHead g).modifyHead f = l.modifyHead (f ∘ g) := by
  cases l <;> rfl

theorem modifyHead_id_append (l : List Str) :
    l.modifyHead (fun x => ([] : Str) ++ x) = l := by
  cases l <;> rfl

theorem splitOn_space_ne_nil (text : Str) : text.splitOn ' ' ≠ [] := by
  induction text with
  | nil => rw [splitOn_space_nil]; simp
  | cons c cs ih =>
    rw [splitOn_space_cons]
    split
    · simp
    · cases h : cs.splitOn ' ' with
      | nil => exact absurd h ih
      | cons a b => simp [List.modifyHead]

/-- The value `SplitIntoWords` returns from a state of its loop. -/
theorem SplitIntoWords_foldl (text : Str) (words : List Str) (word : Str) :
    (if (text.foldl SplitIntoWords.step (words, word)).2 ≠ [] then
        (text.foldl SplitIntoWords.step (words, word)).1 ++
          [(text.foldl SplitIntoWords.step (words, word)).2]
      else (text.foldl SplitIntoWords.step (words, word)).1) =
      words ++ ((text.splitOn ' ').modifyHead (fun x => word ++ x)).filter
        (fun x => !x.isEmpty) := by
  induction text generalizing words word with
  | nil =>
    rw [splitOn_space_nil]
    cases word with
    | nil => simp [List.modifyHead]
    | cons a b => simp [List.modifyHead]
  | cons c cs ih =>
    rw [List.foldl_cons, splitOn_space_cons]
    by_cases hc : c = ' '
    · rw [if_pos hc]
      cases word with
      | nil =>
        have hstep : SplitIntoWords.step (words, []) c = (words, []) := by
          simp [SplitIntoWords.step, hc]
        rw [hstep, ih words [], modifyHead_id_append]
        simp [List.modifyHead]
      | cons a b =>
        have hstep : SplitIntoWords.step (words, a :: b) c = (words ++ [a :: b], []) := by
          simp [SplitIntoWords.step, hc]
        rw [hstep, ih (words ++ [a :: b]) [], modifyHead_id_append]
        simp [List.modifyHead]
    · rw [if_neg hc]
      have hstep : SplitIntoWords.step (words, word) c = (words, word ++ [c]) := by
        simp [SplitIntoWords.step, hc]
      rw [hstep, ih words (word ++ [c]), modifyHead_modifyHead]
      congr 3
      funext x
      simp

/-- `SplitIntoWords` returns the non-empty segments between spaces. -/
theorem SplitIntoWords_eq (text : Str) :
    SplitIntoWords text = (text.splitOn ' ').filter (fun x => !x.isEmpty) := by
  unfold SplitIntoWords
  have h := SplitIntoWords_foldl text [] []
  rw [modifyHead_id_append] at h
  simpa using h

theorem not_mem_of_mem_splitOn (text : Str) (w : Str) (hw : w ∈ text.splitOn ' ') : ' ' ∉ w := by
  induction text generalizing w with
  | nil =>
    rw [splitOn_space_nil] at hw
    simp at hw
    simp [hw]
  | cons c cs ih =>
    rw [splitOn_space_cons] at hw
    by_cases hc : c = ' '
    · rw [if_pos hc] at hw
      rcases List.mem_cons.mp hw with hw | hw
      · simp [hw]
      · exact ih w hw
    · rw [if_neg hc] at hw
      cases h : cs.splitOn ' ' with
      | nil => simp [h, List.modifyHead] at hw
      | cons a b =>
        rw [h] at hw
        simp only [List.modifyHead] at hw
        rcases List.mem_cons.mp hw with hw | hw
        · rw [hw]
          intro hmem
          rcases List.mem_cons.mp hmem with hmem | hmem
          · exact hc hmem.symm
          · exact ih a (by rw [h]; exact List.mem_cons_self _ _) hmem
        · exact ih w (by rw [h]; exact List.mem_cons_of_mem _ hw)

/-- The tokens of `SplitIntoWords` are not empty and hold no space. -/
theorem SplitIntoWords_token (text : Str) (w : Str) (hw : w ∈ SplitIntoWords text) :
    w ≠ [] ∧ ' ' ∉ w := by
  rw [SplitIntoWords_eq, List.mem_filter] at hw
  refine ⟨?_, not_mem_of_mem_splitOn text w hw.1⟩
  intro h
  rw [h] at hw
  simp at hw

/-! ## Ingestion -/

theorem SplitIntoWordsNoStop_loop_eq (s : SearchServer) (tokens words : List Str) :
    SearchServer.SplitIntoWordsNoStop.loop s tokens words =
      if tokens.all IsValidWord then
        .ok (words ++ tokens.filter (fun word => !SearchServer.IsStopWord s word))
      else .error Error.invalid_argument := by
  induction tokens generalizing words with
  | nil => simp [SearchServer.SplitIntoWordsNoStop.loop]
  | cons t rest ih =>
    unfold SearchServer.SplitIntoWordsNoStop.loop
    by_cases hv : IsValidWord t = true
    · by_cases hs : SearchServer.IsStopWord s t = true
      · simp [hv, hs, ih]
      · simp [hv, hs, ih]
    · simp [hv]

theorem SplitIntoWordsNoStop_eq (s : SearchServer) (text : Str) :
    SearchServer.SplitIntoWordsNoStop s text =
      if (SplitIntoWords text).all IsValidWord then .ok (SearchServer.indexedWords s text)
      else .error Error.invalid_argument := by
  simp [SearchServer.SplitIntoWordsNoStop, SplitIntoWordsNoStop_loop_eq, SearchServer.indexedWords]

theorem StdMap.mem_upsert {κ ν : Type} [LinearOrder κ] (m : StdMap κ ν) (k : κ)
    (f : Option ν → ν) (e : κ × ν) (hwf : StdMap.WF m) (he : e ∈ StdMap.upsert m k f) :
    e ∈ m ∨ e = (k, f (StdMap.find m k)) := by
  have hfind := StdMap.find_of_mem (StdMap.upsert m k f) e.1 e.2 (StdMap.WF_upsert m k f hwf) he
  by_cases hk : e.1 = k
  · right
    rw [hk, StdMap.find_upsert_self m k f hwf] at hfind
    injection hfind with hfind
    exact Prod.ext hk hfind.symm
  · left
    rw [StdMap.find_upsert_ne m k f e.1 hk] at hfind
    exact StdMap.mem_of_find m e.1 e.2 hfind

theorem IndexWF_find (freqs : StdMap Str (StdMap Int ℚ)) (word : Str) (hwf : IndexWF freqs) :
    StdMap.WF ((StdMap.find freqs word).getD []) := by
  cases hf : StdMap.find freqs word with
  | none => exact StdMap.WF_nil
  | some postings => exact hwf.2 _ (StdMap.mem_of_find freqs word postings hf)

theorem IndexWF_addWordFreq (freqs : StdMap Str (StdMap Int ℚ)) (word : Str) (id : Int) (x : ℚ)
    (hwf : IndexWF freqs) : IndexWF (addWordFreq freqs word id x) := by
  refine ⟨StdMap.WF_upsert _ _ _ hwf.1, ?_⟩
  intro e he
  rcases StdMap.mem_upsert _ _ _ e hwf.1 he with he | he
  · exact hwf.2 e he
  · rw [he]
    exact StdMap.WF_upsert _ _ _ (IndexWF_find freqs word hwf)

theorem termFreq_addWordFreq (freqs : StdMap Str (StdMap Int ℚ)) (word : Str) (id : Int) (x : ℚ)
    (hwf : IndexWF freqs) (w : Str) (d : Int) :
    termFreq (addWordFreq freqs word id x) w d =
      if w = word ∧ d = id then some ((termFreq freqs word id).getD 0 + x)
      else termFreq freqs w d := by
  unfold termFreq addWordFreq
  by_cases hw : w = word
  · subst hw
    rw [StdMap.find_upsert_self _ _ _ hwf.1]
    by_cases hd : d = id
    · subst hd
      simp only [Option.some_bind, true_and, if_true]
      rw [StdMap.find_upsert_self _ _ _ (IndexWF_find freqs w hwf)]
      cases StdMap.find freqs w <;> simp [StdMap.find]
    · simp only [Option.some_bind, hd, and_false, if_false]
      rw [StdMap.find_upsert_ne _ _ _ _ hd]
      cases StdMap.find freqs w <;> simp [StdMap.find]
  · rw [StdMap.find_upsert_ne _ _ _ _ hw]
    simp [hw]

theorem IndexWF_foldl_addWordFreq (words : List Str) (id : Int) (x : ℚ)
    (freqs : StdMap Str (StdMap Int ℚ)) (hwf : IndexWF freqs) :
    IndexWF (words.foldl (fun freqs word => addWordFreq freqs word id x) freqs) := by
  induction words generalizing freqs with
  | nil => exact hwf
  | cons w rest ih => exact ih _ (IndexWF_addWordFreq freqs w id x hwf)

theorem termFreq_foldl_addWordFreq (words : List Str) (id : Int) (x : ℚ)
    (freqs : StdMap Str (StdMap Int ℚ)) (hwf : IndexWF freqs) (w : Str) (d : Int) :
    termFreq (words.foldl (fun freqs word => addWordFreq freqs word id x) freqs) w d =
      if d = id ∧ w ∈ words then some ((termFreq freqs w id).getD 0 + (words.count w : ℚ) * x)
      else termFreq freqs w d := by
  induction words generalizing freqs with
  | nil => simp
  | cons w0 rest ih =>
    rw [List.foldl_cons, ih _ (IndexWF_addWordFreq freqs w0 id x hwf)]
    rw [termFreq_addWordFreq freqs w0 id x hwf, termFreq_addWordFreq freqs w0 id x hwf]
    by_cases hd : d = id
    · subst hd
      by_cases hw : w = w0
      · subst hw
        by_cases hin : w ∈ rest
        · simp [hin, List.count_cons_self]
          ring
        · simp [hin, List.count_cons_self, List.count_eq_zero_of_not_mem hin]
      · by_cases hin : w ∈ rest
        · simp [hin, hw, List.count_cons_of_ne (Ne.symm hw)]
        · simp [hin, hw]
    · simp [hd]

theorem StdMap.count_pos_iff {κ ν : Type} [LinearOrder κ] (m : StdMap κ ν) (k : κ) :
    StdMap.count m k > 0 ↔ (StdMap.find m k).isSome := by
  unfold StdMap.count
  cases StdMap.find m k <;> simp

/-- `AddDocument` in closed form: the three ways to throw, and the state a
successful call builds. -/
theorem AddDocument_eq (s : SearchServer) (id : Int) (text : Str) (status : DocumentStatus)
    (ratings : List Int) :
    SearchServer.AddDocument s id text status ratings =
      if id < 0 ∨ (StdMap.find s.documents_ id).isSome ∨
          ¬ (SplitIntoWords text).all IsValidWord = true then
        (.error Error.invalid_argument, s)
      else
        (.ok (), { s with
          word_to_document_freqs_ := (SearchServer.indexedWords s text).foldl
            (fun freqs word => addWordFreq freqs word id
              (1 / ((SearchServer.indexedWords s text).length : ℚ)))
            s.word_to_document_freqs_,
          documents_ := StdMap.emplace s.documents_ id
            { rating := ComputeAverageRating ratings, status := status },
          document_ids_ := StdSet.insert s.document_ids_ id }) := by
  unfold SearchServer.AddDocument
  rw [SplitIntoWordsNoStop_eq]
  have hc := StdMap.count_pos_iff s.documents_ id
  by_cases h1 : id < 0
  · simp [h1]
  · by_cases h2 : (StdMap.find s.documents_ id).isSome = true
    · have h2c := hc.mpr h2
      simp [h2, h2c]
    · have h2c : ¬ StdMap.count s.documents_ id > 0 := fun h => h2 (hc.mp h)
      by_cases h3 : (SplitIntoWords text).all IsValidWord = true
      · simp [h1, h2, h2c, h3]
      · simp [h1, h2, h2c, h3]

theorem StdMap.find_emplace {κ ν : Type} [LinearOrder κ] (m : StdMap κ ν) (k : κ) (v : ν)
    (hwf : StdMap.WF m) (x : κ) :
    StdMap.find (StdMap.emplace m k v) x =
      if x = k then some ((StdMap.find m k).getD v) else StdMap.find m x := by
  unfold StdMap.emplace
  by_cases hx : x = k
  · subst hx
    simp [StdMap.find_upsert_self _ _ _ hwf]
  · simp [StdMap.find_upsert_ne _ _ _ _ hx, hx]

theorem AddDocument_Inv (s : SearchServer) (id : Int) (text : Str) (status : DocumentStatus)
    (ratings : List Int) (hinv : SearchServer.Inv s) :
    SearchServer.Inv (SearchServer.AddDocument s id text status ratings).2 := by
  rw [AddDocument_eq]
  split
  · exact hinv
  · refine ⟨IndexWF_foldl_addWordFreq _ _ _ _ hinv.index_wf,
      StdMap.WF_upsert _ _ _ hinv.documents_wf, ?_⟩
    intro word d hd
    simp only [] at hd ⊢
    rw [termFreq_foldl_addWordFreq _ _ _ _ hinv.index_wf] at hd
    rw [StdMap.find_emplace _ _ _ hinv.documents_wf]
    by_cases hdi : d = id
    · simp [hdi]
    · simp only [hdi, false_and, if_false] at hd ⊢
      exact hinv.postings_known word d hd

theorem StdMap.find_map {κ ν : Type} [LinearOrder κ] (m : StdMap κ ν) (g : κ × ν → κ × ν)
    (hg : ∀ e, (g e).1 = e.1) (k : κ) :
    StdMap.find (m.map g) k = (StdMap.find m k).map (fun v => (g (k, v)).2) := by
  induction m with
  | nil => simp [StdMap.find]
  | cons e rest ih =>
    obtain ⟨k', v⟩ := e
    have h1 : g (k', v) = (k', (g (k', v)).2) := Prod.ext (hg (k', v)) rfl
    rw [List.map_cons, h1]
    by_cases hk : k = k'
    · subst hk
      simp [StdMap.find]
    · simp [StdMap.find, hk, ih]

theorem StdMap.keys_map {κ ν : Type} (m : StdMap κ ν) (g : κ × ν → κ × ν)
    (hg : ∀ e, (g e).1 = e.1) : StdMap.keys (m.map g) = StdMap.keys m := by
  unfold StdMap.keys
  rw [List.map_map]
  apply List.map_congr_left
  intro e _
  exact hg e

/-- What `RemoveDocument` does to one entry of the index. -/
theorem removeEntry_fst (id : Int) (e : Str × StdMap Int ℚ) :
    (if StdMap.count e.2 id > 0 then (e.1, StdMap.erase e.2 id) else e).1 = e.1 := by
  split <;> rfl

theorem termFreq_RemoveDocument (s : SearchServer) (id : Int)
    (hwf : IndexWF s.word_to_document_freqs_) (w : Str) (d : Int) :
    termFreq (SearchServer.RemoveDocument s id).word_to_document_freqs_ w d =
      if d = id then none else termFreq s.word_to_document_freqs_ w d := by
  unfold termFreq SearchServer.RemoveDocument
  simp only []
  rw [StdMap.find_map _ _ (removeEntry_fst id)]
  cases hf : StdMap.find s.word_to_document_freqs_ w with
  | none => simp
  | some postings =>
    have hp : StdMap.WF postings := hwf.2 _ (StdMap.mem_of_find _ _ _ hf)
    simp only [Option.map_some', Option.some_bind]
    by_cases hc : StdMap.count postings id > 0
    · simp only [hc, if_true]
      by_cases hd : d = id
      · subst hd
        simp [StdMap.find_erase_self _ _ hp]
      · simp [hd, StdMap.find_erase_ne _ _ _ hd]
    · simp only [hc, if_false]
      by_cases hd : d = id
      · subst hd
        rw [StdMap.count_pos_iff] at hc
        simp only [if_true]
        cases hfd : StdMap.find postings d with
        | none => rfl
        | some v => simp [hfd] at hc
      · simp [hd]

theorem IndexWF_RemoveDocument (s : SearchServer) (id : Int)
    (hwf : IndexWF s.word_to_document_freqs_) :
    IndexWF (SearchServer.RemoveDocument s id).word_to_document_freqs_ := by
  unfold SearchServer.RemoveDocument
  simp only []
  constructor
  · unfold StdMap.WF
    rw [StdMap.keys_map _ _ (removeEntry_fst id)]
    exact hwf.1
  · intro e he
    obtain ⟨e0, he0, rfl⟩ := List.mem_map.mp he
    split
    · exact StdMap.WF_erase _ _ (hwf.2 e0 he0)
    · exact hwf.2 e0 he0

theorem RemoveDocument_Inv (s : SearchServer) (id : Int) (hinv : SearchServer.Inv s) :
    SearchServer.Inv (SearchServer.RemoveDocument s id) := by
  refine ⟨IndexWF_RemoveDocument s id hinv.index_wf, StdMap.WF_erase _ _ hinv.documents_wf, ?_⟩
  intro word d hd
  rw [termFreq_RemoveDocument s id hinv.index_wf] at hd
  by_cases hdi : d = id
  · simp [hdi] at hd
  · simp only [hdi, if_false] at hd
    show (StdMap.find (StdMap.erase s.documents_ id) d).isSome = true
    rw [StdMap.find_erase_ne _ _ _ hdi]
    exact hinv.postings_known word d hd

theorem fresh_Inv (stop_words : StdSet Str) : SearchServer.Inv (SearchServer.fresh stop_words) := by
  refine ⟨⟨StdMap.WF_nil, ?_⟩, StdMap.WF_nil, ?_⟩
  · intro e he
    simp [SearchServer.fresh] at he
  · intro word d hd
    simp [SearchServer.fresh, termFreq, StdMap.find] at hd

theorem apply_Inv (s : SearchServer) (op : Op) (hinv : SearchServer.Inv s) :
    SearchServer.Inv (SearchServer.apply s op) := by
  cases op with
  | add id text status ratings => exact AddDocument_Inv s id text status ratings hinv
  | remove id => exact RemoveDocument_Inv s id hinv

theorem foldl_apply_Inv (ops : List Op) (s : SearchServer) (hinv : SearchServer.Inv s) :
    SearchServer.Inv (ops.foldl SearchServer.apply s) := by
  induction ops generalizing s with
  | nil => exact hinv
  | cons op rest ih => exact ih _ (apply_Inv s op hinv)

/-- Every reachable state is consistent. -/
theorem run_Inv (stop_words : StdSet Str) (ops : List Op) :
    SearchServer.Inv (SearchServer.run stop_words ops) :=
  foldl_apply_Inv ops _ (fresh_Inv stop_words)

/-! ## Ratings -/

theorem wrap32_add_left (x y : Int) : wrap32 (wrap32 x + y) = wrap32 (x + y) := by
  unfold wrap32
  omega

theorem wrap32_of_fits (x : Int) (h1 : -2147483648 ≤ x) (h2 : x < 2147483648) : wrap32 x = x := by
  unfold wrap32
  omega

theorem foldl_wrap32 (ratings : List Int) (a : Int) :
    ratings.foldl (fun rating_sum rating => wrap32 (rating_sum + rating)) (wrap32 a) =
      wrap32 (a + ratings.sum) := by
  induction ratings generalizing a with
  | nil => simp
  | cons r rest ih =>
    rw [List.foldl_cons, wrap32_add_left, ih, List.sum_cons, add_assoc]

theorem ComputeAverageRating_eq (ratings : List Int) (hlen : ratings.length < 2147483648)
    (h1 : -2147483648 ≤ ratings.sum) (h2 : ratings.sum < 2147483648) :
    ComputeAverageRating ratings =
      if ratings.isEmpty then 0 else Int.tdiv ratings.sum (ratings.length : Int) := by
  unfold ComputeAverageRating
  split
  · rfl
  · have h0 : (0 : Int) = wrap32 0 := by decide
    have hs := foldl_wrap32 ratings 0
    rw [← h0, zero_add, wrap32_of_fits _ h1 h2] at hs
    have hn : wrap32 (ratings.length : Int) = (ratings.length : Int) :=
      wrap32_of_fits _ (by omega) (by omega)
    simp only [hs, hn]

/-! ## Word frequencies of a document -/

theorem StdMap.upsert_of_gt {κ ν : Type} [LinearOrder κ] (m : StdMap κ ν) (k : κ)
    (f : Option ν → ν) (h : ∀ x ∈ StdMap.keys m, x < k) :
    StdMap.upsert m k f = m ++ [(k, f none)] := by
  induction m with
  | nil => rfl
  | cons e rest ih =>
    obtain ⟨k', w⟩ := e
    have h1 : k' < k := h k' (by simp [StdMap.keys])
    have h2 : ∀ x ∈ StdMap.keys rest, x < k :=
      fun x hx => h x (by rw [StdMap.keys_cons]; exact List.mem_cons_of_mem _ hx)
    unfold StdMap.upsert
    simp [not_lt_of_gt h1, ne_of_gt h1, ih h2]

theorem keys_filterMap_wordFreqEntry (id : Int) (freqs : StdMap Str (StdMap Int ℚ)) (w : Str)
    (hw : w ∈ StdMap.keys (freqs.filterMap (wordFreqEntry id))) : w ∈ StdMap.keys freqs := by
  simp only [StdMap.keys, List.mem_map, List.mem_filterMap] at hw ⊢
  obtain ⟨e, ⟨e0, he0, hmap⟩, rfl⟩ := hw
  refine ⟨e0, he0, ?_⟩
  unfold wordFreqEntry at hmap
  cases hf : StdMap.find e0.2 id with
  | none => simp [hf] at hmap
  | some v =>
    simp [hf] at hmap
    rw [← hmap]

theorem foldl_wordFrequencies (id : Int) (freqs : StdMap Str (StdMap Int ℚ))
    (acc : StdMap Str ℚ) (hwf : StdMap.WF freqs)
    (hlt : ∀ a ∈ StdMap.keys acc, ∀ b ∈ StdMap.keys freqs, a < b) :
    freqs.foldl
      (fun word_frequencies entry =>
        match StdMap.find entry.2 id with
        | some freq => StdMap.emplace word_frequencies entry.1 freq
        | none => word_frequencies)
      acc = acc ++ freqs.filterMap (wordFreqEntry id) := by
  induction freqs generalizing acc with
  | nil => simp
  | cons e rest ih =>
    obtain ⟨k, p⟩ := e
    have hwf2 := (StdMap.WF_cons k p rest).mp hwf
    rw [List.foldl_cons]
    cases hf : StdMap.find p id with
    | none =>
      simp only [hf]
      rw [ih acc hwf2.2 (fun a ha b hb => hlt a ha b (by
        rw [StdMap.keys_cons]; exact List.mem_cons_of_mem _ hb))]
      simp [List.filterMap_cons, wordFreqEntry, hf]
    | some v =>
      simp only [hf]
      have hk : ∀ a ∈ StdMap.keys acc, a < k :=
        fun a ha => hlt a ha k (by simp [StdMap.keys])
      have hem : StdMap.emplace acc k v = acc ++ [(k, v)] := by
        unfold StdMap.emplace
        rw [StdMap.upsert_of_gt acc k _ hk]
        rfl
      rw [hem, ih _ hwf2.2 ?_]
      · simp [List.filterMap_cons, wordFreqEntry, hf]
      · intro a ha b hb
        simp only [StdMap.keys, List.map_append, List.mem_append, List.map_cons, List.map_nil,
          List.mem_singleton] at ha
        rcases ha with ha | ha
        · exact hlt a ha b (by rw [StdMap.keys_cons]; exact List.mem_cons_of_mem _ hb)
        · rw [ha]
          exact hwf2.1 b hb

theorem GetWordFrequencies_eq (s : SearchServer) (id : Int)
    (hwf : StdMap.WF s.word_to_document_freqs_) :
    SearchServer.GetWordFrequencies s id =
      s.word_to_document_freqs_.filterMap (wordFreqEntry id) := by
  unfold SearchServer.GetWordFrequencies
  rw [foldl_wordFrequencies id _ [] hwf (by simp [StdMap.keys])]
  simp

theorem find_filterMap_wordFreqEntry (id : Int) (freqs : StdMap Str (StdMap Int ℚ))
    (hwf : StdMap.WF freqs) (w : Str) :
    StdMap.find (freqs.filterMap (wordFreqEntry id)) w = termFreq freqs w id := by
  induction freqs with
  | nil => simp [StdMap.find, termFreq]
  | cons e rest ih =>
    obtain ⟨k, p⟩ := e
    have hwf2 := (StdMap.WF_cons k p rest).mp hwf
    have hrest : w = k → termFreq rest w id = none := by
      intro hwk
      have : StdMap.find rest w = none := by
        rw [hwk]
        exact StdMap.find_none_of_lt rest k hwf2.1
      simp [termFreq, this]
    cases hf : StdMap.find p id with
    | none =>
      simp only [List.filterMap_cons, wordFreqEntry, hf, Option.map_none']
      rw [ih hwf2.2]
      by_cases hwk : w = k
      · rw [hrest hwk]
        simp [termFreq, StdMap.find, hwk, hf]
      · simp [termFreq, StdMap.find, hwk]
    | some v =>
      simp only [List.filterMap_cons, wordFreqEntry, hf, Option.map_some']
      by_cases hwk : w = k
      · simp [termFreq, StdMap.find, hwk, hf]
      · simp only [StdMap.find, hwk, if_false]
        rw [ih hwf2.2]
        simp [termFreq, StdMap.find, hwk]

theorem WF_filterMap_wordFreqEntry (id : Int) (freqs : StdMap Str (StdMap Int ℚ))
    (hwf : StdMap.WF freqs) : StdMap.WF (freqs.filterMap (wordFreqEntry id)) := by
  induction freqs with
  | nil => exact StdMap.WF_nil
  | cons e rest ih =>
    obtain ⟨k, p⟩ := e
    have hwf2 := (StdMap.WF_cons k p rest).mp hwf
    cases hf : StdMap.find p id with
    | none =>
      simp only [List.filterMap_cons, wordFreqEntry, hf, Option.map_none']
      exact ih hwf2.2
    | some v =>
      simp only [List.filterMap_cons, wordFreqEntry, hf, Option.map_some']
      rw [StdMap.WF_cons]
      exact ⟨fun x hx => hwf2.1 x (keys_filterMap_wordFreqEntry id rest x hx), ih hwf2.2⟩

/-- `GetWordFrequencies` is a well-formed map whose lookup is the stored term frequency. -/
theorem GetWordFrequencies_spec (s : SearchServer) (id : Int)
    (hwf : StdMap.WF s.word_to_document_freqs_) :
    StdMap.WF (SearchServer.GetWordFrequencies s id) ∧
      ∀ w, StdMap.find (SearchServer.GetWordFrequencies s id) w =
        termFreq s.word_to_document_freqs_ w id := by
  rw [GetWordFrequencies_eq s id hwf]
  exact ⟨WF_filterMap_wordFreqEntry id _ hwf, find_filterMap_wordFreqEntry id _ hwf⟩

/-! ## The concurrent accumulator -/

theorem getD_set {α : Type} (l : List α) (i j : Nat) (x d : α) (hi : i < l.length) :
    (l.set i x).getD j d = if j = i then x else l.getD j d := by
  rw [List.getD_eq_getElem?_getD, List.getD_eq_getElem?_getD, List.getElem?_set]
  by_cases hij : i = j
  · subst hij
    simp [hi]
  · have hji : ¬ j = i := fun h => hij h.symm
    simp [hij, hji]

theorem ConcurrentMap.bucketNumber_lt (cm : ConcurrentMap) (hwf : ConcurrentMap.WF cm) (key : Int) :
    ConcurrentMap.bucketNumber cm key < cm.buckets_.length := by
  unfold ConcurrentMap.bucketNumber
  rw [hwf.1]
  exact Nat.mod_lt _ hwf.2.1

theorem ConcurrentMap.WF_new (n : Nat) (hn : 0 < n) : ConcurrentMap.WF (ConcurrentMap.new n) := by
  refine ⟨by simp [ConcurrentMap.new], hn, ?_⟩
  intro i
  have h : (List.replicate n ([] : StdMap Int ℚ)).getD i [] = [] := by
    rw [List.getD_eq_getElem?_getD, List.getElem?_replicate]
    split <;> rfl
  simp only [ConcurrentMap.new, h]
  exact ⟨StdMap.WF_nil, by simp [StdMap.keys]⟩

theorem ConcurrentMap.get_new (n : Nat) (key : Int) :
    ConcurrentMap.get (ConcurrentMap.new n) key = none := by
  have h : ∀ i, (List.replicate n ([] : StdMap Int ℚ)).getD i [] = [] := by
    intro i
    rw [List.getD_eq_getElem?_getD, List.getElem?_replicate]
    split <;> rfl
  simp [ConcurrentMap.get, ConcurrentMap.new, h, StdMap.find]

theorem ConcurrentMap.WF_add (cm : ConcurrentMap) (hwf : ConcurrentMap.WF cm) (key : Int) (v : ℚ) :
    ConcurrentMap.WF (ConcurrentMap.add cm key v) := by
  have hlt := ConcurrentMap.bucketNumber_lt cm hwf key
  refine ⟨?_, hwf.2.1, ?_⟩
  · simp [ConcurrentMap.add, hwf.1]
  · intro i
    have hbn : ∀ k, ConcurrentMap.bucketNumber (ConcurrentMap.add cm key v) k =
        ConcurrentMap.bucketNumber cm k := fun k => rfl
    have hset : (ConcurrentMap.add cm key v).buckets_ =
        cm.buckets_.set (ConcurrentMap.bucketNumber cm key)
          (StdMap.upsert (cm.buckets_.getD (ConcurrentMap.bucketNumber cm key) []) key
            (fun old => old.getD 0 + v)) := rfl
    simp only [hbn]
    rw [hset, getD_set _ _ _ _ _ hlt]
    by_cases hi : i = ConcurrentMap.bucketNumber cm key
    · simp only [hi, if_true]
      refine ⟨StdMap.WF_upsert _ _ _ (hwf.2.2 _).1, ?_⟩
      intro k hk
      rcases (StdMap.mem_keys_upsert _ _ _ _).mp hk with hk | hk
      · rw [hk]
      · exact (hwf.2.2 _).2 k hk
    · simp only [hi, if_false]
      exact hwf.2.2 i

theorem ConcurrentMap.get_add (cm : ConcurrentMap) (hwf : ConcurrentMap.WF cm) (key : Int) (v : ℚ)
    (k : Int) :
    ConcurrentMap.get (ConcurrentMap.add cm key v) k =
      if k = key then some ((ConcurrentMap.get cm key).getD 0 + v) else ConcurrentMap.get cm k := by
  have hlt := ConcurrentMap.bucketNumber_lt cm hwf key
  show StdMap.find ((cm.buckets_.set _ _).getD (ConcurrentMap.bucketNumber cm k) []) k = _
  rw [getD_set _ _ _ _ _ hlt]
  by_cases hk : k = key
  · subst hk
    simp only [if_true]
    rw [StdMap.find_upsert_self _ _ _ (hwf.2.2 _).1]
    rfl
  · simp only [hk, if_false]
    by_cases hb : ConcurrentMap.bucketNumber cm k = ConcurrentMap.bucketNumber cm key
    · simp only [hb, if_true]
      rw [StdMap.find_upsert_ne _ _ _ _ hk]
      unfold ConcurrentMap.get
      rw [hb]
    · simp only [hb, if_false]
      rfl

/-- The inner loop of `BuildOrdinaryMap`: the entries of the bucket overwrite the result. -/
theorem foldl_assign_spec (bucket : StdMap Int ℚ) (result : StdMap Int ℚ)
    (hr : StdMap.WF result) (hb : StdMap.WF bucket) :
    StdMap.WF (bucket.foldl (fun result kv => StdMap.upsert result kv.1 (fun _ => kv.2)) result) ∧
    ∀ k, StdMap.find
        (bucket.foldl (fun result kv => StdMap.upsert result kv.1 (fun _ => kv.2)) result) k =
      match StdMap.find bucket k with
      | some v => some v
      | none => StdMap.find result k := by
  induction bucket generalizing result with
  | nil =>
    refine ⟨hr, ?_⟩
    intro k
    simp [StdMap.find]
  | cons e rest ih =>
    obtain ⟨k0, v0⟩ := e
    have hb2 := (StdMap.WF_cons k0 v0 rest).mp hb
    rw [List.foldl_cons]
    have ih2 := ih (StdMap.upsert result k0 (fun _ => v0)) (StdMap.WF_upsert _ _ _ hr) hb2.2
    refine ⟨ih2.1, ?_⟩
    intro k
    rw [ih2.2 k]
    by_cases hk : k = k0
    · subst hk
      rw [StdMap.find_none_of_lt rest k hb2.1]
      simp [StdMap.find, StdMap.find_upsert_self _ _ _ hr]
    · simp only [StdMap.find, hk, if_false]
      rw [StdMap.find_upsert_ne _ _ _ _ hk]

theorem foldl_buckets_spec (buckets : List (StdMap Int ℚ)) (result : StdMap Int ℚ)
    (hr : StdMap.WF result) (hb : ∀ b ∈ buckets, StdMap.WF b) :
    StdMap.WF (buckets.foldl
      (fun result bucket =>
        bucket.foldl (fun result kv => StdMap.upsert result kv.1 (fun _ => kv.2)) result)
      result) ∧
    ∀ k, StdMap.find (buckets.foldl
      (fun result bucket =>
        bucket.foldl (fun result kv => StdMap.upsert result kv.1 (fun _ => kv.2)) result)
      result) k =
      match lastInBuckets buckets k with
      | some v => some v
      | none => StdMap.find result k := by
  induction buckets generalizing result with
  | nil =>
    refine ⟨hr, ?_⟩
    intro k
    simp [lastInBuckets]
  | cons b rest ih =>
    rw [List.foldl_cons]
    have h1 := foldl_assign_spec b result hr (hb b (List.mem_cons_self _ _))
    have ih2 := ih _ h1.1 (fun b2 hb2 => hb b2 (List.mem_cons_of_mem _ hb2))
    refine ⟨ih2.1, ?_⟩
    intro k
    rw [ih2.2 k, h1.2 k]
    have hl : lastInBuckets (b :: rest) k =
        match lastInBuckets rest k with
        | some v => some v
        | none => StdMap.find b k := rfl
    rw [hl]
    cases lastInBuckets rest k <;> rfl

theorem lastInBuckets_some (buckets : List (StdMap Int ℚ)) (k : Int) (v : ℚ)
    (h : lastInBuckets buckets k = some v) : ∃ b ∈ buckets, StdMap.find b k = some v := by
  induction buckets with
  | nil => simp [lastInBuckets] at h
  | cons b rest ih =>
    unfold lastInBuckets at h
    cases hr : lastInBuckets rest k with
    | some v2 =>
      rw [hr] at h
      injection h with h
      subst h
      obtain ⟨b2, hb2, hf⟩ := ih hr
      exact ⟨b2, List.mem_cons_of_mem _ hb2, hf⟩
    | none =>
      rw [hr] at h
      exact ⟨b, List.mem_cons_self _ _, h⟩

theorem lastInBuckets_none (buckets : List (StdMap Int ℚ)) (k : Int)
    (h : lastInBuckets buckets k = none) : ∀ b ∈ buckets, StdMap.find b k = none := by
  induction buckets with
  | nil => simp
  | cons b rest ih =>
    unfold lastInBuckets at h
    cases hr : lastInBuckets rest k with
    | some v2 => simp [hr] at h
    | none =>
      rw [hr] at h
      intro b2 hb2
      rcases List.mem_cons.mp hb2 with hb2 | hb2
      · rw [hb2]; exact h
      · exact ih hr b2 hb2

theorem ConcurrentMap.find_bucket (cm : ConcurrentMap) (hwf : ConcurrentMap.WF cm)
    (b : StdMap Int ℚ) (hb : b ∈ cm.buckets_) (k : Int) (v : ℚ) (hf : StdMap.find b k = some v) :
    ConcurrentMap.get cm k = some v := by
  obtain ⟨i, hi, hbi⟩ := List.getElem_of_mem hb
  have hget : cm.buckets_.getD i [] = b := by
    rw [List.getD_eq_getElem?_getD, List.getElem?_eq_getElem hi, hbi]
    rfl
  have hkey : k ∈ StdMap.keys (cm.buckets_.getD i []) := by
    rw [hget, ← StdMap.find_isSome_iff, hf]
    rfl
  have hbn := (hwf.2.2 i).2 k hkey
  unfold ConcurrentMap.get
  rw [hbn, hget, hf]

/-- `BuildOrdinaryMap` of a well-formed accumulator is a well-formed map with the
same entries. -/
theorem ConcurrentMap.BuildOrdinaryMap_spec (cm : ConcurrentMap) (hwf : ConcurrentMap.WF cm) :
    StdMap.WF (ConcurrentMap.BuildOrdinaryMap cm) ∧
    ∀ k, StdMap.find (ConcurrentMap.BuildOrdinaryMap cm) k = ConcurrentMap.get cm k := by
  have hb : ∀ b ∈ cm.buckets_, StdMap.WF b := by
    intro b hb
    obtain ⟨i, hi, hbi⟩ := List.getElem_of_mem hb
    have hget : cm.buckets_.getD i [] = b := by
      rw [List.getD_eq_getElem?_getD, List.getElem?_eq_getElem hi, hbi]
      rfl
    rw [← hget]
    exact (hwf.2.2 i).1
  have hspec := foldl_buckets_spec cm.buckets_ [] StdMap.WF_nil hb
  refine ⟨hspec.1, ?_⟩
  intro k
  unfold ConcurrentMap.BuildOrdinaryMap
  rw [hspec.2 k]
  cases hl : lastInBuckets cm.buckets_ k with
  | some v =>
    obtain ⟨b, hbm, hf⟩ := lastInBuckets_some _ _ _ hl
    exact (ConcurrentMap.find_bucket cm hwf b hbm k v hf).symm
  | none =>
    have hnone := lastInBuckets_none _ _ hl
    simp only [StdMap.find]
    unfold ConcurrentMap.get
    by_cases hi : ConcurrentMap.bucketNumber cm k < cm.buckets_.length
    · rw [List.getD_eq_getElem?_getD, List.getElem?_eq_getElem hi]
      exact (hnone _ (List.getElem_mem _)).symm
    · exact absurd (ConcurrentMap.bucketNumber_lt cm hwf k) hi

/-! ## Ranking: the loops of `FindAllDocuments` -/

theorem optAdd_none (o : Option ℚ) : optAdd o none = o := rfl

theorem accepts_of_find (s : SearchServer) (pred : DocumentPredicate) (id : Int)
    (data : DocumentData) (h : StdMap.find s.documents_ id = some data) :
    SearchServer.accepts s pred id = pred id data.status data.rating := by
  simp [SearchServer.accepts, h]

theorem plusPostings_spec (s : SearchServer) (pred : DocumentPredicate) (idf : ℚ)
    (postings : StdMap Int ℚ) (acc : ConcurrentMap) (hp : StdMap.WF postings)
    (hknown : ∀ id ∈ StdMap.keys postings, (StdMap.find s.documents_ id).isSome)
    (hacc : ConcurrentMap.WF acc) :
    ∃ acc1, SearchServer.FindAllDocuments.plusPostings s pred idf postings acc = .ok acc1 ∧
      ConcurrentMap.WF acc1 ∧
      ∀ d, ConcurrentMap.get acc1 d =
        optAdd (ConcurrentMap.get acc d)
          (if SearchServer.accepts s pred d then (StdMap.find postings d).map (fun tf => tf * idf)
           else none) := by
  induction postings generalizing acc with
  | nil =>
    refine ⟨acc, rfl, hacc, ?_⟩
    intro d
    simp [StdMap.find, optAdd]
  | cons e rest ih =>
    obtain ⟨k, f⟩ := e
    have hp2 := (StdMap.WF_cons k f rest).mp hp
    have hk : (StdMap.find s.documents_ k).isSome := hknown k (by simp [StdMap.keys])
    obtain ⟨data, hdata⟩ := Option.isSome_iff_exists.mp hk
    have hacc1 : ConcurrentMap.WF
        (if pred k data.status data.rating then ConcurrentMap.add acc k (f * idf) else acc) := by
      split
      · exact ConcurrentMap.WF_add acc hacc k _
      · exact hacc
    obtain ⟨acc2, hrun, hwf2, hget⟩ := ih _ hp2.2
      (fun id hid => hknown id (by rw [StdMap.keys_cons]; exact List.mem_cons_of_mem _ hid)) hacc1
    refine ⟨acc2, ?_, hwf2, ?_⟩
    · unfold SearchServer.FindAllDocuments.plusPostings
      simp only [hdata]
      exact hrun
    · intro d
      rw [hget d]
      by_cases hd : d = k
      · subst hd
        rw [StdMap.find_none_of_lt rest d hp2.1, accepts_of_find s pred d data hdata]
        by_cases hpr : pred d data.status data.rating = true
        · simp [hpr, StdMap.find, optAdd, ConcurrentMap.get_add acc hacc]
        · simp [hpr, StdMap.find, optAdd]
      · have hget1 : ConcurrentMap.get
            (if pred k data.status data.rating then ConcurrentMap.add acc k (f * idf) else acc) d =
            ConcurrentMap.get acc d := by
          split
          · rw [ConcurrentMap.get_add acc hacc, if_neg hd]
          · rfl
        rw [hget1]
        simp [StdMap.find, hd]

theorem plusWords_spec (ln : ℚ → ℚ) (s : SearchServer) (pred : DocumentPredicate)
    (hinv : SearchServer.Inv s) (words : List Str) (acc : ConcurrentMap)
    (hacc : ConcurrentMap.WF acc) :
    ∃ acc1, SearchServer.FindAllDocuments.plusWords ln s pred words acc = .ok acc1 ∧
      ConcurrentMap.WF acc1 ∧
      ∀ d, ConcurrentMap.get acc1 d =
        words.foldl (fun o w => optAdd o (SearchServer.contribution ln s pred w d))
          (ConcurrentMap.get acc d) := by
  induction words generalizing acc with
  | nil => exact ⟨acc, rfl, hacc, fun d => rfl⟩
  | cons w rest ih =>
    cases hf : StdMap.find s.word_to_document_freqs_ w with
    | none =>
      obtain ⟨acc2, hrun, hwf2, hget⟩ := ih acc hacc
      refine ⟨acc2, ?_, hwf2, ?_⟩
      · unfold SearchServer.FindAllDocuments.plusWords
        simp only [hf]
        exact hrun
      · intro d
        rw [hget d, List.foldl_cons]
        have hc : SearchServer.contribution ln s pred w d = none := by
          unfold SearchServer.contribution termFreq
          rw [hf]
          split <;> rfl
        rw [hc, optAdd_none]
    | some postings =>
      have hpwf : StdMap.WF postings := hinv.index_wf.2 _ (StdMap.mem_of_find _ _ _ hf)
      have hknown : ∀ id ∈ StdMap.keys postings, (StdMap.find s.documents_ id).isSome := by
        intro id hid
        apply hinv.postings_known w id
        unfold termFreq
        rw [hf]
        exact (StdMap.find_isSome_iff postings id).mpr hid
      obtain ⟨acc1, hrun1, hwf1, hget1⟩ := plusPostings_spec s pred
        (SearchServer.ComputeWordInverseDocumentFreq ln s w) postings acc hpwf hknown hacc
      obtain ⟨acc2, hrun2, hwf2, hget2⟩ := ih acc1 hwf1
      refine ⟨acc2, ?_, hwf2, ?_⟩
      · unfold SearchServer.FindAllDocuments.plusWords
        simp only [hf, hrun1]
        exact hrun2
      · intro d
        rw [hget2 d, List.foldl_cons, hget1 d]
        have hc : SearchServer.contribution ln s pred w d =
            (if SearchServer.accepts s pred d then
              (StdMap.find postings d).map
                (fun tf => tf * SearchServer.ComputeWordInverseDocumentFreq ln s w)
             else none) := by
          unfold SearchServer.contribution termFreq
          rw [hf]
          rfl
        rw [hc]

/-- The minus-word loop erases from temporaries only: the accumulator is unchanged. -/
theorem minusWords_eq (s : SearchServer) (words : List Str) (acc : ConcurrentMap) :
    SearchServer.FindAllDocuments.minusWords s words acc = acc := by
  induction words generalizing acc with
  | nil => rfl
  | cons w rest ih =>
    unfold SearchServer.FindAllDocuments.minusWords
    have hfold : ∀ (postings : List (Int × ℚ)) (a : ConcurrentMap),
        postings.foldl (fun acc doc_id_word_freqs =>
          (eraseFromOrdinaryMap acc doc_id_word_freqs.1).1) a = a := by
      intro postings
      induction postings with
      | nil => intro a; rfl
      | cons p ps ihp =>
        intro a
        rw [List.foldl_cons]
        exact ihp a
    cases hf : StdMap.find s.word_to_document_freqs_ w with
    | none => simp only [ih]
    | some postings => simp only [hfold, ih]

theorem materialize_spec (s : SearchServer) (entries : List (Int × ℚ)) (out : List Document)
    (hknown : ∀ e ∈ entries, (StdMap.find s.documents_ e.1).isSome) :
    SearchServer.FindAllDocuments.materialize s entries out =
      .ok (out ++ entries.map (SearchServer.toDocument s)) := by
  induction entries generalizing out with
  | nil => simp [SearchServer.FindAllDocuments.materialize]
  | cons e rest ih =>
    obtain ⟨data, hdata⟩ := Option.isSome_iff_exists.mp (hknown e (List.mem_cons_self _ _))
    unfold SearchServer.FindAllDocuments.materialize
    simp only [hdata]
    rw [ih _ (fun e2 he2 => hknown e2 (List.mem_cons_of_mem _ he2))]
    simp [SearchServer.toDocument, hdata]

theorem foldl_optAdd_isSome (g : Str → Option ℚ) (words : List Str) (o : Option ℚ) :
    (words.foldl (fun o w => optAdd o (g w)) o).isSome = true ↔
      o.isSome = true ∨ ∃ w ∈ words, (g w).isSome = true := by
  induction words generalizing o with
  | nil => simp
  | cons w rest ih =>
    rw [List.foldl_cons, ih]
    cases hg : g w with
    | none => simp [optAdd, hg]
    | some x => simp [optAdd, hg]

theorem foldl_optAdd_getD (g : Str → Option ℚ) (words : List Str) (o : Option ℚ) :
    (words.foldl (fun o w => optAdd o (g w)) o).getD 0 =
      o.getD 0 + (words.map (fun w => (g w).getD 0)).sum := by
  induction words generalizing o with
  | nil => simp
  | cons w rest ih =>
    rw [List.foldl_cons, ih, List.map_cons, List.sum_cons]
    cases hg : g w with
    | none => simp [optAdd]
    | some x =>
      simp [optAdd]
      ring

/-- The sum over all words, absent ones counting 0, is the sum over the words
that are present. -/
theorem sum_getD_eq_sum_filter (tf : Str → Option ℚ) (weight : Str → ℚ) (words : List Str) :
    (words.map (fun w => ((tf w).map (fun x => x * weight w)).getD 0)).sum =
      ((words.filter (fun w => (tf w).isSome)).map (fun w => (tf w).getD 0 * weight w)).sum := by
  induction words with
  | nil => rfl
  | cons w rest ih =>
    cases h : tf w with
    | none => simp [List.filter_cons, h, ih]
    | some x => simp [List.filter_cons, h, ih]

/-- `FindAllDocuments` on a consistent state: it returns, and its result is the
materialized accumulator of the plus-word loop. -/
theorem FindAllDocuments_spec (ln : ℚ → ℚ) (s : SearchServer) (hinv : SearchServer.Inv s)
    (query : Query) (pred : DocumentPredicate) :
    ∃ acc, ConcurrentMap.WF acc ∧
      (∀ d, ConcurrentMap.get acc d =
        query.plus_words.foldl (fun o w => optAdd o (SearchServer.contribution ln s pred w d))
          none) ∧
      SearchServer.FindAllDocuments ln s query pred =
        .ok ((ConcurrentMap.BuildOrdinaryMap acc).map (SearchServer.toDocument s)) := by
  obtain ⟨acc, hrun, hwf, hget⟩ := plusWords_spec ln s pred hinv query.plus_words
    (ConcurrentMap.new NUMBER_PARALLEL_PROCESSES)
    (ConcurrentMap.WF_new _ (by decide))
  have hget2 : ∀ d, ConcurrentMap.get acc d =
      query.plus_words.foldl (fun o w => optAdd o (SearchServer.contribution ln s pred w d))
        none := by
    intro d
    rw [hget d, ConcurrentMap.get_new]
  refine ⟨acc, hwf, hget2, ?_⟩
  unfold SearchServer.FindAllDocuments
  simp only [hrun, minusWords_eq]
  have hbom := ConcurrentMap.BuildOrdinaryMap_spec acc hwf
  rw [materialize_spec]
  · rfl
  · intro e he
    have h1 := StdMap.find_of_mem _ e.1 e.2 hbom.1 he
    rw [hbom.2, hget2] at h1
    have h2 : (query.plus_words.foldl
        (fun o w => optAdd o (SearchServer.contribution ln s pred w e.1)) none).isSome = true := by
      rw [h1]; rfl
    rw [foldl_optAdd_isSome] at h2
    rcases h2 with h2 | ⟨w, _, hw⟩
    · cases h2
    · unfold SearchServer.contribution at hw
      split at hw
      · rename_i hacc
        unfold SearchServer.accepts at hacc
        cases hd : StdMap.find s.documents_ e.1 with
        | none => simp [hd] at hacc
        | some data => rfl
      · cases hw

/-- What holds of every document `FindAllDocuments` returns. -/
theorem FindAllDocuments_mem (ln : ℚ → ℚ) (s : SearchServer) (hinv : SearchServer.Inv s)
    (query : Query) (pred : DocumentPredicate) (found : List Document)
    (hfound : SearchServer.FindAllDocuments ln s query pred = .ok found)
    (d : Document) (hd : d ∈ found) :
    SearchServer.accepts s pred d.id = true ∧
    (∃ w ∈ query.plus_words, (termFreq s.word_to_document_freqs_ w d.id).isSome = true) ∧
    d.relevance = ((query.plus_words.filter
        (fun w => (termFreq s.word_to_document_freqs_ w d.id).isSome)).map
      (fun w => (termFreq s.word_to_document_freqs_ w d.id).getD 0 *
        SearchServer.ComputeWordInverseDocumentFreq ln s w)).sum ∧
    (StdMap.find s.documents_ d.id).map (fun data => data.rating) = some d.rating := by
  obtain ⟨acc, hwf, hget, hrun⟩ := FindAllDocuments_spec ln s hinv query pred
  rw [hrun] at hfound
  injection hfound with hfound
  subst hfound
  obtain ⟨e, he, rfl⟩ := List.mem_map.mp hd
  have hbom := ConcurrentMap.BuildOrdinaryMap_spec acc hwf
  have h1 := StdMap.find_of_mem _ e.1 e.2 hbom.1 he
  rw [hbom.2, hget] at h1
  have h2 : (query.plus_words.foldl
      (fun o w => optAdd o (SearchServer.contribution ln s pred w e.1)) none).isSome = true := by
    rw [h1]; rfl
  rw [foldl_optAdd_isSome] at h2
  have hex : ∃ w ∈ query.plus_words, (SearchServer.contribution ln s pred w e.1).isSome = true := by
    rcases h2 with h2 | h2
    · cases h2
    · exact h2
  obtain ⟨w0, hw0, hc0⟩ := hex
  have hacc : SearchServer.accepts s pred e.1 = true := by
    unfold SearchServer.contribution at hc0
    split at hc0
    · assumption
    · cases hc0
  have hcontr : ∀ w, SearchServer.contribution ln s pred w e.1 =
      (termFreq s.word_to_document_freqs_ w e.1).map
        (fun tf => tf * SearchServer.ComputeWordInverseDocumentFreq ln s w) := by
    intro w
    unfold SearchServer.contribution
    rw [if_pos hacc]
  refine ⟨hacc, ⟨w0, hw0, ?_⟩, ?_, ?_⟩
  · rw [hcontr w0] at hc0
    show (termFreq s.word_to_document_freqs_ w0 e.1).isSome = true
    cases h : termFreq s.word_to_document_freqs_ w0 e.1 with
    | none => simp [h] at hc0
    | some x => rfl
  · have h3 := foldl_optAdd_getD (fun w => SearchServer.contribution ln s pred w e.1)
      query.plus_words none
    rw [h1] at h3
    simp only [Option.getD_some, Option.getD_none, zero_add] at h3
    show e.2 = _
    rw [h3]
    simp only [hcontr]
    exact sum_getD_eq_sum_filter (fun w => termFreq s.word_to_document_freqs_ w e.1)
      (fun w => SearchServer.ComputeWordInverseDocumentFreq ln s w) query.plus_words
  · unfold SearchServer.accepts at hacc
    cases hdoc : StdMap.find s.documents_ e.1 with
    | none => simp [hdoc] at hacc
    | some data => simp [SearchServer.toDocument, hdoc]

/-! ## Ranking: sorting and truncation -/

theorem sortInsert_perm {α : Type} (comp : α → α → Bool) (x : α) (l : List α) :
    (sortInsert comp x l).Perm (x :: l) := by
  induction l with
  | nil => exact List.Perm.refl _
  | cons y rest ih =>
    unfold sortInsert
    split
    · exact ((List.Perm.cons y ih).trans (List.Perm.swap x y rest))
    · exact List.Perm.refl _

theorem stdSort_perm {α : Type} (comp : α → α → Bool) (l : List α) :
    (stdSort comp l).Perm l := by
  induction l with
  | nil => exact List.Perm.refl _
  | cons x rest ih =>
    unfold stdSort
    exact (sortInsert_perm comp x _).trans (List.Perm.cons x ih)

theorem sortInsert_head {α : Type} (comp : α → α → Bool) (x : α) (l : List α) (b : α)
    (hb : b ∈ (sortInsert comp x l).head?) : b = x ∨ b ∈ l.head? := by
  cases l with
  | nil =>
    simp [sortInsert] at hb
    exact Or.inl hb.symm
  | cons y rest =>
    unfold sortInsert at hb
    split at hb
    · right
      simpa using hb
    · left
      simp at hb
      exact hb.symm

theorem sortInsert_chain {α : Type} (comp : α → α → Bool)
    (hasymm : ∀ a b, comp a b = true → comp b a = false) (x : α) (l : List α)
    (hl : List.Chain' (fun a b => comp b a = false) l) :
    List.Chain' (fun a b => comp b a = false) (sortInsert comp x l) := by
  induction l with
  | nil => simp [sortInsert]
  | cons y rest ih =>
    unfold sortInsert
    by_cases hyx : comp y x = true
    · simp only [hyx, if_true]
      rw [List.chain'_cons'] at hl ⊢
      refine ⟨?_, ih hl.2⟩
      intro b hb
      rcases sortInsert_head comp x rest b hb with hb | hb
      · rw [hb]
        exact hasymm y x hyx
      · exact hl.1 b hb
    · have hyx2 : comp y x = false := by simpa using hyx
      simp only [hyx2, Bool.false_eq_true, if_false]
      rw [List.chain'_cons']
      refine ⟨?_, hl⟩
      intro b hb
      simp at hb
      rw [← hb]
      simpa using hyx

theorem stdSort_chain {α : Type} (comp : α → α → Bool)
    (hasymm : ∀ a b, comp a b = true → comp b a = false) (l : List α) :
    List.Chain' (fun a b => comp b a = false) (stdSort comp l) := by
  induction l with
  | nil => simp [stdSort]
  | cons x rest ih =>
    unfold stdSort
    exact sortInsert_chain comp hasymm x _ ih

theorem documentBefore_asymm (a b : Document) (h : documentBefore a b = true) :
    documentBefore b a = false := by
  unfold documentBefore at h ⊢
  rw [abs_sub_comm b.relevance a.relevance]
  split at h
  · rename_i htie
    simp only [htie, if_true]
    simp only [decide_eq_true_eq, decide_eq_false_iff_not] at h ⊢
    omega
  · rename_i htie
    simp only [htie, if_false]
    simp only [decide_eq_true_eq, decide_eq_false_iff_not, gt_iff_lt, not_lt] at h ⊢
    exact le_of_lt h

/-- `FindTopDocuments` in closed form, given what its two callees return. -/
theorem FindTopDocuments_eq (ln : ℚ → ℚ) (s : SearchServer) (raw_query : Str)
    (pred : DocumentPredicate) (query : Query) (found : List Document)
    (hparse : SearchServer.ParseQuery s (SplitIntoWordsView raw_query) = .ok query)
    (hfound : SearchServer.FindAllDocuments ln s query pred = .ok found) :
    SearchServer.FindTopDocuments ln s raw_query pred =
      .ok ((stdSort documentBefore found).take MAX_RESULT_DOCUMENT_COUNT) := by
  unfold SearchServer.FindTopDocuments
  simp only [hparse, hfound]
  split
  · rfl
  · rename_i hlen
    rw [List.take_of_length_le (not_lt.mp hlen)]

theorem mem_of_mem_top {found : List Document} {d : Document}
    (hd : d ∈ (stdSort documentBefore found).take MAX_RESULT_DOCUMENT_COUNT) : d ∈ found :=
  (stdSort_perm documentBefore found).mem_iff.mp (List.mem_of_mem_take hd)

/-! ## Queries -/

theorem StdSet.insert_sorted {κ : Type} [LinearOrder κ] (s : StdSet κ) (k : κ)
    (hs : s.Pairwise (· < ·)) : (StdSet.insert s k).Pairwise (· < ·) := by
  induction s with
  | nil => simp [StdSet.insert]
  | cons k0 rest ih =>
    have hs2 := List.pairwise_cons.mp hs
    unfold StdSet.insert
    by_cases h1 : k < k0
    · simp only [h1, if_true]
      refine List.pairwise_cons.mpr ⟨?_, hs⟩
      intro x hx
      rcases List.mem_cons.mp hx with hx | hx
      · rw [hx]; exact h1
      · exact lt_trans h1 (hs2.1 x hx)
    · by_cases h2 : k = k0
      · simp only [h1, h2, if_true, if_false]
        subst h2
        simpa using hs
      · simp only [h1, h2, if_false]
        refine List.pairwise_cons.mpr ⟨?_, ih hs2.2⟩
        intro x hx
        rcases (StdSet.mem_insert rest k x).mp hx with hx | hx
        · rw [hx]
          exact lt_of_le_of_ne (not_lt.mp h1) (Ne.symm h2)
        · exact hs2.1 x hx

theorem ParseQuery_loop_sorted (s : SearchServer) (tokens : List Str) (start query : Query)
    (hp : start.plus_words.Pairwise (· < ·)) (hm : start.minus_words.Pairwise (· < ·))
    (h : SearchServer.ParseQuery.loop s tokens start = .ok query) :
    query.plus_words.Pairwise (· < ·) ∧ query.minus_words.Pairwise (· < ·) := by
  induction tokens generalizing start with
  | nil =>
    unfold SearchServer.ParseQuery.loop at h
    injection h with h
    subst h
    exact ⟨hp, hm⟩
  | cons t rest ih =>
    unfold SearchServer.ParseQuery.loop at h
    cases hw : SearchServer.ParseQueryWord s t with
    | error e => simp [hw] at h
    | ok qw =>
      simp only [hw] at h
      split at h
      · split at h
        · refine ih _ ?_ ?_ h
          · exact hp
          · exact StdSet.insert_sorted _ _ hm
        · refine ih _ ?_ ?_ h
          · exact StdSet.insert_sorted _ _ hp
          · exact hm
      · exact ih _ hp hm h

/-- The plus words of a parsed query are pairwise distinct. -/
theorem ParseQuery_plus_nodup (s : SearchServer) (tokens : List Str) (query : Query)
    (h : SearchServer.ParseQuery s tokens = .ok query) : query.plus_words.Nodup :=
  List.Pairwise.imp (fun hlt => ne_of_lt hlt)
    (ParseQuery_loop_sorted s tokens _ query List.Pairwise.nil List.Pairwise.nil h).1

theorem posting_of_termFreq (freqs : StdMap Str (StdMap Int ℚ)) (w : Str) (id : Int)
    (h : (termFreq freqs w id).isSome = true) :
    ∃ postings, StdMap.find freqs w = some postings ∧ id ∈ StdMap.keys postings := by
  unfold termFreq at h
  cases hf : StdMap.find freqs w with
  | none => simp [hf] at h
  | some postings =>
    rw [hf] at h
    exact ⟨postings, rfl, (StdMap.find_isSome_iff postings id).mp h⟩

/-! ## Claims C1, C2, C5 -/

/-- C1 fails on the code: the minus-word loop of `FindAllDocuments` erases from the
temporary that `BuildOrdinaryMap()` returns. For every `log`, the one document of
`exampleCatDog` is in the posting list of `dog` and of `cat`, and is returned for the
queries `cat -dog` and `cat -cat`; in general the result never depends on the minus
words. -/
theorem C1_minus_words_are_ignored :
    (∀ ln : ℚ → ℚ,
      (termFreq exampleCatDog.word_to_document_freqs_ "dog".toList 0).isSome = true ∧
      SearchServer.ParseQuery exampleCatDog (SplitIntoWordsView "cat -dog".toList) =
        .ok { plus_words := ["cat".toList], minus_words := ["dog".toList] } ∧
      SearchServer.FindTopDocumentsActual ln exampleCatDog "cat -dog".toList =
        .ok [{ id := 0, relevance := 0 + (1 / 2) * ln (1 * 1 / 1), rating := 5 }] ∧
      SearchServer.FindTopDocumentsActual ln exampleCatDog "cat -cat".toList =
        .ok [{ id := 0, relevance := 0 + (1 / 2) * ln (1 * 1 / 1), rating := 5 }]) ∧
    (∀ (ln : ℚ → ℚ) (s : SearchServer) (plus minus : StdSet Str) (pred : DocumentPredicate),
      SearchServer.FindAllDocuments ln s { plus_words := plus, minus_words := minus } pred =
        SearchServer.FindAllDocuments ln s { plus_words := plus, minus_words := [] } pred) := by
  constructor
  · intro ln
    refine ⟨by rfl, by rfl, ?_, ?_⟩
    · with_unfolding_all rfl
    · with_unfolding_all rfl
  · intro ln s plus minus pred
    unfold SearchServer.FindAllDocuments
    simp only [minusWords_eq]

/-- C2: on a reachable server, for a query that parses, `FindTopDocuments` returns,
and each returned document has as relevance the sum, over the (pairwise distinct)
plus words whose posting list holds it, of its stored term frequency times
`ln (GetDocumentCount / size of the posting list)`, and as rating the rating
`documents_` stores for it. -/
theorem C2_relevance_is_tf_idf_sum (ln : ℚ → ℚ) (stop_words : StdSet Str) (ops : List Op)
    (raw_query : Str) (pred : DocumentPredicate) (query : Query)
    (hparse : SearchServer.ParseQuery (SearchServer.run stop_words ops)
      (SplitIntoWordsView raw_query) = .ok query) :
    query.plus_words.Nodup ∧
    ∃ result, SearchServer.FindTopDocuments ln (SearchServer.run stop_words ops) raw_query pred =
        .ok result ∧
      ∀ d ∈ result,
        d.relevance = ((query.plus_words.filter
            (fun w => (termFreq (SearchServer.run stop_words ops).word_to_document_freqs_
              w d.id).isSome)).map
          (fun w => (termFreq (SearchServer.run stop_words ops).word_to_document_freqs_
              w d.id).getD 0 *
            ln ((SearchServer.GetDocumentCount (SearchServer.run stop_words ops) : ℚ) /
              (((StdMap.find (SearchServer.run stop_words ops).word_to_document_freqs_
                w).getD []).length : ℚ)))).sum ∧
        (StdMap.find (SearchServer.run stop_words ops).documents_ d.id).map
          (fun data => data.rating) = some d.rating := by
  have hinv := run_Inv stop_words ops
  refine ⟨ParseQuery_plus_nodup _ _ _ hparse, ?_⟩
  obtain ⟨acc, _, _, hrun⟩ := FindAllDocuments_spec ln _ hinv query pred
  refine ⟨_, FindTopDocuments_eq ln _ raw_query pred query _ hparse hrun, ?_⟩
  intro d hd
  have hmem := FindAllDocuments_mem ln _ hinv query pred _ hrun d (mem_of_mem_top hd)
  refine ⟨?_, hmem.2.2.2⟩
  rw [hmem.2.2.1]
  simp only [SearchServer.ComputeWordInverseDocumentFreq, mul_one]

/-- Witness of C2: the query `cat dog` on a server with three documents. -/
theorem C2_relevance_is_tf_idf_sum_witness :
    exampleQuery.plus_words.Nodup ∧
    ∃ result, SearchServer.FindTopDocuments exampleLog (SearchServer.run exampleStopWords exampleOps)
        "cat dog".toList (fun _ _ _ => true) = .ok result ∧
      ∀ d ∈ result,
        d.relevance = ((exampleQuery.plus_words.filter
            (fun w => (termFreq
              (SearchServer.run exampleStopWords exampleOps).word_to_document_freqs_
              w d.id).isSome)).map
          (fun w => (termFreq
              (SearchServer.run exampleStopWords exampleOps).word_to_document_freqs_
              w d.id).getD 0 *
            exampleLog
              ((SearchServer.GetDocumentCount (SearchServer.run exampleStopWords exampleOps) : ℚ) /
              (((StdMap.find
                (SearchServer.run exampleStopWords exampleOps).word_to_document_freqs_
                w).getD []).length : ℚ)))).sum ∧
        (StdMap.find (SearchServer.run exampleStopWords exampleOps).documents_ d.id).map
          (fun data => data.rating) = some d.rating :=
  C2_relevance_is_tf_idf_sum exampleLog exampleStopWords exampleOps "cat dog".toList
    (fun _ _ _ => true) exampleQuery (by rfl)

/-- C5: on a reachable server, for a query that parses, `FindTopDocuments` returns,
and every returned document has metadata with the reported rating, is accepted by
the predicate on its id, stored status and rating, and is in the posting list of
a plus word; there is no result when there is no plus word; the status overload
returns only documents stored with that status, the overload without status only
documents stored as `ACTUAL`. -/
theorem C5_results_satisfy_predicate (ln : ℚ → ℚ) (stop_words : StdSet Str) (ops : List Op)
    (raw_query : Str) (pred : DocumentPredicate) (query : Query)
    (hparse : SearchServer.ParseQuery (SearchServer.run stop_words ops)
      (SplitIntoWordsView raw_query) = .ok query) :
    (∃ result, SearchServer.FindTopDocuments ln (SearchServer.run stop_words ops) raw_query pred =
        .ok result ∧
      (∀ d ∈ result, ∃ data,
        StdMap.find (SearchServer.run stop_words ops).documents_ d.id = some data ∧
        data.rating = d.rating ∧
        pred d.id data.status d.rating = true ∧
        ∃ w ∈ query.plus_words, ∃ postings,
          StdMap.find (SearchServer.run stop_words ops).word_to_document_freqs_ w = some postings ∧
          d.id ∈ StdMap.keys postings) ∧
      (query.plus_words = [] → result = [])) ∧
    (∀ status, ∃ result,
      SearchServer.FindTopDocumentsByStatus ln (SearchServer.run stop_words ops) raw_query status =
        .ok result ∧
      ∀ d ∈ result, ∃ data,
        StdMap.find (SearchServer.run stop_words ops).documents_ d.id = some data ∧
        data.status = status) ∧
    (∃ result,
      SearchServer.FindTopDocumentsActual ln (SearchServer.run stop_words ops) raw_query =
        .ok result ∧
      ∀ d ∈ result, ∃ data,
        StdMap.find (SearchServer.run stop_words ops).documents_ d.id = some data ∧
        data.status = DocumentStatus.ACTUAL) := by
  have hinv := run_Inv stop_words ops
  have hgen : ∀ p : DocumentPredicate,
      ∃ result, SearchServer.FindTopDocuments ln (SearchServer.run stop_words ops) raw_query p =
          .ok result ∧
        (∀ d ∈ result, ∃ data,
          StdMap.find (SearchServer.run stop_words ops).documents_ d.id = some data ∧
          data.rating = d.rating ∧
          p d.id data.status d.rating = true ∧
          ∃ w ∈ query.plus_words, ∃ postings,
            StdMap.find (SearchServer.run stop_words ops).word_to_document_freqs_ w =
              some postings ∧
            d.id ∈ StdMap.keys postings) ∧
        (query.plus_words = [] → result = []) := by
    intro p
    obtain ⟨acc, _, _, hrun⟩ := FindAllDocuments_spec ln _ hinv query p
    refine ⟨_, FindTopDocuments_eq ln _ raw_query p query _ hparse hrun, ?_, ?_⟩
    · intro d hd
      have hmem := FindAllDocuments_mem ln _ hinv query p _ hrun d (mem_of_mem_top hd)
      obtain ⟨hacc, ⟨w, hw, htf⟩, _, hrating⟩ := hmem
      cases hdoc : StdMap.find (SearchServer.run stop_words ops).documents_ d.id with
      | none => simp [hdoc] at hrating
      | some data =>
        have hr : data.rating = d.rating := by simpa [hdoc] using hrating
        refine ⟨data, rfl, hr, ?_, w, hw, posting_of_termFreq _ w d.id htf⟩
        rw [accepts_of_find _ p d.id data hdoc, hr] at hacc
        exact hacc
    · intro hplus
      apply List.eq_nil_iff_forall_not_mem.mpr
      intro d hd
      have hmem := FindAllDocuments_mem ln _ hinv query p _ hrun d (mem_of_mem_top hd)
      obtain ⟨_, ⟨w, hw, _⟩, _, _⟩ := hmem
      rw [hplus] at hw
      cases hw
  have hstatus : ∀ status, ∃ result,
      SearchServer.FindTopDocumentsByStatus ln (SearchServer.run stop_words ops) raw_query status =
        .ok result ∧
      ∀ d ∈ result, ∃ data,
        StdMap.find (SearchServer.run stop_words ops).documents_ d.id = some data ∧
        data.status = status := by
    intro status
    obtain ⟨result, hres, hall, _⟩ :=
      hgen (fun _ document_status _ => decide (document_status = status))
    refine ⟨result, hres, ?_⟩
    intro d hd
    obtain ⟨data, hdata, _, hp, _⟩ := hall d hd
    exact ⟨data, hdata, by simpa using hp⟩
  exact ⟨hgen pred, hstatus, hstatus DocumentStatus.ACTUAL⟩

/-- Witness of C5: the query `cat dog` on a server with three documents, with a
predicate that accepts even ids. -/
theorem C5_results_satisfy_predicate_witness :
    ∃ result, SearchServer.FindTopDocuments exampleLog (SearchServer.run exampleStopWords exampleOps)
        "cat dog".toList (fun id _ _ => decide (id % 2 = 0)) = .ok result ∧
      (∀ d ∈ result, ∃ data,
        StdMap.find (SearchServer.run exampleStopWords exampleOps).documents_ d.id = some data ∧
        data.rating = d.rating ∧
        (fun (id : Int) (_ : DocumentStatus) (_ : Int) => decide (id % 2 = 0))
          d.id data.status d.rating = true ∧
        ∃ w ∈ exampleQuery.plus_words, ∃ postings,
          StdMap.find (SearchServer.run exampleStopWords exampleOps).word_to_document_freqs_ w =
            some postings ∧
          d.id ∈ StdMap.keys postings) ∧
      (exampleQuery.plus_words = [] → result = []) :=
  (C5_results_satisfy_predicate exampleLog exampleStopWords exampleOps "cat dog".toList
    (fun id _ _ => decide (id % 2 = 0)) exampleQuery (by rfl)).1

/-! ## Ingestion: what a successful `AddDocument` stores -/

theorem IsStopWord_iff (s : SearchServer) (w : Str) :
    SearchServer.IsStopWord s w = true ↔ w ∈ s.stop_words_ := by
  unfold SearchServer.IsStopWord StdSet.count
  by_cases h : w ∈ s.stop_words_ <;> simp [h]

theorem mem_indexedWords (s : SearchServer) (text : Str) (w : Str) :
    w ∈ SearchServer.indexedWords s text ↔ w ∈ SplitIntoWords text ∧ w ∉ s.stop_words_ := by
  unfold SearchServer.indexedWords
  rw [List.mem_filter]
  simp [← IsStopWord_iff]

theorem IsValidWord_iff (word : Str) :
    IsValidWord word = true ↔ ¬ ∃ c ∈ word, c.toNat < 32 := by
  unfold IsValidWord
  simp

theorem AddDocument_ok_cond (s : SearchServer) (id : Int) (text : Str) (status : DocumentStatus)
    (ratings : List Int) (hok : (SearchServer.AddDocument s id text status ratings).1 = .ok ()) :
    ¬ (id < 0 ∨ (StdMap.find s.documents_ id).isSome ∨
      ¬ (SplitIntoWords text).all IsValidWord = true) := by
  intro hc
  rw [AddDocument_eq, if_pos hc] at hok
  cases hok

theorem termFreq_none_of_unknown (s : SearchServer) (hinv : SearchServer.Inv s) (id : Int)
    (hid : ¬ (StdMap.find s.documents_ id).isSome) (w : Str) :
    termFreq s.word_to_document_freqs_ w id = none := by
  cases h : termFreq s.word_to_document_freqs_ w id with
  | none => rfl
  | some v => exact absurd (hinv.postings_known w id (by simp [h])) hid

/-- The term frequencies after a successful `AddDocument` on a consistent state. -/
theorem termFreq_AddDocument (s : SearchServer) (hinv : SearchServer.Inv s) (id : Int) (text : Str)
    (status : DocumentStatus) (ratings : List Int)
    (hok : (SearchServer.AddDocument s id text status ratings).1 = .ok ()) (w : Str) (d : Int) :
    termFreq (SearchServer.AddDocument s id text status ratings).2.word_to_document_freqs_ w d =
      if d = id then
        if w ∈ SearchServer.indexedWords s text then
          some (((SearchServer.indexedWords s text).count w : ℚ) *
            (1 / ((SearchServer.indexedWords s text).length : ℚ)))
        else none
      else termFreq s.word_to_document_freqs_ w d := by
  have hc := AddDocument_ok_cond s id text status ratings hok
  rw [AddDocument_eq, if_neg hc]
  simp only []
  rw [termFreq_foldl_addWordFreq _ _ _ _ hinv.index_wf]
  have hnone := termFreq_none_of_unknown s hinv id (fun h => hc (Or.inr (Or.inl h))) w
  by_cases hd : d = id
  · subst hd
    by_cases hw : w ∈ SearchServer.indexedWords s text
    · simp [hw, hnone]
    · simp [hw, hnone]
  · simp [hd]

theorem documents_AddDocument (s : SearchServer) (hinv : SearchServer.Inv s) (id : Int) (text : Str)
    (status : DocumentStatus) (ratings : List Int)
    (hok : (SearchServer.AddDocument s id text status ratings).1 = .ok ()) :
    StdMap.find (SearchServer.AddDocument s id text status ratings).2.documents_ id =
      some { rating := ComputeAverageRating ratings, status := status } := by
  have hc := AddDocument_ok_cond s id text status ratings hok
  rw [AddDocument_eq, if_neg hc]
  simp only []
  rw [StdMap.find_emplace _ _ _ hinv.documents_wf, if_pos rfl]
  cases h : StdMap.find s.documents_ id with
  | none => rfl
  | some v => exact absurd (by simp [h]) (fun h2 => hc (Or.inr (Or.inl h2)))

theorem StdMap.nodup_keys {κ ν : Type} [LinearOrder κ] (m : StdMap κ ν) (hwf : StdMap.WF m) :
    (StdMap.keys m).Nodup :=
  List.Pairwise.imp (fun h => ne_of_lt h) hwf

theorem StdMap.map_snd_eq {κ ν : Type} [LinearOrder κ] (m : StdMap κ ν) (hwf : StdMap.WF m)
    (g : κ → ν) (hg : ∀ k ∈ StdMap.keys m, StdMap.find m k = some (g k)) :
    m.map Prod.snd = (StdMap.keys m).map g := by
  unfold StdMap.keys
  rw [List.map_map]
  apply List.map_congr_left
  intro e he
  have h1 := StdMap.find_of_mem m e.1 e.2 hwf he
  have h2 := hg e.1 (List.mem_map.mpr ⟨e, he, rfl⟩)
  rw [h1] at h2
  injection h2

theorem count_eq_count (words : List Str) (w : Str) :
    @List.count Str instBEqOfDecidableEq w words = words.count w := by
  unfold List.count
  apply List.countP_congr
  intro x _
  simp

theorem sum_count_mul (words : List Str) (x : ℚ) :
    ((words.dedup).map (fun w => (words.count w : ℚ) * x)).sum = (words.length : ℚ) * x := by
  rw [List.sum_map_mul_right]
  congr 1
  have h := List.sum_map_count_dedup_eq_length words
  simp only [count_eq_count] at h
  have h2 : ((words.dedup.map fun w => words.count w).sum : ℚ) = (words.length : ℚ) := by
    rw [h]
  rw [← h2, Nat.cast_list_sum, List.map_map]
  rfl

/-! ## Claims C6 – C8 -/

/-- C6: `AddDocument` throws `invalid_argument` exactly when the id is negative, or
is already a key of `documents_`, or some space-delimited token of the text holds a
character with code in 0..31; in every other case it returns normally and the id is
registered in `document_ids_` and has metadata. -/
theorem C6_AddDocument_fails_iff (s : SearchServer) (id : Int) (text : Str)
    (status : DocumentStatus) (ratings : List Int) :
    ((SearchServer.AddDocument s id text status ratings).1 = .error Error.invalid_argument ↔
      (id < 0 ∨ id ∈ StdMap.keys s.documents_ ∨
        ∃ token ∈ SplitIntoWords text, ∃ c ∈ token, c.toNat < 32)) ∧
    ((SearchServer.AddDocument s id text status ratings).1 = .error Error.invalid_argument ∨
      ((SearchServer.AddDocument s id text status ratings).1 = .ok () ∧
        id ∈ (SearchServer.AddDocument s id text status ratings).2.document_ids_ ∧
        id ∈ StdMap.keys (SearchServer.AddDocument s id text status ratings).2.documents_)) := by
  have hcond : (id < 0 ∨ (StdMap.find s.documents_ id).isSome ∨
        ¬ (SplitIntoWords text).all IsValidWord = true) ↔
      (id < 0 ∨ id ∈ StdMap.keys s.documents_ ∨
        ∃ token ∈ SplitIntoWords text, ∃ c ∈ token, c.toNat < 32) := by
    rw [StdMap.find_isSome_iff]
    have h3 : ¬ (SplitIntoWords text).all IsValidWord = true ↔
        ∃ token ∈ SplitIntoWords text, ∃ c ∈ token, c.toNat < 32 := by
      rw [List.all_eq_true]
      constructor
      · intro h
        by_contra hne
        apply h
        intro token ht
        rw [IsValidWord_iff]
        intro hex
        exact hne ⟨token, ht, hex⟩
      · rintro ⟨token, ht, hex⟩ h
        exact (IsValidWord_iff token).mp (h token ht) hex
    rw [h3]
  rw [AddDocument_eq]
  by_cases hc : (id < 0 ∨ (StdMap.find s.documents_ id).isSome ∨
        ¬ (SplitIntoWords text).all IsValidWord = true)
  · rw [if_pos hc]
    exact ⟨⟨fun _ => hcond.mp hc, fun _ => rfl⟩, Or.inl rfl⟩
  · rw [if_neg hc]
    refine ⟨⟨fun h => (by cases h), fun h => absurd (hcond.mpr h) hc⟩, Or.inr ⟨rfl, ?_, ?_⟩⟩
    · exact (StdSet.mem_insert _ _ _).mpr (Or.inl rfl)
    · exact (StdMap.mem_keys_upsert _ _ _ _).mpr (Or.inl rfl)

/-- C7: whenever `AddDocument` throws, the state it leaves behind is the state it
was called on: index, metadata and id registry are untouched. -/
theorem C7_failed_AddDocument_keeps_state (s : SearchServer) (id : Int) (text : Str)
    (status : DocumentStatus) (ratings : List Int) (e : Error)
    (hfail : (SearchServer.AddDocument s id text status ratings).1 = .error e) :
    (SearchServer.AddDocument s id text status ratings).2 = s ∧
    (SearchServer.AddDocument s id text status ratings).2.word_to_document_freqs_ =
      s.word_to_document_freqs_ ∧
    (SearchServer.AddDocument s id text status ratings).2.documents_ = s.documents_ ∧
    (SearchServer.AddDocument s id text status ratings).2.document_ids_ = s.document_ids_ := by
  rw [AddDocument_eq] at hfail ⊢
  split at hfail
  · rename_i hc
    rw [if_pos hc]
    exact ⟨rfl, rfl, rfl, rfl⟩
  · cases hfail

/-- Witness of C7: a document with a control character in its second token is
rejected by a server that already holds a document, and nothing changes. -/
theorem C7_failed_AddDocument_keeps_state_witness :
    (SearchServer.AddDocument (SearchServer.run [] [Op.add 0 ['c', 'a', 't'] .ACTUAL [5]])
        1 ['d', 'o', 'g', ' ', 'a', '\x01'] .ACTUAL [1]).1 = .error Error.invalid_argument ∧
    ((SearchServer.AddDocument (SearchServer.run [] [Op.add 0 ['c', 'a', 't'] .ACTUAL [5]])
        1 ['d', 'o', 'g', ' ', 'a', '\x01'] .ACTUAL [1]).2 =
          SearchServer.run [] [Op.add 0 ['c', 'a', 't'] .ACTUAL [5]] ∧
    (SearchServer.AddDocument (SearchServer.run [] [Op.add 0 ['c', 'a', 't'] .ACTUAL [5]])
        1 ['d', 'o', 'g', ' ', 'a', '\x01'] .ACTUAL [1]).2.word_to_document_freqs_ =
          (SearchServer.run [] [Op.add 0 ['c', 'a', 't'] .ACTUAL [5]]).word_to_document_freqs_ ∧
    (SearchServer.AddDocument (SearchServer.run [] [Op.add 0 ['c', 'a', 't'] .ACTUAL [5]])
        1 ['d', 'o', 'g', ' ', 'a', '\x01'] .ACTUAL [1]).2.documents_ =
          (SearchServer.run [] [Op.add 0 ['c', 'a', 't'] .ACTUAL [5]]).documents_ ∧
    (SearchServer.AddDocument (SearchServer.run [] [Op.add 0 ['c', 'a', 't'] .ACTUAL [5]])
        1 ['d', 'o', 'g', ' ', 'a', '\x01'] .ACTUAL [1]).2.document_ids_ =
          (SearchServer.run [] [Op.add 0 ['c', 'a', 't'] .ACTUAL [5]]).document_ids_) :=
  ⟨by rfl, C7_failed_AddDocument_keeps_state _ _ _ _ _ Error.invalid_argument (by rfl)⟩

/-- C8: a document added successfully to a reachable server with a ratings list of
fewer than 2^31 entries whose sum fits a 32-bit `int` is stored with its status and
with rating `sum / N` by truncating division, 0 for the empty list; when the sum
is not negative this is the floor of the exact quotient. -/
theorem C8_stored_rating (stop_words : StdSet Str) (ops : List Op) (id : Int) (text : Str)
    (status : DocumentStatus) (ratings : List Int)
    (hok : (SearchServer.AddDocument (SearchServer.run stop_words ops) id text status ratings).1 =
      .ok ())
    (hlen : ratings.length < 2147483648)
    (hlo : -2147483648 ≤ ratings.sum) (hhi : ratings.sum < 2147483648) :
    StdMap.find
        (SearchServer.AddDocument (SearchServer.run stop_words ops) id text status ratings).2.documents_
        id =
      some { rating := if ratings.isEmpty then 0 else Int.tdiv ratings.sum (ratings.length : Int),
             status := status } ∧
    (0 ≤ ratings.sum →
      (if ratings.isEmpty then 0 else Int.tdiv ratings.sum (ratings.length : Int)) =
        ⌊(ratings.sum : ℚ) / (ratings.length : ℚ)⌋) := by
  constructor
  · rw [documents_AddDocument _ (run_Inv stop_words ops) id text status ratings hok,
      ComputeAverageRating_eq ratings hlen hlo hhi]
  · intro hnn
    rw [Rat.floor_intCast_div_natCast]
    cases ratings with
    | nil => simp
    | cons r rest =>
      simp only [List.isEmpty_cons, Bool.false_eq_true, if_false]
      exact Int.tdiv_eq_ediv hnn (by positivity)

/-- Witness of C8: ratings `[-3, 0]` give the rating `-1` (truncation, not floor). -/
theorem C8_stored_rating_witness :
    StdMap.find
        (SearchServer.AddDocument (SearchServer.run [] []) 7 ['c', 'a', 't'] .BANNED [-3, 0]).2.documents_
        7 =
      some { rating := if [(-3 : Int), 0].isEmpty then 0
                       else Int.tdiv ([(-3 : Int), 0].sum) (([(-3 : Int), 0].length : Nat) : Int),
             status := .BANNED } ∧
    (0 ≤ [(-3 : Int), 0].sum →
      (if [(-3 : Int), 0].isEmpty then 0
        else Int.tdiv ([(-3 : Int), 0].sum) (([(-3 : Int), 0].length : Nat) : Int)) =
        ⌊(([(-3 : Int), 0].sum : Int) : ℚ) / (([(-3 : Int), 0].length : Nat) : ℚ)⌋) :=
  C8_stored_rating [] [] 7 ['c', 'a', 't'] .BANNED [-3, 0] (by rfl) (by decide) (by decide)
    (by decide)

theorem keys_GetWordFrequencies_AddDocument (s : SearchServer) (hinv : SearchServer.Inv s)
    (id : Int) (text : Str) (status : DocumentStatus) (ratings : List Int)
    (hok : (SearchServer.AddDocument s id text status ratings).1 = .ok ()) (w : Str) :
    w ∈ StdMap.keys (SearchServer.GetWordFrequencies
        (SearchServer.AddDocument s id text status ratings).2 id) ↔
      w ∈ SearchServer.indexedWords s text := by
  have hinv2 := AddDocument_Inv s id text status ratings hinv
  have hspec := GetWordFrequencies_spec _ id hinv2.index_wf.1
  rw [← StdMap.find_isSome_iff, hspec.2 w, termFreq_AddDocument s hinv id text status ratings hok,
    if_pos rfl]
  by_cases hw : w ∈ SearchServer.indexedWords s text <;> simp [hw]

/-! ## Claim C9 -/

/-- C9, as amended: after a successful `AddDocument` on a reachable server of a
text with at least one token that is not a stop word, the values of
`GetWordFrequencies(id)` sum to 1 in exact arithmetic. -/
theorem C9_word_frequencies_sum_to_one (stop_words : StdSet Str) (ops : List Op) (id : Int)
    (text : Str) (status : DocumentStatus) (ratings : List Int)
    (hok : (SearchServer.AddDocument (SearchServer.run stop_words ops) id text status ratings).1 =
      .ok ())
    (hwords : SearchServer.indexedWords (SearchServer.run stop_words ops) text ≠ []) :
    ((SearchServer.GetWordFrequencies
      (SearchServer.AddDocument (SearchServer.run stop_words ops) id text status ratings).2
      id).map Prod.snd).sum = 1 := by
  have hinv := run_Inv stop_words ops
  have hinv2 := AddDocument_Inv _ id text status ratings hinv
  have hspec := GetWordFrequencies_spec _ id hinv2.index_wf.1
  have hkeys := keys_GetWordFrequencies_AddDocument _ hinv id text status ratings hok
  rw [StdMap.map_snd_eq _ hspec.1
    (fun w => ((SearchServer.indexedWords (SearchServer.run stop_words ops) text).count w : ℚ) *
      (1 / ((SearchServer.indexedWords (SearchServer.run stop_words ops) text).length : ℚ)))]
  · have hperm : List.Perm
        (StdMap.keys (SearchServer.GetWordFrequencies
          (SearchServer.AddDocument (SearchServer.run stop_words ops) id text status ratings).2 id))
        (SearchServer.indexedWords (SearchServer.run stop_words ops) text).dedup := by
      rw [List.perm_ext_iff_of_nodup (StdMap.nodup_keys _ hspec.1) (List.nodup_dedup _)]
      intro w
      rw [hkeys w, List.mem_dedup]
    rw [(hperm.map _).sum_eq, sum_count_mul]
    have hlen : ((SearchServer.indexedWords (SearchServer.run stop_words ops) text).length : ℚ)
        ≠ 0 := by
      simpa using hwords
    field_simp
  · intro w hw
    rw [hspec.2 w, termFreq_AddDocument _ hinv id text status ratings hok, if_pos rfl,
      if_pos ((hkeys w).mp hw)]

/-- Witness of C9: the document `a b a c` (stop word `b`) added to a server that holds a document. -/
theorem C9_word_frequencies_sum_to_one_witness :
    ((SearchServer.GetWordFrequencies
      (SearchServer.AddDocument
        (SearchServer.run [['b']] [Op.add 0 ['c', 'a', 't'] .ACTUAL [5]])
        3 ['a', ' ', 'b', ' ', 'a', ' ', 'c'] .ACTUAL []).2
      3).map Prod.snd).sum = 1 :=
  C9_word_frequencies_sum_to_one [['b']] [Op.add 0 ['c', 'a', 't'] .ACTUAL [5]] 3
    ['a', ' ', 'b', ' ', 'a', ' ', 'c'] .ACTUAL [] (by rfl) (by decide)

/-- Counterexample to C9 as stated: a document made of a stop word only is added
successfully, and its word frequencies are the empty map, whose values sum to 0. -/
theorem C9_counterexample :
    (SearchServer.AddDocument (SearchServer.run [['a', 'n', 'd']] []) 0 ['a', 'n', 'd']
        .ACTUAL [1]).1 = .ok () ∧
    SearchServer.GetWordFrequencies
      (SearchServer.AddDocument (SearchServer.run [['a', 'n', 'd']] []) 0 ['a', 'n', 'd']
        .ACTUAL [1]).2 0 = [] ∧
    ((SearchServer.GetWordFrequencies
      (SearchServer.AddDocument (SearchServer.run [['a', 'n', 'd']] []) 0 ['a', 'n', 'd']
        .ACTUAL [1]).2 0).map Prod.snd).sum ≠ 1 := by
  refine ⟨by rfl, by rfl, ?_⟩
  have h : SearchServer.GetWordFrequencies
      (SearchServer.AddDocument (SearchServer.run [['a', 'n', 'd']] []) 0 ['a', 'n', 'd']
        .ACTUAL [1]).2 0 = [] := by rfl
  rw [h]
  simp

/-! ## Parsing a query -/

/-- `ParseQueryWord` in closed form. -/
theorem ParseQueryWord_eq (s : SearchServer) (token : Str) [Decidable (malformedToken token)] :
    SearchServer.ParseQueryWord s token =
      if malformedToken token then .error Error.invalid_argument
      else .ok { data := stripMinus token, is_minus := decide (token.head? = some '-'),
                 is_stop := decide (stripMinus token ∈ s.stop_words_) } := by
  have hstop : SearchServer.IsStopWord s (stripMinus token) =
      decide (stripMinus token ∈ s.stop_words_) := by
    by_cases h : stripMinus token ∈ s.stop_words_
    · simp [h, (IsStopWord_iff s _).mpr h]
    · cases hs : SearchServer.IsStopWord s (stripMinus token) with
      | false => simp [h]
      | true => exact absurd ((IsStopWord_iff s _).mp hs) h
  unfold SearchServer.ParseQueryWord
  by_cases h0 : token = []
  · have hm : malformedToken token := Or.inl h0
    rw [if_pos hm]
    simp [h0]
  · have hne : token.isEmpty = false := by
      cases token with
      | nil => exact absurd rfl h0
      | cons a b => rfl
    simp only [hne, Bool.false_eq_true, if_false]
    have hword : (if decide (token.head? = some '-') = true then token.drop 1 else token) =
        stripMinus token := by
      unfold stripMinus
      by_cases hh : token.head? = some '-' <;> simp [hh]
    rw [hword, hstop]
    have hvalid : (!IsValidWord (stripMinus token)) = true ↔
        ∃ c ∈ stripMinus token, c.toNat < 32 := by
      have := IsValidWord_iff (stripMinus token)
      cases hv : IsValidWord (stripMinus token) with
      | false =>
        rw [hv] at this
        simp only [Bool.not_false, true_iff]
        by_contra hcon
        exact absurd (this.mpr hcon) (by simp)
      | true =>
        rw [hv] at this
        simp only [Bool.not_true, Bool.false_eq_true, false_iff]
        exact this.mp rfl
    have hempty : (stripMinus token).isEmpty = true ↔ stripMinus token = [] := by
      cases stripMinus token <;> simp
    by_cases hm : malformedToken token
    · rw [if_pos hm]
      have hcond : (stripMinus token).isEmpty = true ∨
          (stripMinus token).head? = some '-' ∨ (!IsValidWord (stripMinus token)) = true := by
        rcases hm with hm | hm | hm | hm
        · exact absurd hm h0
        · exact Or.inl (hempty.mpr hm)
        · exact Or.inr (Or.inl hm)
        · exact Or.inr (Or.inr (hvalid.mpr hm))
      rw [if_pos hcond]
    · rw [if_neg hm]
      have hcond : ¬ ((stripMinus token).isEmpty = true ∨
          (stripMinus token).head? = some '-' ∨ (!IsValidWord (stripMinus token)) = true) := by
        intro hc
        apply hm
        rcases hc with hc | hc | hc
        · exact Or.inr (Or.inl (hempty.mp hc))
        · exact Or.inr (Or.inr (Or.inl hc))
        · exact Or.inr (Or.inr (Or.inr (hvalid.mp hc)))
      rw [if_neg hcond]

/-- What a successful run of the loop of `ParseQuery` adds to the two sets. -/
theorem ParseQuery_loop_mem (s : SearchServer) (tokens : List Str) (start query : Query)
    (h : SearchServer.ParseQuery.loop s tokens start = .ok query) :
    (∀ t ∈ tokens, ∃ qw, SearchServer.ParseQueryWord s t = .ok qw) ∧
    (∀ w, w ∈ query.plus_words ↔ w ∈ start.plus_words ∨
      ∃ t ∈ tokens, SearchServer.ParseQueryWord s t =
        .ok { data := w, is_minus := false, is_stop := false }) ∧
    (∀ w, w ∈ query.minus_words ↔ w ∈ start.minus_words ∨
      ∃ t ∈ tokens, SearchServer.ParseQueryWord s t =
        .ok { data := w, is_minus := true, is_stop := false }) := by
  induction tokens generalizing start with
  | nil =>
    unfold SearchServer.ParseQuery.loop at h
    injection h with h
    subst h
    simp
  | cons t rest ih =>
    unfold SearchServer.ParseQuery.loop at h
    cases hw : SearchServer.ParseQueryWord s t with
    | error e => simp [hw] at h
    | ok qw =>
      obtain ⟨data, is_minus, is_stop⟩ := qw
      simp only [hw] at h
      cases is_stop with
      | true =>
        simp only [Bool.not_true, Bool.false_eq_true, if_false] at h
        obtain ⟨h1, h2, h3⟩ := ih start h
        refine ⟨?_, ?_, ?_⟩
        · intro t2 ht2
          rcases List.mem_cons.mp ht2 with ht2 | ht2
          · exact ⟨_, ht2 ▸ hw⟩
          · exact h1 t2 ht2
        · intro w
          rw [h2 w]
          simp [hw]
        · intro w
          rw [h3 w]
          simp [hw]
      | false =>
        cases is_minus with
        | true =>
          simp only [Bool.not_false, if_true] at h
          obtain ⟨h1, h2, h3⟩ := ih _ h
          refine ⟨?_, ?_, ?_⟩
          · intro t2 ht2
            rcases List.mem_cons.mp ht2 with ht2 | ht2
            · exact ⟨_, ht2 ▸ hw⟩
            · exact h1 t2 ht2
          · intro w
            rw [h2 w]
            simp [hw]
          · intro w
            rw [h3 w]
            simp only [StdSet.mem_insert, List.mem_cons, exists_eq_or_imp, hw, Except.ok.injEq,
              QueryWord.mk.injEq, and_true]
            constructor
            · rintro ((hd | hs) | hr)
              · exact Or.inr (Or.inl hd.symm)
              · exact Or.inl hs
              · exact Or.inr (Or.inr hr)
            · rintro (hs | hd | hr)
              · exact Or.inl (Or.inr hs)
              · exact Or.inl (Or.inl hd.symm)
              · exact Or.inr hr
        | false =>
          simp only [Bool.not_false, if_true, Bool.false_eq_true, if_false] at h
          obtain ⟨h1, h2, h3⟩ := ih _ h
          refine ⟨?_, ?_, ?_⟩
          · intro t2 ht2
            rcases List.mem_cons.mp ht2 with ht2 | ht2
            · exact ⟨_, ht2 ▸ hw⟩
            · exact h1 t2 ht2
          · intro w
            rw [h2 w]
            simp only [StdSet.mem_insert, List.mem_cons, exists_eq_or_imp, hw, Except.ok.injEq,
              QueryWord.mk.injEq, and_true]
            constructor
            · rintro ((hd | hs) | hr)
              · exact Or.inr (Or.inl hd.symm)
              · exact Or.inl hs
              · exact Or.inr (Or.inr hr)
            · rintro (hs | hd | hr)
              · exact Or.inl (Or.inr hs)
              · exact Or.inl (Or.inl hd.symm)
              · exact Or.inr hr
          · intro w
            rw [h3 w]
            simp [hw]

theorem stripMinus_of_not_minus (token : Str) (h : token.head? ≠ some '-') :
    stripMinus token = token := by
  unfold stripMinus
  rw [if_neg h]

theorem stripMinus_cons_minus (w : Str) : stripMinus ('-' :: w) = w := by
  simp [stripMinus]

theorem eq_cons_of_head (token : Str) (h : token.head? = some '-') :
    token = '-' :: stripMinus token := by
  cases token with
  | nil => simp at h
  | cons a b =>
    simp at h
    subst h
    simp [stripMinus]

/-- The plus and minus words of a parsed query, in terms of its tokens. -/
theorem ParseQuery_mem (s : SearchServer) (tokens : List Str) (query : Query)
    (h : SearchServer.ParseQuery s tokens = .ok query) :
    (∀ t ∈ tokens, ¬ malformedToken t) ∧
    (∀ w, w ∈ query.plus_words ↔ (w ∈ tokens ∧ w.head? ≠ some '-' ∧ w ∉ s.stop_words_)) ∧
    (∀ w, w ∈ query.minus_words ↔ (('-' :: w) ∈ tokens ∧ w ∉ s.stop_words_)) := by
  classical
  obtain ⟨h1, h2, h3⟩ := ParseQuery_loop_mem s tokens _ query h
  have hwell : ∀ t ∈ tokens, ¬ malformedToken t := by
    intro t ht hm
    obtain ⟨qw, hqw⟩ := h1 t ht
    rw [ParseQueryWord_eq, if_pos hm] at hqw
    cases hqw
  refine ⟨hwell, ?_, ?_⟩
  · intro w
    rw [h2 w]
    simp only [List.not_mem_nil, false_or]
    constructor
    · rintro ⟨t, ht, hqw⟩
      rw [ParseQueryWord_eq, if_neg (hwell t ht)] at hqw
      simp only [Except.ok.injEq, QueryWord.mk.injEq, decide_eq_false_iff_not] at hqw
      obtain ⟨hd, hmin, hst⟩ := hqw
      rw [stripMinus_of_not_minus t hmin] at hd hst
      subst hd
      exact ⟨ht, hmin, hst⟩
    · rintro ⟨ht, hmin, hst⟩
      refine ⟨w, ht, ?_⟩
      rw [ParseQueryWord_eq, if_neg (hwell w ht), stripMinus_of_not_minus w hmin]
      simp [hmin, hst]
  · intro w
    rw [h3 w]
    simp only [List.not_mem_nil, false_or]
    constructor
    · rintro ⟨t, ht, hqw⟩
      rw [ParseQueryWord_eq, if_neg (hwell t ht)] at hqw
      simp only [Except.ok.injEq, QueryWord.mk.injEq, decide_eq_true_eq,
        decide_eq_false_iff_not] at hqw
      obtain ⟨hd, hmin, hst⟩ := hqw
      have ht2 := eq_cons_of_head t hmin
      rw [hd] at ht2 hst
      rw [← ht2]
      exact ⟨ht, hst⟩
    · rintro ⟨ht, hst⟩
      refine ⟨'-' :: w, ht, ?_⟩
      rw [ParseQueryWord_eq, if_neg (hwell _ ht), stripMinus_cons_minus]
      simp [hst]

/-! ## Matching -/

theorem wordInDocument_iff (s : SearchServer) (id : Int) (w : Str) :
    SearchServer.wordInDocument s id w = true ↔
      ∃ postings, StdMap.find s.word_to_document_freqs_ w = some postings ∧
        id ∈ StdMap.keys postings := by
  unfold SearchServer.wordInDocument
  cases hf : StdMap.find s.word_to_document_freqs_ w with
  | none => simp
  | some postings =>
    simp only [decide_eq_true_eq, Option.some.injEq, exists_eq_left']
    rw [StdMap.count_pos_iff, StdMap.find_isSome_iff]

theorem wordInDocument_eq_termFreq (s : SearchServer) (id : Int) (w : Str) :
    SearchServer.wordInDocument s id w = (termFreq s.word_to_document_freqs_ w id).isSome := by
  unfold SearchServer.wordInDocument termFreq
  cases hf : StdMap.find s.word_to_document_freqs_ w with
  | none => rfl
  | some postings =>
    simp only [Option.some_bind]
    unfold StdMap.count
    cases StdMap.find postings id <;> simp

theorem MatchDocument_plusWords_eq (s : SearchServer) (id : Int) (words matched : List Str) :
    SearchServer.MatchDocument.plusWords s id words matched =
      matched ++ words.filter (SearchServer.wordInDocument s id) := by
  induction words generalizing matched with
  | nil => simp [SearchServer.MatchDocument.plusWords]
  | cons w rest ih =>
    unfold SearchServer.MatchDocument.plusWords
    cases hf : StdMap.find s.word_to_document_freqs_ w with
    | none =>
      have hw : SearchServer.wordInDocument s id w = false := by
        simp [SearchServer.wordInDocument, hf]
      simp only [ih, List.filter_cons, hw, Bool.false_eq_true, if_false]
    | some postings =>
      by_cases hc : StdMap.count postings id > 0
      · have hw : SearchServer.wordInDocument s id w = true := by
          simp [SearchServer.wordInDocument, hf, hc]
        simp only [hc, if_true, ih, List.filter_cons, hw, List.append_assoc,
          List.singleton_append]
      · have hw : SearchServer.wordInDocument s id w = false := by
          simp [SearchServer.wordInDocument, hf, hc]
        simp only [hc, if_false, ih, List.filter_cons, hw, Bool.false_eq_true]

theorem MatchDocument_minusWords_eq (s : SearchServer) (id : Int) (words matched : List Str) :
    SearchServer.MatchDocument.minusWords s id words matched =
      if words.any (SearchServer.wordInDocument s id) then [] else matched := by
  induction words with
  | nil => simp [SearchServer.MatchDocument.minusWords]
  | cons w rest ih =>
    unfold SearchServer.MatchDocument.minusWords
    cases hf : StdMap.find s.word_to_document_freqs_ w with
    | none =>
      have hw : SearchServer.wordInDocument s id w = false := by
        simp [SearchServer.wordInDocument, hf]
      simp only [ih, List.any_cons, hw, Bool.false_or]
    | some postings =>
      by_cases hc : StdMap.count postings id > 0
      · have hw : SearchServer.wordInDocument s id w = true := by
          simp [SearchServer.wordInDocument, hf, hc]
        simp only [hc, if_true, List.any_cons, hw, Bool.true_or]
      · have hw : SearchServer.wordInDocument s id w = false := by
          simp [SearchServer.wordInDocument, hf, hc]
        simp only [hc, if_false, ih, List.any_cons, hw, Bool.false_or]

/-- The sequenced and the parallel overload of `MatchDocument` agree. -/
theorem MatchDocument_eq_Par (s : SearchServer) (raw_query : Str) (id : Int) :
    SearchServer.MatchDocument s raw_query id = SearchServer.MatchDocumentPar s raw_query id := by
  unfold SearchServer.MatchDocument SearchServer.MatchDocumentPar
  cases SearchServer.ParseQuery s (SplitIntoWordsView raw_query) with
  | error e => rfl
  | ok query =>
    simp only [MatchDocument_plusWords_eq, MatchDocument_minusWords_eq, List.nil_append]

/-- `MatchDocumentPar` in closed form, for a query that parses. -/
theorem MatchDocumentPar_eq (s : SearchServer) (raw_query : Str) (id : Int) (query : Query)
    (hparse : SearchServer.ParseQuery s (SplitIntoWordsView raw_query) = .ok query) :
    SearchServer.MatchDocumentPar s raw_query id =
      match StdMap.find s.documents_ id with
      | none => .error Error.out_of_range
      | some data =>
        .ok (if query.minus_words.any (SearchServer.wordInDocument s id) then []
             else query.plus_words.filter (SearchServer.wordInDocument s id), data.status) := by
  unfold SearchServer.MatchDocumentPar
  simp only [hparse]

/-! ## The id registry and removal -/

theorem StdMap.keys_upsert {κ ν : Type} [LinearOrder κ] (m : StdMap κ ν) (k : κ)
    (f : Option ν → ν) : StdMap.keys (StdMap.upsert m k f) = StdSet.insert (StdMap.keys m) k := by
  induction m with
  | nil => rfl
  | cons e rest ih =>
    obtain ⟨k0, v⟩ := e
    unfold StdMap.upsert
    rw [StdMap.keys_cons]
    unfold StdSet.insert
    by_cases h1 : k < k0
    · simp only [h1, if_true]
      rfl
    · by_cases h2 : k = k0
      · subst h2
        simp only [lt_irrefl, if_true, if_false]
        rfl
      · simp only [h1, h2, if_false, StdMap.keys_cons, ih]

theorem StdMap.keys_erase {κ ν : Type} [LinearOrder κ] (m : StdMap κ ν) (k : κ) :
    StdMap.keys (StdMap.erase m k) = StdSet.erase (StdMap.keys m) k := by
  induction m with
  | nil => rfl
  | cons e rest ih =>
    obtain ⟨k0, v⟩ := e
    unfold StdMap.erase
    rw [StdMap.keys_cons]
    unfold StdSet.erase
    by_cases h1 : k = k0
    · simp only [h1, if_true]
    · simp only [h1, if_false, StdMap.keys_cons, ih]

theorem StdMap.erase_of_not_mem {κ ν : Type} [LinearOrder κ] (m : StdMap κ ν) (k : κ)
    (h : k ∉ StdMap.keys m) : StdMap.erase m k = m := by
  induction m with
  | nil => rfl
  | cons e rest ih =>
    obtain ⟨k0, v⟩ := e
    rw [StdMap.keys_cons] at h
    have h1 : k ≠ k0 := fun hk => h (hk ▸ List.mem_cons_self _ _)
    have h2 : k ∉ StdMap.keys rest := fun hk => h (List.mem_cons_of_mem _ hk)
    unfold StdMap.erase
    simp only [h1, if_false, ih h2]

theorem StdSet.erase_absent {κ : Type} [LinearOrder κ] (s : StdSet κ) (k : κ)
    (h : k ∉ s) : StdSet.erase s k = s := by
  induction s with
  | nil => rfl
  | cons k0 rest ih =>
    have h1 : k ≠ k0 := fun hk => h (hk ▸ List.mem_cons_self _ _)
    have h2 : k ∉ rest := fun hk => h (List.mem_cons_of_mem _ hk)
    unfold StdSet.erase
    simp only [h1, if_false, ih h2]

theorem StdMap.length_erase {κ ν : Type} [LinearOrder κ] (m : StdMap κ ν) (k : κ)
    (h : k ∈ StdMap.keys m) : (StdMap.erase m k).length + 1 = m.length := by
  induction m with
  | nil => simp [StdMap.keys] at h
  | cons e rest ih =>
    obtain ⟨k0, v⟩ := e
    unfold StdMap.erase
    by_cases h1 : k = k0
    · simp only [h1, if_true, List.length_cons]
    · simp only [h1, if_false, List.length_cons]
      rw [StdMap.keys_cons] at h
      rcases List.mem_cons.mp h with h | h
      · exact absurd h h1
      · rw [ih h]

theorem StdMap.mem_keys_erase_iff {κ ν : Type} [LinearOrder κ] (m : StdMap κ ν) (k x : κ)
    (hwf : StdMap.WF m) : x ∈ StdMap.keys (StdMap.erase m k) ↔ x ∈ StdMap.keys m ∧ x ≠ k := by
  rw [← StdMap.find_isSome_iff, ← StdMap.find_isSome_iff]
  by_cases hx : x = k
  · subst hx
    simp [StdMap.find_erase_self m x hwf]
  · simp [StdMap.find_erase_ne m k x hx, hx]

/-- The id registry of a reachable state is the key list of `documents_`. -/
theorem apply_ids (s : SearchServer) (op : Op)
    (h : s.document_ids_ = StdMap.keys s.documents_) :
    (SearchServer.apply s op).document_ids_ = StdMap.keys (SearchServer.apply s op).documents_ := by
  cases op with
  | add id text status ratings =>
    show (SearchServer.AddDocument s id text status ratings).2.document_ids_ =
      StdMap.keys (SearchServer.AddDocument s id text status ratings).2.documents_
    rw [AddDocument_eq]
    split
    · exact h
    · show StdSet.insert s.document_ids_ id = StdMap.keys (StdMap.emplace s.documents_ id _)
      unfold StdMap.emplace
      rw [StdMap.keys_upsert, h]
  | remove id =>
    show StdSet.erase s.document_ids_ id = StdMap.keys (StdMap.erase s.documents_ id)
    rw [StdMap.keys_erase, h]

theorem foldl_apply_ids (ops : List Op) (s : SearchServer)
    (h : s.document_ids_ = StdMap.keys s.documents_) :
    (ops.foldl SearchServer.apply s).document_ids_ =
      StdMap.keys (ops.foldl SearchServer.apply s).documents_ := by
  induction ops generalizing s with
  | nil => exact h
  | cons op rest ih => exact ih _ (apply_ids s op h)

theorem run_ids (stop_words : StdSet Str) (ops : List Op) :
    (SearchServer.run stop_words ops).document_ids_ =
      StdMap.keys (SearchServer.run stop_words ops).documents_ :=
  foldl_apply_ids ops _ rfl

theorem find_posting_eq_termFreq (freqs : StdMap Str (StdMap Int ℚ)) (hwf : StdMap.WF freqs)
    (e : Str × StdMap Int ℚ) (he : e ∈ freqs) (id : Int) :
    StdMap.find e.2 id = termFreq freqs e.1 id := by
  unfold termFreq
  rw [StdMap.find_of_mem freqs e.1 e.2 hwf he]
  rfl

/-- `RemoveDocument` of an id without metadata changes nothing in a consistent state. -/
theorem RemoveDocument_absent (s : SearchServer) (hinv : SearchServer.Inv s)
    (hids : s.document_ids_ = StdMap.keys s.documents_) (id : Int)
    (hid : id ∉ StdMap.keys s.documents_) : SearchServer.RemoveDocument s id = s := by
  have hnone : ∀ w, termFreq s.word_to_document_freqs_ w id = none :=
    termFreq_none_of_unknown s hinv id (by rw [StdMap.find_isSome_iff]; exact hid)
  have hmap : s.word_to_document_freqs_.map
      (fun entry =>
        if StdMap.count entry.2 id > 0 then (entry.1, StdMap.erase entry.2 id) else entry) =
      s.word_to_document_freqs_ := by
    refine Eq.trans (List.map_congr_left ?_) (List.map_id' s.word_to_document_freqs_)
    intro e he
    have hf : StdMap.find e.2 id = none := by
      rw [find_posting_eq_termFreq _ hinv.index_wf.1 e he id]
      exact hnone e.1
    have hc : ¬ StdMap.count e.2 id > 0 := by
      rw [StdMap.count_pos_iff, hf]
      simp
    simp only [hc, if_false]
  unfold SearchServer.RemoveDocument
  rw [hmap, StdMap.erase_of_not_mem _ _ hid, StdSet.erase_absent _ _ (by rw [hids]; exact hid)]

/-- The word frequencies of every other document survive `RemoveDocument`. -/
theorem GetWordFrequencies_RemoveDocument_ne (s : SearchServer) (hinv : SearchServer.Inv s)
    (id d : Int) (hd : d ≠ id) :
    SearchServer.GetWordFrequencies (SearchServer.RemoveDocument s id) d =
      SearchServer.GetWordFrequencies s d := by
  rw [GetWordFrequencies_eq _ d (IndexWF_RemoveDocument s id hinv.index_wf).1,
    GetWordFrequencies_eq s d hinv.index_wf.1]
  show List.filterMap (wordFreqEntry d) (s.word_to_document_freqs_.map _) = _
  rw [List.filterMap_map]
  apply List.filterMap_congr
  intro e _
  show wordFreqEntry d (if StdMap.count e.2 id > 0 then (e.1, StdMap.erase e.2 id) else e) =
    wordFreqEntry d e
  split
  · unfold wordFreqEntry
    simp only [StdMap.find_erase_ne _ _ _ hd]
  · rfl

/-- The removed document has no word frequencies left. -/
theorem GetWordFrequencies_RemoveDocument_self (s : SearchServer) (hinv : SearchServer.Inv s)
    (id : Int) :
    SearchServer.GetWordFrequencies (SearchServer.RemoveDocument s id) id = [] := by
  have hinv2 := RemoveDocument_Inv s id hinv
  rw [GetWordFrequencies_eq _ id hinv2.index_wf.1]
  apply List.filterMap_eq_nil_iff.mpr
  intro e he
  unfold wordFreqEntry
  rw [find_posting_eq_termFreq _ hinv2.index_wf.1 e he id,
    termFreq_RemoveDocument s id hinv.index_wf, if_pos rfl]
  rfl

/-! ## Splitting laws -/

theorem splitOn_space_of_not_mem (w : Str) (h : ' ' ∉ w) : w.splitOn ' ' = [w] := by
  induction w with
  | nil => exact splitOn_space_nil
  | cons c cs ih =>
    have hc : c ≠ ' ' := fun hc => h (hc ▸ List.mem_cons_self _ _)
    have hcs : ' ' ∉ cs := fun hm => h (List.mem_cons_of_mem _ hm)
    rw [splitOn_space_cons, if_neg hc, ih hcs]
    rfl

theorem splitOn_space_append (a b : Str) :
    (a ++ ' ' :: b).splitOn ' ' = a.splitOn ' ' ++ b.splitOn ' ' := by
  induction a with
  | nil =>
    rw [List.nil_append, splitOn_space_cons, if_pos rfl, splitOn_space_nil]
    rfl
  | cons c cs ih =>
    rw [List.cons_append, splitOn_space_cons, splitOn_space_cons, ih]
    by_cases hc : c = ' '
    · rw [if_pos hc, if_pos hc]
      rfl
    · rw [if_neg hc, if_neg hc]
      cases h : cs.splitOn ' ' with
      | nil => exact absurd h (splitOn_space_ne_nil cs)
      | cons x xs => rfl

theorem SplitIntoWords_nil : SplitIntoWords [] = [] := by rfl

theorem SplitIntoWords_word (w : Str) (hne : w ≠ []) (hsp : ' ' ∉ w) : SplitIntoWords w = [w] := by
  rw [SplitIntoWords_eq, splitOn_space_of_not_mem w hsp]
  cases w with
  | nil => exact absurd rfl hne
  | cons a b => rfl

theorem SplitIntoWords_append (a b : Str) :
    SplitIntoWords (a ++ ' ' :: b) = SplitIntoWords a ++ SplitIntoWords b := by
  rw [SplitIntoWords_eq, SplitIntoWords_eq, SplitIntoWords_eq, splitOn_space_append,
    List.filter_append]

theorem SplitIntoWords_spaces (text : Str) (h : ∀ c ∈ text, c = ' ') : SplitIntoWords text = [] := by
  induction text with
  | nil => rfl
  | cons c cs ih =>
    have hc : c = ' ' := h c (List.mem_cons_self _ _)
    subst hc
    have := SplitIntoWords_append [] cs
    rw [List.nil_append] at this
    rw [this, SplitIntoWords_nil, ih (fun c hc => h c (List.mem_cons_of_mem _ hc))]
    rfl

/-! ## The round trip through `MatchDocument` -/

theorem ParseQuery_loop_ok (s : SearchServer) (tokens : List Str) (start : Query)
    (h : ∀ t ∈ tokens, ¬ malformedToken t) :
    ∃ query, SearchServer.ParseQuery.loop s tokens start = .ok query := by
  classical
  induction tokens generalizing start with
  | nil => exact ⟨start, rfl⟩
  | cons t rest ih =>
    have ht := h t (List.mem_cons_self _ _)
    have hrest : ∀ t2 ∈ rest, ¬ malformedToken t2 :=
      fun t2 h2 => h t2 (List.mem_cons_of_mem _ h2)
    unfold SearchServer.ParseQuery.loop
    rw [ParseQueryWord_eq, if_neg ht]
    simp only []
    split
    · split
      · exact ih _ hrest
      · exact ih _ hrest
    · exact ih _ hrest

theorem eq_nil_of_forall_not_mem_str (l : List Str) (h : ∀ w, w ∉ l) : l = [] :=
  List.eq_nil_iff_forall_not_mem.mpr h

theorem sorted_ext (l1 l2 : List Str) (h1 : l1.Pairwise (· < ·)) (h2 : l2.Pairwise (· < ·))
    (h : ∀ x, x ∈ l1 ↔ x ∈ l2) : l1 = l2 :=
  List.eq_of_perm_of_sorted
    ((List.perm_ext_iff_of_nodup (h1.imp (fun h => ne_of_lt h))
      (h2.imp (fun h => ne_of_lt h))).mpr h) h1 h2

/-! ## Claims C11 – C13 -/

/-- C11: on a reachable server, after `RemoveDocument(id)` no posting list holds
`id`, `GetWordFrequencies(id)` is empty and `id` is not in the id registry; every
other document keeps its word frequencies, its metadata and its place in the
registry; when `id` had metadata `GetDocumentCount()` drops by exactly one, and
when it had none the whole state is unchanged. -/
theorem C11_RemoveDocument_effect (stop_words : StdSet Str) (ops : List Op) (id : Int) :
    (∀ e ∈ (SearchServer.RemoveDocument (SearchServer.run stop_words ops)
        id).word_to_document_freqs_, id ∉ StdMap.keys e.2) ∧
    SearchServer.GetWordFrequencies
      (SearchServer.RemoveDocument (SearchServer.run stop_words ops) id) id = [] ∧
    id ∉ (SearchServer.RemoveDocument (SearchServer.run stop_words ops) id).document_ids_ ∧
    (∀ d, d ≠ id →
      SearchServer.GetWordFrequencies
          (SearchServer.RemoveDocument (SearchServer.run stop_words ops) id) d =
        SearchServer.GetWordFrequencies (SearchServer.run stop_words ops) d ∧
      StdMap.find (SearchServer.RemoveDocument (SearchServer.run stop_words ops) id).documents_ d =
        StdMap.find (SearchServer.run stop_words ops).documents_ d ∧
      (d ∈ (SearchServer.RemoveDocument (SearchServer.run stop_words ops) id).document_ids_ ↔
        d ∈ (SearchServer.run stop_words ops).document_ids_)) ∧
    (id ∈ (SearchServer.run stop_words ops).document_ids_ →
      SearchServer.GetDocumentCount
          (SearchServer.RemoveDocument (SearchServer.run stop_words ops) id) + 1 =
        SearchServer.GetDocumentCount (SearchServer.run stop_words ops)) ∧
    (id ∉ (SearchServer.run stop_words ops).document_ids_ →
      SearchServer.RemoveDocument (SearchServer.run stop_words ops) id =
        SearchServer.run stop_words ops) := by
  have hinv := run_Inv stop_words ops
  have hids := run_ids stop_words ops
  have hinv2 := RemoveDocument_Inv _ id hinv
  have hids2 : (SearchServer.RemoveDocument (SearchServer.run stop_words ops) id).document_ids_ =
      StdMap.keys (StdMap.erase (SearchServer.run stop_words ops).documents_ id) :=
    apply_ids _ (Op.remove id) hids
  refine ⟨?_, GetWordFrequencies_RemoveDocument_self _ hinv id, ?_, ?_, ?_, ?_⟩
  · intro e he
    rw [← StdMap.find_eq_none_iff, find_posting_eq_termFreq _ hinv2.index_wf.1 e he id,
      termFreq_RemoveDocument _ id hinv.index_wf, if_pos rfl]
  · rw [hids2, StdMap.mem_keys_erase_iff _ _ _ hinv.documents_wf]
    exact fun h => h.2 rfl
  · intro d hd
    refine ⟨GetWordFrequencies_RemoveDocument_ne _ hinv id d hd,
      StdMap.find_erase_ne _ _ _ hd, ?_⟩
    rw [hids2, StdMap.mem_keys_erase_iff _ _ _ hinv.documents_wf, hids]
    exact ⟨fun h => h.1, fun h => ⟨h, hd⟩⟩
  · intro hin
    rw [hids] at hin
    exact StdMap.length_erase _ _ hin
  · intro hout
    rw [hids] at hout
    exact RemoveDocument_absent _ hinv hids id hout

/-- C12: in every state, for a query that parses and an id with metadata, both
overloads of `MatchDocument` return the stored status together with the empty list
when the posting list of some minus word holds the id, and otherwise with the plus
words, each once, whose posting list holds the id. -/
theorem C12_MatchDocument_result (s : SearchServer) (raw_query : Str) (id : Int)
    (query : Query) (data : DocumentData)
    (hparse : SearchServer.ParseQuery s (SplitIntoWordsView raw_query) = .ok query)
    (hdoc : StdMap.find s.documents_ id = some data) :
    SearchServer.MatchDocument s raw_query id =
      .ok (if query.minus_words.any (SearchServer.wordInDocument s id) then []
           else query.plus_words.filter (SearchServer.wordInDocument s id), data.status) ∧
    SearchServer.MatchDocumentPar s raw_query id =
      .ok (if query.minus_words.any (SearchServer.wordInDocument s id) then []
           else query.plus_words.filter (SearchServer.wordInDocument s id), data.status) ∧
    (query.plus_words.filter (SearchServer.wordInDocument s id)).Nodup ∧
    (∀ w, SearchServer.wordInDocument s id w = true ↔
      ∃ postings, StdMap.find s.word_to_document_freqs_ w = some postings ∧
        id ∈ StdMap.keys postings) := by
  have hpar := MatchDocumentPar_eq s raw_query id query hparse
  rw [hdoc] at hpar
  refine ⟨?_, hpar, ?_, wordInDocument_iff s id⟩
  · rw [MatchDocument_eq_Par]
    exact hpar
  · exact (ParseQuery_plus_nodup s _ query hparse).filter _

/-- Witness of C12: document 2 of the example server and the query `cat dog -tail`. -/
theorem C12_MatchDocument_result_witness :
    SearchServer.MatchDocument (SearchServer.run exampleStopWords exampleOps)
        "cat dog -tail".toList 2 =
      .ok (["cat".toList, "dog".toList], DocumentStatus.BANNED) ∧
    SearchServer.MatchDocument (SearchServer.run exampleStopWords exampleOps)
        "cat dog -tail".toList 0 = .ok ([], DocumentStatus.ACTUAL) ∧
    SearchServer.MatchDocument (SearchServer.run exampleStopWords exampleOps)
        "cat dog -tail".toList 2 =
      .ok (if (["tail".toList] : List Str).any
              (SearchServer.wordInDocument (SearchServer.run exampleStopWords exampleOps) 2)
           then []
           else (["cat".toList, "dog".toList] : List Str).filter
              (SearchServer.wordInDocument (SearchServer.run exampleStopWords exampleOps) 2),
           DocumentStatus.BANNED) :=
  ⟨by rfl, by rfl,
    (C12_MatchDocument_result (SearchServer.run exampleStopWords exampleOps)
      "cat dog -tail".toList 2
      { plus_words := ["cat".toList, "dog".toList], minus_words := ["tail".toList] }
      { rating := 9, status := DocumentStatus.BANNED } (by rfl) (by rfl)).1⟩

/-- C13: in every state, for a query that parses, both overloads of `MatchDocument`
throw `out_of_range` when the id has no metadata, and return a result when it has:
an absent document is told apart from a present one without matches. -/
theorem C13_MatchDocument_absent (s : SearchServer) (raw_query : Str) (id : Int) (query : Query)
    (hparse : SearchServer.ParseQuery s (SplitIntoWordsView raw_query) = .ok query) :
    (id ∉ StdMap.keys s.documents_ →
      SearchServer.MatchDocument s raw_query id = .error Error.out_of_range ∧
      SearchServer.MatchDocumentPar s raw_query id = .error Error.out_of_range) ∧
    (id ∈ StdMap.keys s.documents_ →
      ∃ result, SearchServer.MatchDocument s raw_query id = .ok result ∧
        SearchServer.MatchDocumentPar s raw_query id = .ok result) := by
  have hpar := MatchDocumentPar_eq s raw_query id query hparse
  constructor
  · intro hout
    rw [← StdMap.find_eq_none_iff] at hout
    rw [hout] at hpar
    exact ⟨by rw [MatchDocument_eq_Par]; exact hpar, hpar⟩
  · intro hin
    rw [← StdMap.find_isSome_iff] at hin
    obtain ⟨data, hdata⟩ := Option.isSome_iff_exists.mp hin
    rw [hdata] at hpar
    exact ⟨_, by rw [MatchDocument_eq_Par]; exact hpar, hpar⟩

/-- Witness of C13: document 1 was added and removed, document 5 never added. -/
theorem C13_MatchDocument_absent_witness :
    ((1 : Int) ∉ StdMap.keys
        (SearchServer.run exampleStopWords (exampleOps ++ [Op.remove 1])).documents_ →
      SearchServer.MatchDocument
          (SearchServer.run exampleStopWords (exampleOps ++ [Op.remove 1])) "cat dog".toList 1 =
        .error Error.out_of_range ∧
      SearchServer.MatchDocumentPar
          (SearchServer.run exampleStopWords (exampleOps ++ [Op.remove 1])) "cat dog".toList 1 =
        .error Error.out_of_range) ∧
    ((1 : Int) ∈ StdMap.keys
        (SearchServer.run exampleStopWords (exampleOps ++ [Op.remove 1])).documents_ →
      ∃ result,
        SearchServer.MatchDocument
          (SearchServer.run exampleStopWords (exampleOps ++ [Op.remove 1])) "cat dog".toList 1 =
          .ok result ∧
        SearchServer.MatchDocumentPar
          (SearchServer.run exampleStopWords (exampleOps ++ [Op.remove 1])) "cat dog".toList 1 =
          .ok result) :=
  C13_MatchDocument_absent (SearchServer.run exampleStopWords (exampleOps ++ [Op.remove 1]))
    "cat dog".toList 1 exampleQuery (by rfl)

/-! ## Claims C15 – C18 -/

/-- C15: `ParseQueryWord` throws exactly when the token is empty, or what is left
after stripping one leading `-` is empty, starts with `-`, or has a character with
code in 0..31; otherwise it returns what is left as the term, whether the token
started with `-`, and whether the term is a stop word. -/
theorem C15_ParseQueryWord (s : SearchServer) (token : Str) :
    ((∃ e, SearchServer.ParseQueryWord s token = .error e) ↔
      (token = [] ∨ stripMinus token = [] ∨ (stripMinus token).head? = some '-' ∨
        ∃ c ∈ stripMinus token, c.toNat < 32)) ∧
    (SearchServer.ParseQueryWord s token = .error Error.invalid_argument ∨
      SearchServer.ParseQueryWord s token =
        .ok { data := stripMinus token, is_minus := decide (token.head? = some '-'),
              is_stop := decide (stripMinus token ∈ s.stop_words_) }) := by
  classical
  have h := ParseQueryWord_eq s token
  by_cases hm : malformedToken token
  · rw [if_pos hm] at h
    exact ⟨⟨fun _ => hm, fun _ => ⟨_, h⟩⟩, Or.inl h⟩
  · rw [if_neg hm] at h
    refine ⟨⟨?_, fun hc => absurd hc hm⟩, Or.inr h⟩
    rintro ⟨e, he⟩
    rw [h] at he
    cases he

/-- C16: when `ParseQuery` succeeds, the plus words are exactly the tokens without
a leading `-` that are not stop words, the minus words exactly the terms `w` of the
tokens `-w` that are not stop words; both are duplicate-free, no stop word is in
either, and a term with a token of each kind is in both. -/
theorem C16_ParseQuery_sets (s : SearchServer) (tokens : List Str) (query : Query)
    (hparse : SearchServer.ParseQuery s tokens = .ok query) :
    (∀ w, w ∈ query.plus_words ↔ (w ∈ tokens ∧ w.head? ≠ some '-' ∧ w ∉ s.stop_words_)) ∧
    (∀ w, w ∈ query.minus_words ↔ (('-' :: w) ∈ tokens ∧ w ∉ s.stop_words_)) ∧
    query.plus_words.Nodup ∧ query.minus_words.Nodup ∧
    (∀ w ∈ s.stop_words_, w ∉ query.plus_words ∧ w ∉ query.minus_words) ∧
    (∀ w, w ∈ tokens → ('-' :: w) ∈ tokens → w ∉ s.stop_words_ →
      w ∈ query.plus_words ∧ w ∈ query.minus_words) := by
  obtain ⟨hwell, hplus, hminus⟩ := ParseQuery_mem s tokens query hparse
  have hsorted := ParseQuery_loop_sorted s tokens _ query List.Pairwise.nil List.Pairwise.nil hparse
  refine ⟨hplus, hminus, hsorted.1.imp (fun h => ne_of_lt h), hsorted.2.imp (fun h => ne_of_lt h),
    ?_, ?_⟩
  · intro w hw
    exact ⟨fun h => ((hplus w).mp h).2.2 hw, fun h => ((hminus w).mp h).2 hw⟩
  · intro w hw hmw hstop
    refine ⟨(hplus w).mpr ⟨hw, ?_, hstop⟩, (hminus w).mpr ⟨hmw, hstop⟩⟩
    intro hhead
    apply hwell _ hmw
    right; right; left
    rw [stripMinus_cons_minus]
    exact hhead

/-- Witness of C16: the tokens `cat`, `-cat`, `and`, `-dog`, `cat` with stop word `and`. -/
theorem C16_ParseQuery_sets_witness :
    SearchServer.ParseQuery (SearchServer.run exampleStopWords exampleOps)
        ["cat".toList, "-cat".toList, "and".toList, "-dog".toList, "cat".toList] =
      .ok { plus_words := ["cat".toList], minus_words := ["cat".toList, "dog".toList] } ∧
    ((∀ w, w ∈ ["cat".toList] ↔
      (w ∈ ["cat".toList, "-cat".toList, "and".toList, "-dog".toList, "cat".toList] ∧
        w.head? ≠ some '-' ∧
        w ∉ (SearchServer.run exampleStopWords exampleOps).stop_words_)) ∧
    (∀ w, w ∈ ["cat".toList, "dog".toList] ↔
      (('-' :: w) ∈ ["cat".toList, "-cat".toList, "and".toList, "-dog".toList, "cat".toList] ∧
        w ∉ (SearchServer.run exampleStopWords exampleOps).stop_words_))) :=
  ⟨by rfl,
    ⟨(C16_ParseQuery_sets (SearchServer.run exampleStopWords exampleOps)
      ["cat".toList, "-cat".toList, "and".toList, "-dog".toList, "cat".toList]
      { plus_words := ["cat".toList], minus_words := ["cat".toList, "dog".toList] } (by rfl)).1,
     (C16_ParseQuery_sets (SearchServer.run exampleStopWords exampleOps)
      ["cat".toList, "-cat".toList, "and".toList, "-dog".toList, "cat".toList]
      { plus_words := ["cat".toList], minus_words := ["cat".toList, "dog".toList] }
      (by rfl)).2.1⟩⟩

/-! ## Duplicates -/

theorem key_compare_equal_iff (lhs rhs : StdMap Str ℚ) (hlen : lhs.length = rhs.length) :
    key_compare.equal lhs rhs = true ↔ StdMap.keys lhs = StdMap.keys rhs := by
  induction lhs generalizing rhs with
  | nil =>
    cases rhs with
    | nil => simp [key_compare.equal, StdMap.keys]
    | cons b rhs => simp at hlen
  | cons a lhs ih =>
    cases rhs with
    | nil => simp at hlen
    | cons b rhs =>
      have hlen2 : lhs.length = rhs.length := by simpa using hlen
      simp only [key_compare.equal, Bool.and_eq_true, decide_eq_true_eq, ih rhs hlen2,
        StdMap.keys, List.map_cons, List.cons.injEq]

/-- `key_compare` holds exactly of two maps with the same keys. -/
theorem key_compare_iff (lhs rhs : StdMap Str ℚ) :
    key_compare lhs rhs = true ↔ StdMap.keys lhs = StdMap.keys rhs := by
  unfold key_compare
  by_cases hlen : lhs.length = rhs.length
  · simp only [hlen, decide_True, Bool.true_and]
    exact key_compare_equal_iff lhs rhs hlen
  · simp only [hlen, decide_False, Bool.false_and, Bool.false_eq_true, false_iff]
    intro hk
    apply hlen
    have := congrArg List.length hk
    simpa [StdMap.keys] using this

theorem RemoveDuplicates_step_eq (s : SearchServer) (o i : Int) (deleted : StdSet Int) :
    RemoveDuplicates.step s o deleted i =
      if o ≠ i ∧ StdMap.keys (SearchServer.GetWordFrequencies s o) =
          StdMap.keys (SearchServer.GetWordFrequencies s i) then
        StdSet.insert deleted (max o i)
      else deleted := by
  unfold RemoveDuplicates.step
  by_cases hne : o ≠ i
  · by_cases hk : key_compare (SearchServer.GetWordFrequencies s o)
        (SearchServer.GetWordFrequencies s i) = true
    · have hk2 := (key_compare_iff _ _).mp hk
      simp only [hne, hk, hk2, if_true, and_self, not_false_eq_true, ne_eq]
      rcases lt_or_gt_of_ne hne with hlt | hgt
      · have h1 : ¬ o > i := not_lt.mpr (le_of_lt hlt)
        simp only [h1, hlt, if_true, if_false, max_eq_right (le_of_lt hlt)]
      · simp only [hgt, if_true, max_eq_left (le_of_lt hgt)]
    · have hk2 : ¬ StdMap.keys (SearchServer.GetWordFrequencies s o) =
          StdMap.keys (SearchServer.GetWordFrequencies s i) :=
        fun h => hk ((key_compare_iff _ _).mpr h)
      simp only [hne, hk, hk2, if_true, if_false, and_false, not_false_eq_true, ne_eq,
        Bool.false_eq_true]
  · simp only [hne, if_false, false_and]

theorem mem_foldl_step (s : SearchServer) (o : Int) (ins : List Int) (deleted : StdSet Int)
    (x : Int) :
    x ∈ ins.foldl (RemoveDuplicates.step s o) deleted ↔
      x ∈ deleted ∨ ∃ i ∈ ins, (o ≠ i ∧ StdMap.keys (SearchServer.GetWordFrequencies s o) =
        StdMap.keys (SearchServer.GetWordFrequencies s i)) ∧ x = max o i := by
  induction ins generalizing deleted with
  | nil => simp
  | cons i rest ih =>
    rw [List.foldl_cons, ih, RemoveDuplicates_step_eq]
    by_cases hc : o ≠ i ∧ StdMap.keys (SearchServer.GetWordFrequencies s o) =
        StdMap.keys (SearchServer.GetWordFrequencies s i)
    · rw [if_pos hc, StdSet.mem_insert]
      constructor
      · rintro ((hx | hx) | ⟨j, hj, hcj, hxj⟩)
        · exact Or.inr ⟨i, List.mem_cons_self _ _, hc, hx⟩
        · exact Or.inl hx
        · exact Or.inr ⟨j, List.mem_cons_of_mem _ hj, hcj, hxj⟩
      · rintro (hx | ⟨j, hj, hcj, hxj⟩)
        · exact Or.inl (Or.inr hx)
        · rcases List.mem_cons.mp hj with hj | hj
          · subst hj
            exact Or.inl (Or.inl hxj)
          · exact Or.inr ⟨j, hj, hcj, hxj⟩
    · rw [if_neg hc]
      constructor
      · rintro (hx | ⟨j, hj, hcj, hxj⟩)
        · exact Or.inl hx
        · exact Or.inr ⟨j, List.mem_cons_of_mem _ hj, hcj, hxj⟩
      · rintro (hx | ⟨j, hj, hcj, hxj⟩)
        · exact Or.inl hx
        · rcases List.mem_cons.mp hj with hj | hj
          · subst hj
            exact absurd hcj hc
          · exact Or.inr ⟨j, hj, hcj, hxj⟩

theorem mem_foldl_foldl_step (s : SearchServer) (outs ins : List Int) (deleted : StdSet Int)
    (x : Int) :
    x ∈ outs.foldl (fun deleted o => ins.foldl (RemoveDuplicates.step s o) deleted) deleted ↔
      x ∈ deleted ∨ ∃ o ∈ outs, ∃ i ∈ ins,
        (o ≠ i ∧ StdMap.keys (SearchServer.GetWordFrequencies s o) =
          StdMap.keys (SearchServer.GetWordFrequencies s i)) ∧ x = max o i := by
  induction outs generalizing deleted with
  | nil => simp
  | cons o rest ih =>
    rw [List.foldl_cons, ih, mem_foldl_step]
    constructor
    · rintro ((hx | hx) | ⟨o2, ho2, hx⟩)
      · exact Or.inl hx
      · exact Or.inr ⟨o, List.mem_cons_self _ _, hx⟩
      · exact Or.inr ⟨o2, List.mem_cons_of_mem _ ho2, hx⟩
    · rintro (hx | ⟨o2, ho2, hx⟩)
      · exact Or.inl (Or.inl hx)
      · rcases List.mem_cons.mp ho2 with ho2 | ho2
        · subst ho2
          exact Or.inl (Or.inr hx)
        · exact Or.inr ⟨o2, ho2, hx⟩

/-- The ids `RemoveDuplicates` collects: those with a smaller id of the same key set. -/
theorem mem_deleted_iff (s : SearchServer) (x : Int) :
    x ∈ RemoveDuplicates.deleted s ↔
      x ∈ s.document_ids_ ∧ ∃ y ∈ s.document_ids_, y < x ∧
        StdMap.keys (SearchServer.GetWordFrequencies s y) =
          StdMap.keys (SearchServer.GetWordFrequencies s x) := by
  unfold RemoveDuplicates.deleted
  rw [mem_foldl_foldl_step]
  simp only [List.not_mem_nil, false_or]
  constructor
  · rintro ⟨o, ho, i, hi, ⟨hne, hk⟩, hx⟩
    rcases lt_or_gt_of_ne hne with hlt | hgt
    · rw [max_eq_right (le_of_lt hlt)] at hx
      subst hx
      exact ⟨hi, o, ho, hlt, hk⟩
    · rw [max_eq_left (le_of_lt hgt)] at hx
      subst hx
      exact ⟨ho, i, hi, hgt, hk.symm⟩
  · rintro ⟨hx, y, hy, hlt, hk⟩
    exact ⟨x, hx, y, hy, ⟨ne_of_gt hlt, hk.symm⟩, (max_eq_left (le_of_lt hlt)).symm⟩

/-- Removing the documents of a list, one after the other. -/
theorem foldl_RemoveDocument_spec (dels : List Int) (s : SearchServer)
    (hinv : SearchServer.Inv s) (hids : s.document_ids_ = StdMap.keys s.documents_) :
    (dels.foldl SearchServer.RemoveDocument s).document_ids_ =
      StdMap.keys (dels.foldl SearchServer.RemoveDocument s).documents_ ∧
    (∀ x, x ∈ StdMap.keys (dels.foldl SearchServer.RemoveDocument s).documents_ ↔
      x ∈ StdMap.keys s.documents_ ∧ x ∉ dels) ∧
    (∀ x, x ∉ dels →
      SearchServer.GetWordFrequencies (dels.foldl SearchServer.RemoveDocument s) x =
        SearchServer.GetWordFrequencies s x ∧
      StdMap.find (dels.foldl SearchServer.RemoveDocument s).documents_ x =
        StdMap.find s.documents_ x) := by
  induction dels generalizing s with
  | nil => exact ⟨hids, fun x => by simp, fun x _ => ⟨rfl, rfl⟩⟩
  | cons d rest ih =>
    rw [List.foldl_cons]
    have hinv2 := RemoveDocument_Inv s d hinv
    have hids2 : (SearchServer.RemoveDocument s d).document_ids_ =
        StdMap.keys (SearchServer.RemoveDocument s d).documents_ :=
      apply_ids s (Op.remove d) hids
    obtain ⟨h1, h2, h3⟩ := ih (SearchServer.RemoveDocument s d) hinv2 hids2
    refine ⟨h1, ?_, ?_⟩
    · intro x
      rw [h2 x]
      show x ∈ StdMap.keys (StdMap.erase s.documents_ d) ∧ x ∉ rest ↔ _
      rw [StdMap.mem_keys_erase_iff _ _ _ hinv.documents_wf, List.mem_cons]
      constructor
      · rintro ⟨⟨hx, hne⟩, hr⟩
        exact ⟨hx, fun h => h.elim hne hr⟩
      · rintro ⟨hx, hn⟩
        exact ⟨⟨hx, fun h => hn (Or.inl h)⟩, fun h => hn (Or.inr h)⟩
    · intro x hx
      have hxd : x ≠ d := fun h => hx (h ▸ List.mem_cons_self _ _)
      have hxr : x ∉ rest := fun h => hx (List.mem_cons_of_mem _ h)
      obtain ⟨h4, h5⟩ := h3 x hxr
      refine ⟨h4.trans (GetWordFrequencies_RemoveDocument_ne s hinv d x hxd), h5.trans ?_⟩
      exact StdMap.find_erase_ne _ _ _ hxd

/-! ## The accumulator under a sequence of updates -/

theorem foldl_add_spec (updates : List (Int × ℚ)) (cm : ConcurrentMap)
    (hwf : ConcurrentMap.WF cm) :
    ConcurrentMap.WF (updates.foldl (fun cm u => ConcurrentMap.add cm u.1 u.2) cm) ∧
    (updates.foldl (fun cm u => ConcurrentMap.add cm u.1 u.2) cm).bucket_count_ =
      cm.bucket_count_ ∧
    ∀ k, ConcurrentMap.get (updates.foldl (fun cm u => ConcurrentMap.add cm u.1 u.2) cm) k =
      if k ∈ updates.map Prod.fst then
        some ((ConcurrentMap.get cm k).getD 0 +
          ((updates.filter (fun u => decide (u.1 = k))).map Prod.snd).sum)
      else ConcurrentMap.get cm k := by
  induction updates generalizing cm with
  | nil => exact ⟨hwf, rfl, fun k => by simp⟩
  | cons u rest ih =>
    rw [List.foldl_cons]
    obtain ⟨h1, h2, h3⟩ := ih (ConcurrentMap.add cm u.1 u.2) (ConcurrentMap.WF_add cm hwf u.1 u.2)
    refine ⟨h1, h2, ?_⟩
    intro k
    rw [h3 k, ConcurrentMap.get_add cm hwf]
    by_cases hk : k = u.1
    · subst hk
      by_cases hr : u.1 ∈ rest.map Prod.fst
      · simp only [hr, if_true, List.map_cons, List.mem_cons, true_or, List.filter_cons,
          decide_True, List.sum_cons, Option.getD_some]
        congr 1
        ring
      · simp only [hr, if_false, if_true, List.map_cons, List.mem_cons, true_or,
          List.filter_cons, decide_True, List.sum_cons]
        have hnil : rest.filter (fun u2 => decide (u2.1 = u.1)) = [] := by
          apply List.filter_eq_nil_iff.mpr
          intro a ha
          simp only [decide_eq_true_eq]
          intro hau
          exact hr (List.mem_map.mpr ⟨a, ha, hau⟩)
        rw [hnil]
        simp
    · have hu : ¬ u.1 = k := fun h => hk h.symm
      simp only [hk, hu, if_false, List.map_cons, List.mem_cons, false_or, List.filter_cons,
        decide_False, Bool.false_eq_true]

/-- C17: `SplitIntoWords` returns, in order, the non-empty segments between spaces;
no token is empty or holds a space; an empty or all-space text gives no token; a
text without space gives itself; and the tokens of `a`, a space, `b` are the tokens
of `a` followed by those of `b`, so any run of spaces is one delimiter. -/
theorem C17_SplitIntoWords_runs (text : Str) :
    SplitIntoWords text = (text.splitOn ' ').filter (fun w => !w.isEmpty) ∧
    (∀ w ∈ SplitIntoWords text, w ≠ [] ∧ ' ' ∉ w) ∧
    ((∀ c ∈ text, c = ' ') → SplitIntoWords text = []) ∧
    (text ≠ [] → ' ' ∉ text → SplitIntoWords text = [text]) ∧
    (∀ a b, text = a ++ ' ' :: b → SplitIntoWords text = SplitIntoWords a ++ SplitIntoWords b) ∧
    (∀ tokens, (∀ t ∈ tokens, t ≠ [] ∧ ' ' ∉ t) → text = List.intercalate [' '] tokens →
      SplitIntoWords text = tokens) := by
  refine ⟨SplitIntoWords_eq text, SplitIntoWords_token text, SplitIntoWords_spaces text,
    SplitIntoWords_word text, ?_, ?_⟩
  · intro a b hab
    rw [hab]
    exact SplitIntoWords_append a b
  · intro tokens htok htext
    rw [htext, SplitIntoWords_eq]
    cases tokens with
    | nil => rfl
    | cons t rest =>
      rw [List.splitOn_intercalate _ ' ' (fun l hl => (htok l hl).2) (by simp)]
      apply List.filter_eq_self.mpr
      intro w hw
      have := (htok w hw).1
      cases w with
      | nil => exact absurd rfl this
      | cons x xs => rfl

/-- C18 fails on the code: `SplitIntoWordsView` returns every segment between two
spaces, empty ones included, and never the empty sequence, while `SplitIntoWords`
drops the empty segments. The two differ on `a  b`, on the empty text and on a
text that ends with a space; dropping the empty tokens of the view gives
`SplitIntoWords`. -/
theorem C18_SplitIntoWordsView_keeps_empty_tokens :
    SplitIntoWordsView "a  b".toList = ["a".toList, [], "b".toList] ∧
    SplitIntoWords "a  b".toList = ["a".toList, "b".toList] ∧
    SplitIntoWordsView [] = [[]] ∧
    SplitIntoWords [] = [] ∧
    SplitIntoWordsView "cat ".toList = ["cat".toList, []] ∧
    SplitIntoWords "cat ".toList = ["cat".toList] ∧
    (∀ text, SplitIntoWordsView text = text.splitOn ' ') ∧
    (∀ text, SplitIntoWordsView text ≠ []) ∧
    (∀ text, (SplitIntoWordsView text).filter (fun w => !w.isEmpty) = SplitIntoWords text) := by
  refine ⟨by rfl, by rfl, by rfl, by rfl, by rfl, by rfl, SplitIntoWordsView_eq, ?_, ?_⟩
  · intro text
    rw [SplitIntoWordsView_eq]
    exact splitOn_space_ne_nil text
  · intro text
    rw [SplitIntoWordsView_eq, SplitIntoWords_eq]

/-! ## Claim C14 -/

/-- C14, as amended: after a successful `AddDocument(id, text, status, ..)` on a
reachable server, for any non-empty list `terms` of exactly the tokens of the text
that are not stop words, none of which starts with `-`, both overloads of
`MatchDocument`, called with the terms joined by single spaces and with `id`, return
the stored status and all the terms: the keys of `GetWordFrequencies(id)`. -/
theorem C14_MatchDocument_round_trip (stop_words : StdSet Str) (ops : List Op) (id : Int)
    (text : Str) (status : DocumentStatus) (ratings : List Int) (terms : List Str)
    (hok : (SearchServer.AddDocument (SearchServer.run stop_words ops) id text status ratings).1 =
      .ok ())
    (hsub : ∀ w ∈ terms,
      w ∈ SplitIntoWords text ∧ w ∉ (SearchServer.run stop_words ops).stop_words_)
    (hsup : ∀ w ∈ SplitIntoWords text,
      w ∉ (SearchServer.run stop_words ops).stop_words_ → w ∈ terms)
    (hne : terms ≠ [])
    (hminus : ∀ w ∈ terms, w.head? ≠ some '-') :
    SearchServer.MatchDocument
        (SearchServer.AddDocument (SearchServer.run stop_words ops) id text status ratings).2
        (List.intercalate [' '] terms) id =
      .ok (StdMap.keys (SearchServer.GetWordFrequencies
        (SearchServer.AddDocument (SearchServer.run stop_words ops) id text status ratings).2 id),
        status) ∧
    SearchServer.MatchDocumentPar
        (SearchServer.AddDocument (SearchServer.run stop_words ops) id text status ratings).2
        (List.intercalate [' '] terms) id =
      .ok (StdMap.keys (SearchServer.GetWordFrequencies
        (SearchServer.AddDocument (SearchServer.run stop_words ops) id text status ratings).2 id),
        status) ∧
    (∀ w, w ∈ StdMap.keys (SearchServer.GetWordFrequencies
        (SearchServer.AddDocument (SearchServer.run stop_words ops) id text status ratings).2 id) ↔
      w ∈ terms) := by
  have hterms : ∀ w, w ∈ terms ↔
      (w ∈ SplitIntoWords text ∧ w ∉ (SearchServer.run stop_words ops).stop_words_) :=
    fun w => ⟨hsub w, fun h => hsup w h.1 h.2⟩
  have hinv := run_Inv stop_words ops
  have hinv2 := AddDocument_Inv _ id text status ratings hinv
  have hspec := GetWordFrequencies_spec _ id hinv2.index_wf.1
  have hkeys := keys_GetWordFrequencies_AddDocument _ hinv id text status ratings hok
  have hcond := AddDocument_ok_cond _ id text status ratings hok
  have hstop : (SearchServer.AddDocument (SearchServer.run stop_words ops) id text status
      ratings).2.stop_words_ = (SearchServer.run stop_words ops).stop_words_ := by
    rw [AddDocument_eq]
    split <;> rfl
  have hindexed : ∀ w, w ∈ terms ↔
      w ∈ SearchServer.indexedWords (SearchServer.run stop_words ops) text := by
    intro w
    rw [hterms w, mem_indexedWords]
  have hkeys2 : ∀ w, w ∈ StdMap.keys (SearchServer.GetWordFrequencies
        (SearchServer.AddDocument (SearchServer.run stop_words ops) id text status ratings).2 id) ↔
      w ∈ terms := by
    intro w
    rw [hkeys w, hindexed w]
  have htokens : SplitIntoWordsView (List.intercalate [' '] terms) = terms := by
    rw [SplitIntoWordsView_eq]
    exact List.splitOn_intercalate terms ' '
      (fun t ht => (SplitIntoWords_token text t ((hterms t).mp ht).1).2) hne
  have hwell : ∀ t ∈ terms, ¬ malformedToken t := by
    intro t ht hm
    have htok := (hterms t).mp ht
    have hstrip := stripMinus_of_not_minus t (hminus t ht)
    unfold malformedToken at hm
    rw [hstrip] at hm
    rcases hm with hm | hm | hm | hm
    · exact (SplitIntoWords_token text t htok.1).1 hm
    · exact (SplitIntoWords_token text t htok.1).1 hm
    · exact hminus t ht hm
    · have hall : (SplitIntoWords text).all IsValidWord = true := by
        by_contra hcon
        exact hcond (Or.inr (Or.inr hcon))
      exact (IsValidWord_iff t).mp (List.all_eq_true.mp hall t htok.1) hm
  obtain ⟨query, hquery⟩ := ParseQuery_loop_ok
    (SearchServer.AddDocument (SearchServer.run stop_words ops) id text status ratings).2
    terms { plus_words := [], minus_words := [] } hwell
  have hparse : SearchServer.ParseQuery
      (SearchServer.AddDocument (SearchServer.run stop_words ops) id text status ratings).2
      (SplitIntoWordsView (List.intercalate [' '] terms)) = .ok query := by
    rw [htokens]
    exact hquery
  obtain ⟨_, hplus, hmin⟩ := ParseQuery_mem _ terms query hquery
  have hsorted := ParseQuery_loop_sorted _ terms _ query List.Pairwise.nil List.Pairwise.nil hquery
  have hplus2 : ∀ w, w ∈ query.plus_words ↔ w ∈ terms := by
    intro w
    rw [hplus w, hstop]
    exact ⟨fun h => h.1, fun h => ⟨h, hminus w h, ((hterms w).mp h).2⟩⟩
  have hminus2 : query.minus_words = [] := by
    apply eq_nil_of_forall_not_mem_str
    intro w hw
    exact hminus _ ((hmin w).mp hw).1 rfl
  have hall : ∀ w ∈ query.plus_words, SearchServer.wordInDocument
      (SearchServer.AddDocument (SearchServer.run stop_words ops) id text status ratings).2
      id w = true := by
    intro w hw
    rw [wordInDocument_eq_termFreq, termFreq_AddDocument _ hinv id text status ratings hok,
      if_pos rfl, if_pos ((hindexed w).mp ((hplus2 w).mp hw))]
    rfl
  have hmatched : query.plus_words = StdMap.keys (SearchServer.GetWordFrequencies
      (SearchServer.AddDocument (SearchServer.run stop_words ops) id text status ratings).2
      id) := by
    apply sorted_ext _ _ hsorted.1 hspec.1
    intro w
    rw [hplus2 w, hkeys2 w]
  have hpar := MatchDocumentPar_eq _ (List.intercalate [' '] terms) id query hparse
  rw [documents_AddDocument _ hinv id text status ratings hok, hminus2,
    List.filter_eq_self.mpr hall, hmatched] at hpar
  refine ⟨?_, hpar, hkeys2⟩
  rw [MatchDocument_eq_Par]
  exact hpar

/-- Witness of C14: the document `white cat and fluffy tail cat` with stop word `and`. -/
theorem C14_MatchDocument_round_trip_witness :
    SearchServer.MatchDocument
        (SearchServer.AddDocument (SearchServer.run exampleStopWords exampleOps) 7
          "white cat and fluffy tail cat".toList DocumentStatus.IRRELEVANT [4]).2
        (List.intercalate [' ']
          ["white".toList, "cat".toList, "fluffy".toList, "tail".toList]) 7 =
      .ok (StdMap.keys (SearchServer.GetWordFrequencies
        (SearchServer.AddDocument (SearchServer.run exampleStopWords exampleOps) 7
          "white cat and fluffy tail cat".toList DocumentStatus.IRRELEVANT [4]).2 7),
        DocumentStatus.IRRELEVANT) :=
  (C14_MatchDocument_round_trip exampleStopWords exampleOps 7
    "white cat and fluffy tail cat".toList DocumentStatus.IRRELEVANT [4]
    ["white".toList, "cat".toList, "fluffy".toList, "tail".toList]
    (by rfl) (by decide) (by decide) (by decide) (by decide)).1

/-- Counterexample to C14 as stated: the document `-cat` is added successfully and its
one term is `-cat`; the query made of that term parses as the minus word `cat`, and
`MatchDocument` returns no matched word. -/
theorem C14_counterexample :
    (SearchServer.AddDocument (SearchServer.run [] []) 0 "-cat".toList
        DocumentStatus.ACTUAL []).1 = .ok () ∧
    StdMap.keys (SearchServer.GetWordFrequencies
      (SearchServer.AddDocument (SearchServer.run [] []) 0 "-cat".toList
        DocumentStatus.ACTUAL []).2 0) = ["-cat".toList] ∧
    SearchServer.MatchDocument
      (SearchServer.AddDocument (SearchServer.run [] []) 0 "-cat".toList
        DocumentStatus.ACTUAL []).2
      (List.intercalate [' '] ["-cat".toList]) 0 = .ok ([], DocumentStatus.ACTUAL) ∧
    SearchServer.MatchDocument
      (SearchServer.AddDocument (SearchServer.run [] []) 0 "-cat".toList
        DocumentStatus.ACTUAL []).2
      (List.intercalate [' '] ["-cat".toList]) 0 ≠
        .ok (["-cat".toList], DocumentStatus.ACTUAL) := by
  refine ⟨by rfl, by rfl, by rfl, ?_⟩
  have h : SearchServer.MatchDocument
      (SearchServer.AddDocument (SearchServer.run [] []) 0 "-cat".toList
        DocumentStatus.ACTUAL []).2
      (List.intercalate [' '] ["-cat".toList]) 0 = .ok ([], DocumentStatus.ACTUAL) := by rfl
  rw [h]
  intro hcon
  injection hcon with hcon
  injection hcon with h1 _
  cases h1

/-! ## C19, C20 -/

/-- C19: in every state the server reaches through `AddDocument` and
`RemoveDocument`, a document id is present after `RemoveDuplicates` if and
only if it was present before and no present document with a smaller id has
the same keys in `GetWordFrequencies`. The registry of ids and the metadata
map agree on the survivors, and a survivor keeps its word frequencies and its
metadata. -/
theorem C19_RemoveDuplicates_keeps_lowest_id (stop_words : StdSet Str) (ops : List Op) :
    (∀ id, id ∈ (RemoveDuplicates (SearchServer.run stop_words ops)).document_ids_ ↔
      id ∈ (SearchServer.run stop_words ops).document_ids_ ∧
      ¬ ∃ d ∈ (SearchServer.run stop_words ops).document_ids_, d < id ∧
        StdMap.keys (SearchServer.GetWordFrequencies (SearchServer.run stop_words ops) d) =
          StdMap.keys (SearchServer.GetWordFrequencies (SearchServer.run stop_words ops) id)) ∧
    (RemoveDuplicates (SearchServer.run stop_words ops)).document_ids_ =
      StdMap.keys (RemoveDuplicates (SearchServer.run stop_words ops)).documents_ ∧
    (∀ id ∈ (RemoveDuplicates (SearchServer.run stop_words ops)).document_ids_,
      SearchServer.GetWordFrequencies (RemoveDuplicates (SearchServer.run stop_words ops)) id =
        SearchServer.GetWordFrequencies (SearchServer.run stop_words ops) id ∧
      StdMap.find (RemoveDuplicates (SearchServer.run stop_words ops)).documents_ id =
        StdMap.find (SearchServer.run stop_words ops).documents_ id) := by
  have hinv := run_Inv stop_words ops
  have hids := run_ids stop_words ops
  obtain ⟨h1, h2, h3⟩ := foldl_RemoveDocument_spec
    (RemoveDuplicates.deleted (SearchServer.run stop_words ops))
    (SearchServer.run stop_words ops) hinv hids
  have hmem : ∀ id, id ∈ (RemoveDuplicates (SearchServer.run stop_words ops)).document_ids_ ↔
      id ∈ (SearchServer.run stop_words ops).document_ids_ ∧
      id ∉ RemoveDuplicates.deleted (SearchServer.run stop_words ops) := by
    intro id
    show id ∈ (List.foldl SearchServer.RemoveDocument _ _).document_ids_ ↔ _
    rw [h1, h2 id, hids]
  refine ⟨?_, h1, ?_⟩
  · intro id
    rw [hmem id, mem_deleted_iff]
    constructor
    · rintro ⟨hin, hnd⟩
      exact ⟨hin, fun hex => hnd ⟨hin, hex⟩⟩
    · rintro ⟨hin, hnd⟩
      exact ⟨hin, fun hex => hnd hex.2⟩
  · intro id hid
    exact h3 id ((hmem id).mp hid).2

/-- C20: for a bucket count `B > 0` and a sequence of updates
`m[k].ref_to_value += v` applied to a fresh `ConcurrentMap(B)` (values as
rationals): the map has `B` buckets, a key is held only by the bucket
`uint64(k) mod B` and only when it was accessed, and that bucket holds for an
accessed key the sum of the values added to it; `BuildOrdinaryMap()` is an
ordered map whose keys are exactly the keys accessed and whose value for a key
is that sum; erasing from the map it returns leaves the `ConcurrentMap` and a
later `BuildOrdinaryMap()` as they were, while the erased key leaves the copy. -/
theorem C20_ConcurrentMap_accumulates (B : Nat) (updates : List (Int × ℚ)) (hB : 0 < B) :
    (updates.foldl (fun cm u => ConcurrentMap.add cm u.1 u.2)
      (ConcurrentMap.new B)).buckets_.length = B ∧
    (∀ i k, k ∈ StdMap.keys ((updates.foldl (fun cm u => ConcurrentMap.add cm u.1 u.2)
        (ConcurrentMap.new B)).buckets_.getD i []) →
      i = (k % 18446744073709551616).toNat % B ∧ k ∈ updates.map Prod.fst) ∧
    (∀ k ∈ updates.map Prod.fst,
      StdMap.find ((updates.foldl (fun cm u => ConcurrentMap.add cm u.1 u.2)
        (ConcurrentMap.new B)).buckets_.getD ((k % 18446744073709551616).toNat % B) []) k =
        some (((updates.filter (fun u => decide (u.1 = k))).map Prod.snd).sum)) ∧
    StdMap.WF (ConcurrentMap.BuildOrdinaryMap
      (updates.foldl (fun cm u => ConcurrentMap.add cm u.1 u.2) (ConcurrentMap.new B))) ∧
    (∀ k, k ∈ StdMap.keys (ConcurrentMap.BuildOrdinaryMap
        (updates.foldl (fun cm u => ConcurrentMap.add cm u.1 u.2) (ConcurrentMap.new B))) ↔
      k ∈ updates.map Prod.fst) ∧
    (∀ k ∈ updates.map Prod.fst,
      StdMap.find (ConcurrentMap.BuildOrdinaryMap
        (updates.foldl (fun cm u => ConcurrentMap.add cm u.1 u.2) (ConcurrentMap.new B))) k =
        some (((updates.filter (fun u => decide (u.1 = k))).map Prod.snd).sum)) ∧
    (∀ id,
      (eraseFromOrdinaryMap (updates.foldl (fun cm u => ConcurrentMap.add cm u.1 u.2)
        (ConcurrentMap.new B)) id).1 =
        updates.foldl (fun cm u => ConcurrentMap.add cm u.1 u.2) (ConcurrentMap.new B) ∧
      ConcurrentMap.BuildOrdinaryMap
        (eraseFromOrdinaryMap (updates.foldl (fun cm u => ConcurrentMap.add cm u.1 u.2)
          (ConcurrentMap.new B)) id).1 =
        ConcurrentMap.BuildOrdinaryMap
          (updates.foldl (fun cm u => ConcurrentMap.add cm u.1 u.2) (ConcurrentMap.new B)) ∧
      id ∉ StdMap.keys (eraseFromOrdinaryMap (updates.foldl
        (fun cm u => ConcurrentMap.add cm u.1 u.2) (ConcurrentMap.new B)) id).2) := by
  obtain ⟨hwf, hbc, hget⟩ := foldl_add_spec updates (ConcurrentMap.new B)
    (ConcurrentMap.WF_new B hB)
  have hbc2 : (updates.foldl (fun cm u => ConcurrentMap.add cm u.1 u.2)
      (ConcurrentMap.new B)).bucket_count_ = B := hbc
  obtain ⟨hbwf, hbfind⟩ := ConcurrentMap.BuildOrdinaryMap_spec _ hwf
  have hval : ∀ k ∈ updates.map Prod.fst,
      ConcurrentMap.get (updates.foldl (fun cm u => ConcurrentMap.add cm u.1 u.2)
        (ConcurrentMap.new B)) k =
        some (((updates.filter (fun u => decide (u.1 = k))).map Prod.snd).sum) := by
    intro k hk
    rw [hget k, if_pos hk, ConcurrentMap.get_new]
    simp
  have hnone : ∀ k, k ∉ updates.map Prod.fst →
      ConcurrentMap.get (updates.foldl (fun cm u => ConcurrentMap.add cm u.1 u.2)
        (ConcurrentMap.new B)) k = none := by
    intro k hk
    rw [hget k, if_neg hk, ConcurrentMap.get_new]
  refine ⟨hwf.1.trans hbc2, ?_, ?_, hbwf, ?_, ?_, ?_⟩
  · intro i k hk
    have hi := (hwf.2.2 i).2 k hk
    have hi2 : i = (k % 18446744073709551616).toNat % B := by
      rw [← hi]
      unfold ConcurrentMap.bucketNumber
      rw [hbc2]
    refine ⟨hi2, ?_⟩
    by_contra hnot
    have hn := hnone k hnot
    unfold ConcurrentMap.get at hn
    rw [hi] at hn
    exact (StdMap.find_eq_none_iff _ _).mp hn hk
  · intro k hk
    have hv := hval k hk
    unfold ConcurrentMap.get ConcurrentMap.bucketNumber at hv
    rw [hbc2] at hv
    exact hv
  · intro k
    rw [← StdMap.find_isSome_iff, hbfind k]
    by_cases hk : k ∈ updates.map Prod.fst
    · simp only [hval k hk, Option.isSome_some, hk]
    · simp only [hnone k hk, Option.isSome_none, hk, Bool.false_eq_true]
  · intro k hk
    rw [hbfind k]
    exact hval k hk
  · intro id
    refine ⟨rfl, rfl, ?_⟩
    show id ∉ StdMap.keys (StdMap.erase _ id)
    rw [StdMap.mem_keys_erase_iff _ _ _ hbwf]
    exact fun h => h.2 rfl

/-- A run of C20 with four buckets: two updates of key `1`, one of key `5`
(the same bucket as `1`) and one of the negative key `-3`. -/
theorem C20_ConcurrentMap_accumulates_witness :
    0 < 4 ∧
    StdMap.find (ConcurrentMap.BuildOrdinaryMap
      (([(1, 1 / 2), (5, 1), (1, 1 / 4), (-3, 2)] : List (Int × ℚ)).foldl
        (fun cm u => ConcurrentMap.add cm u.1 u.2) (ConcurrentMap.new 4))) 1 =
      some ((([(1, 1 / 2), (5, 1), (1, 1 / 4), (-3, 2)] : List (Int × ℚ)).filter
        (fun u => decide (u.1 = 1))).map Prod.snd).sum :=
  ⟨by decide,
    (C20_ConcurrentMap_accumulates 4 [(1, 1 / 2), (5, 1), (1, 1 / 4), (-3, 2)]
      (by decide)).2.2.2.2.2.1 1 (by decide)⟩

/-! ## The two overloads of `RemoveDocument` -/

/-- The parallel overload of `RemoveDocument` builds the state the sequenced one builds. -/
theorem RemoveDocumentPar_eq (s : SearchServer) (document_id : Int) :
    SearchServer.RemoveDocumentPar s document_id = SearchServer.RemoveDocument s document_id := by
  unfold SearchServer.RemoveDocumentPar SearchServer.RemoveDocument
  have hmap : s.word_to_document_freqs_.map
      (fun word_id_freqs => (word_id_freqs.1, StdMap.erase word_id_freqs.2 document_id)) =
      s.word_to_document_freqs_.map
        (fun entry =>
          if StdMap.count entry.2 document_id > 0 then
            (entry.1, StdMap.erase entry.2 document_id)
          else entry) := by
    apply List.map_congr_left
    intro e _
    by_cases hc : StdMap.count e.2 document_id > 0
    · simp only [hc, if_true]
    · simp only [hc, if_false]
      have hnot : document_id ∉ StdMap.keys e.2 := by
        intro hmem
        apply hc
        rw [StdMap.count_pos_iff, StdMap.find_isSome_iff]
        exact hmem
      rw [StdMap.erase_of_not_mem _ _ hnot]
  rw [hmap]

theorem foldl_call_eq (calls : List Call) (s : SearchServer) :
    calls.foldl SearchServer.call s = (calls.map Call.sequenced).foldl SearchServer.apply s := by
  induction calls generalizing s with
  | nil => rfl
  | cons c rest ih =>
    rw [List.foldl_cons, List.map_cons, List.foldl_cons, ih]
    cases c with
    | AddDocument document_id document status ratings => rfl
    | RemoveDocument document_id => rfl
    | RemoveDocumentPar document_id =>
      show (List.map Call.sequenced rest).foldl SearchServer.apply
          (SearchServer.RemoveDocumentPar s document_id) = _
      rw [RemoveDocumentPar_eq]
      rfl

/-- A state reached with either overload of `RemoveDocument` is a state reached
with the sequenced one. -/
theorem calls_eq_run (stop_words : StdSet Str) (calls : List Call) :
    SearchServer.calls stop_words calls =
      SearchServer.run stop_words (calls.map Call.sequenced) :=
  foldl_call_eq calls _

/-! ## The comparison of `FindTopDocuments` -/

theorem documentBefore_iff (a b : Document) :
    documentBefore a b = true ↔
      if closeRelevance a b then a.rating > b.rating else a.relevance > b.relevance := by
  unfold documentBefore closeRelevance
  split <;> simp

theorem closeRelevance_symm (a b : Document) (h : closeRelevance a b) : closeRelevance b a := by
  unfold closeRelevance at h ⊢
  rw [abs_sub_comm]
  exact h

theorem documentBefore_irrefl (a : Document) : documentBefore a a = false := by
  cases h : documentBefore a a with
  | false => rfl
  | true =>
    have := documentBefore_asymm a a h
    rw [h] at this
    exact this

/-- The comparison is transitive on three documents among which closeness of
relevance is transitive. -/
theorem documentBefore_trans (a b c : Document)
    (hbac : closeRelevance b a → closeRelevance a c → closeRelevance b c)
    (hacb : closeRelevance a c → closeRelevance c b → closeRelevance a b)
    (habc : closeRelevance a b → closeRelevance b c → closeRelevance a c)
    (hab : documentBefore a b = true) (hbc : documentBefore b c = true) :
    documentBefore a c = true := by
  rw [documentBefore_iff] at hab hbc ⊢
  by_cases h1 : closeRelevance a b
  · rw [if_pos h1] at hab
    by_cases h2 : closeRelevance b c
    · rw [if_pos h2] at hbc
      rw [if_pos (habc h1 h2)]
      omega
    · rw [if_neg h2] at hbc
      have h3 : ¬ closeRelevance a c := fun h => h2 (hbac (closeRelevance_symm a b h1) h)
      rw [if_neg h3]
      unfold closeRelevance at h1 h2 h3
      rw [abs_lt] at h1
      rw [not_lt] at h2 h3
      rcases le_abs'.mp h3 with h4 | h4
      · have h5 : b.relevance - c.relevance = abs (b.relevance - c.relevance) :=
          (abs_of_pos (sub_pos.mpr hbc)).symm
        linarith
      · linarith
  · rw [if_neg h1] at hab
    by_cases h2 : closeRelevance b c
    · rw [if_pos h2] at hbc
      have h3 : ¬ closeRelevance a c := fun h => h1 (hacb h (closeRelevance_symm b c h2))
      rw [if_neg h3]
      unfold closeRelevance at h1 h2 h3
      rw [abs_lt] at h2
      rw [not_lt] at h1 h3
      rcases le_abs'.mp h3 with h4 | h4
      · have h5 : a.relevance - b.relevance = abs (a.relevance - b.relevance) :=
          (abs_of_pos (sub_pos.mpr hab)).symm
        linarith
      · linarith
    · rw [if_neg h2] at hbc
      have h3 : ¬ closeRelevance a c := by
        unfold closeRelevance at h1 h2 ⊢
        rw [not_lt] at h1 h2 ⊢
        have h5 : a.relevance - c.relevance = abs (a.relevance - c.relevance) :=
          (abs_of_pos (sub_pos.mpr (lt_trans hbc hab))).symm
        have h6 : a.relevance - b.relevance = abs (a.relevance - b.relevance) :=
          (abs_of_pos (sub_pos.mpr hab)).symm
        linarith
      rw [if_neg h3]
      exact lt_trans hbc hab

/-- Two documents are incomparable exactly when their relevances are close and
their ratings equal. -/
theorem incomparable_iff (a b : Document) :
    incomparable a b ↔ closeRelevance a b ∧ a.rating = b.rating := by
  unfold incomparable
  have hba : documentBefore b a = false ↔ ¬ documentBefore b a = true := by
    cases documentBefore b a <;> simp
  have hab : documentBefore a b = false ↔ ¬ documentBefore a b = true := by
    cases documentBefore a b <;> simp
  rw [hab, hba, documentBefore_iff, documentBefore_iff]
  by_cases h1 : closeRelevance a b
  · have h2 := closeRelevance_symm a b h1
    rw [if_pos h1, if_pos h2]
    constructor
    · rintro ⟨h3, h4⟩
      exact ⟨h1, by omega⟩
    · rintro ⟨_, h3⟩
      constructor <;> omega
  · have h2 : ¬ closeRelevance b a := fun h => h1 (closeRelevance_symm b a h)
    rw [if_neg h1, if_neg h2]
    constructor
    · rintro ⟨h3, h4⟩
      exfalso
      apply h1
      unfold closeRelevance
      have : a.relevance = b.relevance := le_antisymm (not_lt.mp h3) (not_lt.mp h4)
      rw [this]
      norm_num
    · rintro ⟨h3, _⟩
      exact absurd h3 h1

/-! ## The window of the request queue -/

theorem UpdateRequests_spec (q : RequestQueue) (b : Bool)
    (hlen : q.requests_.length ≤ 1440)
    (hcount : q.number_of_no_result_requests_ = (q.requests_.count true : Nat)) :
    (RequestQueue.UpdateRequests q b).requests_ =
      (if q.requests_.length = 1440 then q.requests_.tail else q.requests_) ++ [b] ∧
    (RequestQueue.UpdateRequests q b).number_of_no_result_requests_ =
      ((RequestQueue.UpdateRequests q b).requests_.count true : Nat) := by
  have hcl : q.requests_.count true ≤ q.requests_.length := List.count_le_length _ _
  have hpop : (RequestQueue.UpdateRequests.popFront q).requests_ =
        (if q.requests_.length = 1440 then q.requests_.tail else q.requests_) ∧
      (RequestQueue.UpdateRequests.popFront q).number_of_no_result_requests_ =
        (((RequestQueue.UpdateRequests.popFront q).requests_.count true : Nat) : Int) ∧
      (RequestQueue.UpdateRequests.popFront q).requests_.length < 1440 := by
    unfold RequestQueue.UpdateRequests.popFront RequestQueue.sec_in_day_
    by_cases hfull : q.requests_.length = 1440
    · simp only [hfull, if_true]
      cases hreq : q.requests_ with
      | nil => rw [hreq] at hfull; simp at hfull
      | cons x rest =>
        rw [hreq] at hfull hcount hcl
        have hrl : rest.length = 1439 := by simpa using hfull
        have hrc : rest.count true ≤ rest.length := List.count_le_length _ _
        refine ⟨trivial, ?_, by simp [hrl]⟩
        cases x with
        | true =>
          simp only [List.head?_cons, if_true, List.tail_cons]
          rw [hcount, List.count_cons_self]
          rw [wrap32_of_fits _ (by push_cast; omega) (by push_cast; omega)]
          push_cast
          omega
        | false =>
          have hne : ¬ (some false = some true) := by simp
          simp only [List.head?_cons, hne, if_false, List.tail_cons]
          rw [hcount]
          simp
    · simp only [hfull, if_false]
      exact ⟨trivial, hcount, lt_of_le_of_ne hlen hfull⟩
  obtain ⟨hp1, hp2, hp3⟩ := hpop
  have hpc : (RequestQueue.UpdateRequests.popFront q).requests_.count true ≤
      (RequestQueue.UpdateRequests.popFront q).requests_.length := List.count_le_length _ _
  unfold RequestQueue.UpdateRequests RequestQueue.UpdateRequests.pushBack
  refine ⟨by simp only [hp1], ?_⟩
  have hlast : ((RequestQueue.UpdateRequests.popFront q).requests_ ++ [b]).getLast? = some b := by
    simp
  rw [hlast]
  show (if some b = some true then _ else _) = _
  cases b with
  | true =>
    simp only [if_true, List.count_append, List.count_singleton_self]
    rw [hp2, wrap32_of_fits _ (by omega) (by omega)]
    push_cast
    rfl
  | false =>
    have hne : ¬ (some false = some true) := by simp
    simp only [hne, if_false, List.count_append]
    rw [hp2]
    simp

/-- The window after one more flag: the last 1440 of the flags seen. -/
theorem window_push (flags : List Bool) (b : Bool) :
    (if (flags.drop (flags.length - 1440)).length = 1440 then
        (flags.drop (flags.length - 1440)).tail
      else flags.drop (flags.length - 1440)) ++ [b] =
      (flags ++ [b]).drop ((flags ++ [b]).length - 1440) := by
  by_cases hlen : 1440 ≤ flags.length
  · have h1 : (flags.drop (flags.length - 1440)).length = 1440 := by
      rw [List.length_drop]
      omega
    rw [if_pos h1, List.tail_drop, List.length_append, List.length_singleton]
    have h2 : flags.length + 1 - 1440 = flags.length - 1440 + 1 := by omega
    rw [h2, List.drop_append_of_le_length (by omega)]
  · have h0 : flags.length - 1440 = 0 := by omega
    have h1 : ¬ (flags.drop (flags.length - 1440)).length = 1440 := by
      rw [h0, List.drop_zero]
      omega
    rw [if_neg h1, h0, List.drop_zero, List.length_append, List.length_singleton]
    have h2 : flags.length + 1 - 1440 = 0 := by omega
    rw [h2, List.drop_zero]

theorem serve_eq (ln : ℚ → ℚ) (q : RequestQueue) (request : FindRequest) :
    RequestQueue.serve ln q request =
      match recordedFlag (FindRequest.result ln request) with
      | none => q
      | some b => RequestQueue.UpdateRequests q b := by
  cases request with
  | byPredicate s raw_query document_predicate =>
    simp only [RequestQueue.serve, RequestQueue.AddFindRequest, FindRequest.result]
    cases SearchServer.FindTopDocuments ln s raw_query document_predicate <;> rfl
  | byStatus s raw_query status =>
    simp only [RequestQueue.serve, RequestQueue.AddFindRequestByStatus, FindRequest.result]
    cases SearchServer.FindTopDocumentsByStatus ln s raw_query status <;> rfl
  | actual s raw_query =>
    simp only [RequestQueue.serve, RequestQueue.AddFindRequestActual, FindRequest.result]
    cases SearchServer.FindTopDocumentsActual ln s raw_query <;> rfl

/-- The queue after a sequence of calls, from a queue that holds the last 1440
of the flags `flags` and counts the `true` among them. -/
theorem foldl_serve_spec (ln : ℚ → ℚ) (requests : List FindRequest) (q : RequestQueue)
    (flags : List Bool) (hwin : q.requests_ = flags.drop (flags.length - 1440))
    (hcount : q.number_of_no_result_requests_ = (q.requests_.count true : Nat)) :
    (requests.foldl (RequestQueue.serve ln) q).requests_ =
      (flags ++ recordedFlags ln requests).drop
        ((flags ++ recordedFlags ln requests).length - 1440) ∧
    (requests.foldl (RequestQueue.serve ln) q).number_of_no_result_requests_ =
      ((requests.foldl (RequestQueue.serve ln) q).requests_.count true : Nat) := by
  induction requests generalizing q flags with
  | nil =>
    simp only [List.foldl_nil, recordedFlags, List.filterMap_nil, List.append_nil]
    exact ⟨hwin, hcount⟩
  | cons r rest ih =>
    rw [List.foldl_cons, serve_eq]
    cases hflag : recordedFlag (FindRequest.result ln r) with
    | none =>
      have hrec : recordedFlags ln (r :: rest) = recordedFlags ln rest := by
        unfold recordedFlags
        rw [List.filterMap_cons, hflag]
      rw [hrec]
      exact ih q flags hwin hcount
    | some b =>
      have hrec : recordedFlags ln (r :: rest) = b :: recordedFlags ln rest := by
        unfold recordedFlags
        rw [List.filterMap_cons, hflag]
      have hlen : q.requests_.length ≤ 1440 := by
        rw [hwin, List.length_drop]
        omega
      obtain ⟨hu1, hu2⟩ := UpdateRequests_spec q b hlen hcount
      have hwin2 : (RequestQueue.UpdateRequests q b).requests_ =
          (flags ++ [b]).drop ((flags ++ [b]).length - 1440) := by
        rw [hu1, hwin]
        exact window_push flags b
      have := ih (RequestQueue.UpdateRequests q b) (flags ++ [b]) hwin2 hu2
      rw [hrec]
      simpa using this

/-- A call that throws leaves the queue as it was, however often it is made. -/
theorem foldl_serve_replicate_error (ln : ℚ → ℚ) (request : FindRequest) (n : Nat)
    (q : RequestQueue) (herr : recordedFlag (FindRequest.result ln request) = none) :
    (List.replicate n request).foldl (RequestQueue.serve ln) q = q := by
  induction n with
  | zero => rfl
  | succ n ih =>
    rw [List.replicate_succ, List.foldl_cons, serve_eq, herr]
    exact ih

/-- When every call returns, the recorded flags are the flags of the calls. -/
theorem recordedFlags_of_all_return (ln : ℚ → ℚ) (requests : List FindRequest)
    (hall : ∀ request ∈ requests, recordedFlag (FindRequest.result ln request) ≠ none) :
    recordedFlags ln requests =
      requests.map (fun request => recordedFlag (FindRequest.result ln request) == some true) := by
  induction requests with
  | nil => rfl
  | cons r rest ih =>
    have hrest := ih (fun request hr => hall request (List.mem_cons_of_mem _ hr))
    unfold recordedFlags at hrest ⊢
    cases hflag : recordedFlag (FindRequest.result ln r) with
    | none => exact absurd hflag (hall r (List.mem_cons_self _ _))
    | some b =>
      rw [List.filterMap_cons, hflag, List.map_cons, hflag, hrest]
      cases b <;> rfl

theorem count_true_map {α : Type} (f : α → Bool) (l : List α) :
    (l.map f).count true = (l.filter f).length := by
  induction l with
  | nil => rfl
  | cons x rest ih =>
    cases hx : f x with
    | true => simp [hx, ih]
    | false => simp [hx, ih]

/-! ## Claims C21 – C24 -/

/-- C21: for every server state, reachable or not, and every id, present or not,
`RemoveDocument(par, id)` builds the state `RemoveDocument(seq, id)` builds: the same
index, the same metadata and the same id registry. In particular this holds in every
state reached by calls of `AddDocument` and of either overload of `RemoveDocument`. -/
theorem C21_RemoveDocument_overloads_agree (stop_words : StdSet Str) (calls : List Call)
    (id : Int) :
    (∀ s : SearchServer,
      SearchServer.RemoveDocumentPar s id = SearchServer.RemoveDocument s id) ∧
    (SearchServer.RemoveDocumentPar (SearchServer.calls stop_words calls)
        id).word_to_document_freqs_ =
      (SearchServer.RemoveDocument (SearchServer.calls stop_words calls)
        id).word_to_document_freqs_ ∧
    (SearchServer.RemoveDocumentPar (SearchServer.calls stop_words calls) id).documents_ =
      (SearchServer.RemoveDocument (SearchServer.calls stop_words calls) id).documents_ ∧
    (SearchServer.RemoveDocumentPar (SearchServer.calls stop_words calls) id).document_ids_ =
      (SearchServer.RemoveDocument (SearchServer.calls stop_words calls) id).document_ids_ := by
  refine ⟨fun s => RemoveDocumentPar_eq s id, ?_, rfl, rfl⟩
  rw [RemoveDocumentPar_eq]

/-- C22, as amended: the comparison `FindTopDocuments` hands to `sort` is irreflexive
and asymmetric, and it comes out `true` exactly when the ratings decide between close
relevances or the relevances decide otherwise. On a list of documents among which
"the relevances differ by less than 1e-6" is a transitive relation, the comparison is
transitive and so is its incomparability. -/
theorem C22_comparison_on_separated_documents (docs : List Document)
    (hclose : ∀ a ∈ docs, ∀ b ∈ docs, ∀ c ∈ docs,
      closeRelevance a b → closeRelevance b c → closeRelevance a c) :
    (∀ a, documentBefore a a = false) ∧
    (∀ a b, documentBefore a b = true → documentBefore b a = false) ∧
    (∀ a b, documentBefore a b = true ↔
      if closeRelevance a b then a.rating > b.rating else a.relevance > b.relevance) ∧
    (∀ a ∈ docs, ∀ b ∈ docs, ∀ c ∈ docs,
      documentBefore a b = true → documentBefore b c = true → documentBefore a c = true) ∧
    (∀ a ∈ docs, ∀ b ∈ docs, ∀ c ∈ docs,
      incomparable a b → incomparable b c → incomparable a c) := by
  refine ⟨documentBefore_irrefl, documentBefore_asymm, documentBefore_iff, ?_, ?_⟩
  · intro a ha b hb c hc hab hbc
    exact documentBefore_trans a b c (hclose b hb a ha c hc) (hclose a ha c hc b hb)
      (hclose a ha b hb c hc) hab hbc
  · intro a ha b hb c hc hab hbc
    rw [incomparable_iff] at hab hbc ⊢
    exact ⟨hclose a ha b hb c hc hab.1 hbc.1, hab.2.trans hbc.2⟩

/-- Witness of C22: two documents of relevance `1/2` and one of relevance `1/4`. -/
theorem C22_comparison_on_separated_documents_witness :
    documentBefore ⟨1, 1 / 2, 5⟩ ⟨2, 1 / 2, 3⟩ = true ∧
    documentBefore ⟨2, 1 / 2, 3⟩ ⟨3, 1 / 4, 9⟩ = true ∧
    documentBefore ⟨1, 1 / 2, 5⟩ ⟨3, 1 / 4, 9⟩ = true :=
  have hclose : ∀ a ∈ ([⟨1, 1 / 2, 5⟩, ⟨2, 1 / 2, 3⟩, ⟨3, 1 / 4, 9⟩] : List Document),
      ∀ b ∈ ([⟨1, 1 / 2, 5⟩, ⟨2, 1 / 2, 3⟩, ⟨3, 1 / 4, 9⟩] : List Document),
      ∀ c ∈ ([⟨1, 1 / 2, 5⟩, ⟨2, 1 / 2, 3⟩, ⟨3, 1 / 4, 9⟩] : List Document),
      closeRelevance a b → closeRelevance b c → closeRelevance a c := by
    with_unfolding_all decide
  ⟨by with_unfolding_all rfl, by with_unfolding_all rfl,
    (C22_comparison_on_separated_documents [⟨1, 1 / 2, 5⟩, ⟨2, 1 / 2, 3⟩, ⟨3, 1 / 4, 9⟩]
      hclose).2.2.2.1 ⟨1, 1 / 2, 5⟩ (by simp) ⟨2, 1 / 2, 3⟩ (by simp) ⟨3, 1 / 4, 9⟩ (by simp)
      (by with_unfolding_all rfl) (by with_unfolding_all rfl)⟩

/-- Counterexample to C22 as stated: with relevances `0`, `0.6e-6` and `1.2e-6` and
ratings `3`, `2`, `1` the first document comes before the second and the second
before the third, yet the third comes before the first; with equal ratings the first
and second, and the second and third, are incomparable while the third comes before
the first. -/
theorem C22_counterexample :
    documentBefore ⟨0, 0, 3⟩ ⟨1, 6 / 10000000, 2⟩ = true ∧
    documentBefore ⟨1, 6 / 10000000, 2⟩ ⟨2, 12 / 10000000, 1⟩ = true ∧
    documentBefore ⟨0, 0, 3⟩ ⟨2, 12 / 10000000, 1⟩ = false ∧
    documentBefore ⟨2, 12 / 10000000, 1⟩ ⟨0, 0, 3⟩ = true ∧
    incomparable ⟨0, 0, 1⟩ ⟨1, 6 / 10000000, 1⟩ ∧
    incomparable ⟨1, 6 / 10000000, 1⟩ ⟨2, 12 / 10000000, 1⟩ ∧
    ¬ incomparable ⟨0, 0, 1⟩ ⟨2, 12 / 10000000, 1⟩ := by
  refine ⟨by with_unfolding_all rfl, by with_unfolding_all rfl, by with_unfolding_all rfl, by with_unfolding_all rfl, ⟨by with_unfolding_all rfl, by with_unfolding_all rfl⟩, ⟨by with_unfolding_all rfl, by with_unfolding_all rfl⟩, ?_⟩
  intro h
  have h2 : documentBefore ⟨2, 12 / 10000000, 1⟩ ⟨0, 0, 1⟩ = true := by with_unfolding_all rfl
  rw [h.2] at h2
  exact Bool.false_ne_true h2

/-- C23: in every state reached from a fresh server by calls of `AddDocument`
(returning or throwing) and of either overload of `RemoveDocument`, the id registry
is the key list of the metadata map, in ascending order, so `GetDocumentCount()` is
the number of ids iterated; every id of every posting list is a key of the metadata
map; and `FindAllDocuments` returns for every query and predicate: none of its
`documents_.at(id)` throws. -/
theorem C23_index_consistency (stop_words : StdSet Str) (calls : List Call) :
    (SearchServer.calls stop_words calls).document_ids_ =
      StdMap.keys (SearchServer.calls stop_words calls).documents_ ∧
    (SearchServer.calls stop_words calls).document_ids_.Pairwise (· < ·) ∧
    SearchServer.GetDocumentCount (SearchServer.calls stop_words calls) =
      (SearchServer.calls stop_words calls).document_ids_.length ∧
    (∀ e ∈ (SearchServer.calls stop_words calls).word_to_document_freqs_,
      ∀ id ∈ StdMap.keys e.2, id ∈ StdMap.keys (SearchServer.calls stop_words calls).documents_) ∧
    (∀ (ln : ℚ → ℚ) (query : Query) (document_predicate : DocumentPredicate),
      ∃ found, SearchServer.FindAllDocuments ln (SearchServer.calls stop_words calls) query
        document_predicate = .ok found) := by
  rw [calls_eq_run]
  have hinv := run_Inv stop_words (calls.map Call.sequenced)
  have hids := run_ids stop_words (calls.map Call.sequenced)
  refine ⟨hids, ?_, ?_, ?_, ?_⟩
  · rw [hids]
    exact hinv.documents_wf
  · rw [hids]
    unfold SearchServer.GetDocumentCount StdMap.keys
    rw [List.length_map]
  · intro e he id hid
    rw [← StdMap.find_isSome_iff]
    apply hinv.postings_known e.1 id
    rw [← find_posting_eq_termFreq _ hinv.index_wf.1 e he id, StdMap.find_isSome_iff]
    exact hid
  · intro ln query document_predicate
    obtain ⟨acc, _, _, hfound⟩ := FindAllDocuments_spec ln _ hinv query document_predicate
    exact ⟨_, hfound⟩

/-- C24, as amended: after any sequence of `AddFindRequest` calls on a fresh
`RequestQueue`, the window holds the flags of the most recent `min(m, 1440)` of the
`m` calls that returned (a call whose `FindTopDocuments` throws records nothing), so
never more than 1440, and `GetNoResultRequests()` is the number of `true` flags in
the window, never negative. When every call returns, that is the number of calls
among the most recent `min(n, 1440)` whose result was empty. -/
theorem C24_window_of_returned_calls (ln : ℚ → ℚ) (requests : List FindRequest) :
    (RequestQueue.run ln requests).requests_ =
      (recordedFlags ln requests).drop ((recordedFlags ln requests).length - 1440) ∧
    (RequestQueue.run ln requests).requests_.length =
      min (recordedFlags ln requests).length 1440 ∧
    (RequestQueue.run ln requests).requests_.length ≤ 1440 ∧
    RequestQueue.GetNoResultRequests (RequestQueue.run ln requests) =
      (((RequestQueue.run ln requests).requests_.count true : Nat) : Int) ∧
    0 ≤ RequestQueue.GetNoResultRequests (RequestQueue.run ln requests) ∧
    ((∀ request ∈ requests, recordedFlag (FindRequest.result ln request) ≠ none) →
      (RequestQueue.run ln requests).requests_.length = min requests.length 1440 ∧
      RequestQueue.GetNoResultRequests (RequestQueue.run ln requests) =
        ((emptyAmongRecent ln requests : Nat) : Int)) := by
  obtain ⟨hwin, hcount⟩ := foldl_serve_spec ln requests RequestQueue.new [] rfl rfl
  rw [List.nil_append] at hwin
  have hwin2 : (RequestQueue.run ln requests).requests_ =
      (recordedFlags ln requests).drop ((recordedFlags ln requests).length - 1440) := hwin
  have hcount2 : RequestQueue.GetNoResultRequests (RequestQueue.run ln requests) =
      (((RequestQueue.run ln requests).requests_.count true : Nat) : Int) := hcount
  have hlen : (RequestQueue.run ln requests).requests_.length =
      min (recordedFlags ln requests).length 1440 := by
    rw [hwin2, List.length_drop]
    omega
  refine ⟨hwin2, hlen, ?_, hcount2, ?_, ?_⟩
  · rw [hlen]
    exact Nat.min_le_right _ _
  · rw [hcount2]
    exact Int.natCast_nonneg _
  · intro hall
    have hflags := recordedFlags_of_all_return ln requests hall
    have hfl : (recordedFlags ln requests).length = requests.length := by
      rw [hflags, List.length_map]
    refine ⟨by rw [hlen, hfl], ?_⟩
    rw [hcount2, hwin2, hfl, hflags, ← List.map_drop, count_true_map]
    rfl

/-- Counterexample to C24 as stated: on the example server, one call with the query
`bird`, which returns no document, is followed by 1440 calls with the query `--cat`,
which throw. None of the most recent 1440 calls has an empty result, yet
`GetNoResultRequests()` is 1: the calls that throw have not moved the window. -/
theorem C24_counterexample :
    FindRequest.result exampleLog
      (FindRequest.actual (SearchServer.run exampleStopWords exampleOps) "bird".toList) =
        .ok [] ∧
    FindRequest.result exampleLog
      (FindRequest.actual (SearchServer.run exampleStopWords exampleOps) "--cat".toList) =
        .error Error.invalid_argument ∧
    RequestQueue.GetNoResultRequests (RequestQueue.run exampleLog
      (FindRequest.actual (SearchServer.run exampleStopWords exampleOps) "bird".toList ::
        List.replicate 1440
          (FindRequest.actual (SearchServer.run exampleStopWords exampleOps)
            "--cat".toList))) = 1 ∧
    emptyAmongRecent exampleLog
      (FindRequest.actual (SearchServer.run exampleStopWords exampleOps) "bird".toList ::
        List.replicate 1440
          (FindRequest.actual (SearchServer.run exampleStopWords exampleOps)
            "--cat".toList)) = 0 := by
  have hbird : FindRequest.result exampleLog
      (FindRequest.actual (SearchServer.run exampleStopWords exampleOps) "bird".toList) =
        .ok [] := by rfl
  have hcat : FindRequest.result exampleLog
      (FindRequest.actual (SearchServer.run exampleStopWords exampleOps) "--cat".toList) =
        .error Error.invalid_argument := by rfl
  have hflag : recordedFlag (FindRequest.result exampleLog
      (FindRequest.actual (SearchServer.run exampleStopWords exampleOps) "--cat".toList)) =
        none := by rw [hcat]; rfl
  refine ⟨hbird, hcat, ?_, ?_⟩
  · unfold RequestQueue.run
    rw [List.foldl_cons, foldl_serve_replicate_error _ _ _ _ hflag, serve_eq, hbird]
    rfl
  · unfold emptyAmongRecent
    have hlen : (FindRequest.actual (SearchServer.run exampleStopWords exampleOps)
        "bird".toList :: List.replicate 1440
          (FindRequest.actual (SearchServer.run exampleStopWords exampleOps)
            "--cat".toList)).length - 1440 = 1 := by
      rw [List.length_cons, List.length_replicate]
    rw [hlen, List.drop_succ_cons, List.drop_zero, List.length_eq_zero,
      List.filter_eq_nil_iff]
    intro request hreq
    rw [List.eq_of_mem_replicate hreq, hflag]
    decide

/-! ## The contract of `sort` -/

/-- With the insertion sort for `sort`, `FindTopDocumentsWith` is `FindTopDocuments`. -/
theorem FindTopDocumentsWith_stdSort (ln : ℚ → ℚ) (s : SearchServer) (raw_query : Str)
    (pred : DocumentPredicate) :
    SearchServer.FindTopDocumentsWith stdSort ln s raw_query pred =
      SearchServer.FindTopDocuments ln s raw_query pred := rfl

/-- Where closeness of relevance is transitive, the comparison of `FindTopDocuments`
is a strict weak ordering. -/
theorem strictWeakOn_of_close_trans (docs : List Document)
    (hclose : ∀ a ∈ docs, ∀ b ∈ docs, ∀ c ∈ docs,
      closeRelevance a b → closeRelevance b c → closeRelevance a c) :
    StrictWeakOn documentBefore docs := by
  refine ⟨fun a _ => documentBefore_irrefl a, ?_, ?_⟩
  · intro a ha b hb c hc hab hbc
    exact documentBefore_trans a b c (hclose b hb a ha c hc) (hclose a ha c hc b hb)
      (hclose a ha b hb c hc) hab hbc
  · intro a ha b hb c hc hab hbc
    have h1 := (incomparable_iff a b).mp hab
    have h2 := (incomparable_iff b c).mp hbc
    exact (incomparable_iff a c).mpr ⟨hclose a ha b hb c hc h1.1 h2.1, h1.2.trans h2.2⟩

/-! ## Ingestion in the arithmetic of `double` -/

theorem IndexWF_addWordFreqWith (fl : ℚ → ℚ) (freqs : StdMap Str (StdMap Int ℚ)) (word : Str)
    (id : Int) (x : ℚ) (hwf : IndexWF freqs) : IndexWF (addWordFreqWith fl freqs word id x) := by
  refine ⟨StdMap.WF_upsert _ _ _ hwf.1, ?_⟩
  intro e he
  rcases StdMap.mem_upsert _ _ _ e hwf.1 he with he | he
  · exact hwf.2 e he
  · rw [he]
    exact StdMap.WF_upsert _ _ _ (IndexWF_find freqs word hwf)

theorem termFreq_addWordFreqWith (fl : ℚ → ℚ) (freqs : StdMap Str (StdMap Int ℚ)) (word : Str)
    (id : Int) (x : ℚ) (hwf : IndexWF freqs) (w : Str) (d : Int) :
    termFreq (addWordFreqWith fl freqs word id x) w d =
      if w = word ∧ d = id then some (fl ((termFreq freqs word id).getD 0 + x))
      else termFreq freqs w d := by
  unfold termFreq addWordFreqWith
  by_cases hw : w = word
  · subst hw
    rw [StdMap.find_upsert_self _ _ _ hwf.1]
    by_cases hd : d = id
    · subst hd
      simp only [Option.some_bind, true_and, if_true]
      rw [StdMap.find_upsert_self _ _ _ (IndexWF_find freqs w hwf)]
      cases StdMap.find freqs w <;> simp [StdMap.find]
    · simp only [Option.some_bind, hd, and_false, if_false]
      rw [StdMap.find_upsert_ne _ _ _ _ hd]
      cases StdMap.find freqs w <;> simp [StdMap.find]
  · rw [StdMap.find_upsert_ne _ _ _ _ hw]
    simp [hw]

theorem IndexWF_foldl_addWordFreqWith (fl : ℚ → ℚ) (words : List Str) (id : Int) (x : ℚ)
    (freqs : StdMap Str (StdMap Int ℚ)) (hwf : IndexWF freqs) :
    IndexWF (words.foldl (fun freqs word => addWordFreqWith fl freqs word id x) freqs) := by
  induction words generalizing freqs with
  | nil => exact hwf
  | cons w rest ih => exact ih _ (IndexWF_addWordFreqWith fl freqs w id x hwf)

/-- The entry of a word after the loop of `AddDocument`: one rounded addition per
occurrence of the word. -/
theorem termFreq_foldl_addWordFreqWith (fl : ℚ → ℚ) (words : List Str) (id : Int) (x : ℚ)
    (freqs : StdMap Str (StdMap Int ℚ)) (hwf : IndexWF freqs) (w : Str) (d : Int) :
    termFreq (words.foldl (fun freqs word => addWordFreqWith fl freqs word id x) freqs) w d =
      if d = id ∧ w ∈ words then
        some (Nat.iterate (fun freq => fl (freq + x)) (words.count w)
          ((termFreq freqs w id).getD 0))
      else termFreq freqs w d := by
  induction words generalizing freqs with
  | nil => simp
  | cons w0 rest ih =>
    rw [List.foldl_cons, ih _ (IndexWF_addWordFreqWith fl freqs w0 id x hwf)]
    rw [termFreq_addWordFreqWith fl freqs w0 id x hwf, termFreq_addWordFreqWith fl freqs w0 id x hwf]
    by_cases hd : d = id
    · subst hd
      by_cases hw : w = w0
      · subst hw
        by_cases hin : w ∈ rest
        · simp [hin, List.count_cons_self, Function.iterate_succ_apply]
        · simp [hin, List.count_cons_self, List.count_eq_zero_of_not_mem hin]
      · by_cases hin : w ∈ rest
        · simp [hin, hw, List.count_cons_of_ne (Ne.symm hw)]
        · simp [hin, hw]
    · simp [hd]

/-- `AddDocumentWith` in closed form. -/
theorem AddDocumentWith_eq (fl : ℚ → ℚ) (s : SearchServer) (id : Int) (text : Str)
    (status : DocumentStatus) (ratings : List Int) :
    SearchServer.AddDocumentWith fl s id text status ratings =
      if id < 0 ∨ (StdMap.find s.documents_ id).isSome ∨
          ¬ (SplitIntoWords text).all IsValidWord = true then
        (.error Error.invalid_argument, s)
      else
        (.ok (), { s with
          word_to_document_freqs_ := (SearchServer.indexedWords s text).foldl
            (fun freqs word => addWordFreqWith fl freqs word id
              (fl (1 / fl ((SearchServer.indexedWords s text).length : ℚ))))
            s.word_to_document_freqs_,
          documents_ := StdMap.emplace s.documents_ id
            { rating := ComputeAverageRating ratings, status := status },
          document_ids_ := StdSet.insert s.document_ids_ id }) := by
  unfold SearchServer.AddDocumentWith
  rw [SplitIntoWordsNoStop_eq]
  have hc := StdMap.count_pos_iff s.documents_ id
  by_cases h1 : id < 0
  · simp [h1]
  · by_cases h2 : (StdMap.find s.documents_ id).isSome = true
    · have h2c := hc.mpr h2
      simp [h2, h2c]
    · have h2c : ¬ StdMap.count s.documents_ id > 0 := fun h => h2 (hc.mp h)
      by_cases h3 : (SplitIntoWords text).all IsValidWord = true
      · simp [h1, h2, h2c, h3]
      · simp [h1, h2, h2c, h3]

theorem AddDocumentWith_Inv (fl : ℚ → ℚ) (s : SearchServer) (id : Int) (text : Str)
    (status : DocumentStatus) (ratings : List Int) (hinv : SearchServer.Inv s) :
    SearchServer.Inv (SearchServer.AddDocumentWith fl s id text status ratings).2 := by
  rw [AddDocumentWith_eq]
  split
  · exact hinv
  · refine ⟨IndexWF_foldl_addWordFreqWith _ _ _ _ _ hinv.index_wf,
      StdMap.WF_upsert _ _ _ hinv.documents_wf, ?_⟩
    intro word d hd
    simp only [] at hd ⊢
    rw [termFreq_foldl_addWordFreqWith _ _ _ _ _ hinv.index_wf] at hd
    rw [StdMap.find_emplace _ _ _ hinv.documents_wf]
    by_cases hdi : d = id
    · simp [hdi]
    · simp only [hdi, false_and, if_false] at hd ⊢
      exact hinv.postings_known word d hd

theorem foldl_applyWith_Inv (fl : ℚ → ℚ) (ops : List Op) (s : SearchServer)
    (hinv : SearchServer.Inv s) :
    SearchServer.Inv (ops.foldl (SearchServer.applyWith fl) s) := by
  induction ops generalizing s with
  | nil => exact hinv
  | cons op rest ih =>
    apply ih
    cases op with
    | add id text status ratings => exact AddDocumentWith_Inv fl s id text status ratings hinv
    | remove id => exact RemoveDocument_Inv s id hinv

/-- Every state reached in the arithmetic `fl` is consistent. -/
theorem runWith_Inv (fl : ℚ → ℚ) (stop_words : StdSet Str) (ops : List Op) :
    SearchServer.Inv (SearchServer.runWith fl stop_words ops) :=
  foldl_applyWith_Inv fl ops _ (fresh_Inv stop_words)

theorem AddDocumentWith_ok_cond (fl : ℚ → ℚ) (s : SearchServer) (id : Int) (text : Str)
    (status : DocumentStatus) (ratings : List Int)
    (hok : (SearchServer.AddDocumentWith fl s id text status ratings).1 = .ok ()) :
    ¬ (id < 0 ∨ (StdMap.find s.documents_ id).isSome ∨
      ¬ (SplitIntoWords text).all IsValidWord = true) := by
  intro hc
  rw [AddDocumentWith_eq, if_pos hc] at hok
  cases hok

/-- The term frequencies after a successful `AddDocumentWith` on a consistent state. -/
theorem termFreq_AddDocumentWith (fl : ℚ → ℚ) (s : SearchServer) (hinv : SearchServer.Inv s)
    (id : Int) (text : Str) (status : DocumentStatus) (ratings : List Int)
    (hok : (SearchServer.AddDocumentWith fl s id text status ratings).1 = .ok ())
    (w : Str) (d : Int) :
    termFreq (SearchServer.AddDocumentWith fl s id text status ratings).2.word_to_document_freqs_
        w d =
      if d = id then
        if w ∈ SearchServer.indexedWords s text then
          some (accumulated fl (fl (1 / fl ((SearchServer.indexedWords s text).length : ℚ)))
            ((SearchServer.indexedWords s text).count w))
        else none
      else termFreq s.word_to_document_freqs_ w d := by
  have hc := AddDocumentWith_ok_cond fl s id text status ratings hok
  rw [AddDocumentWith_eq, if_neg hc]
  simp only []
  rw [termFreq_foldl_addWordFreqWith _ _ _ _ _ hinv.index_wf]
  have hnone := termFreq_none_of_unknown s hinv id (fun h => hc (Or.inr (Or.inl h))) w
  unfold accumulated
  by_cases hd : d = id
  · subst hd
    by_cases hw : w ∈ SearchServer.indexedWords s text
    · simp [hw, hnone]
    · simp [hw, hnone]
  · simp [hd]

/-- What `GetWordFrequencies(id)` holds after a successful `AddDocumentWith`. -/
theorem find_GetWordFrequencies_AddDocumentWith (fl : ℚ → ℚ) (s : SearchServer)
    (hinv : SearchServer.Inv s) (id : Int) (text : Str) (status : DocumentStatus)
    (ratings : List Int)
    (hok : (SearchServer.AddDocumentWith fl s id text status ratings).1 = .ok ()) (w : Str) :
    StdMap.find (SearchServer.GetWordFrequencies
        (SearchServer.AddDocumentWith fl s id text status ratings).2 id) w =
      if w ∈ SearchServer.indexedWords s text then
        some (accumulated fl (fl (1 / fl ((SearchServer.indexedWords s text).length : ℚ)))
          ((SearchServer.indexedWords s text).count w))
      else none := by
  have hinv2 := AddDocumentWith_Inv fl s id text status ratings hinv
  have hspec := GetWordFrequencies_spec _ id hinv2.index_wf.1
  rw [hspec.2 w, termFreq_AddDocumentWith fl s hinv id text status ratings hok, if_pos rfl]

/-- In exact arithmetic the accumulated value is the count times the contribution. -/
theorem accumulated_exact (fl : ℚ → ℚ) (hfl : ∀ x, fl x = x) (x : ℚ) (n : Nat) :
    accumulated fl x n = (n : ℚ) * x := by
  unfold accumulated
  induction n with
  | zero => simp
  | succ n ih =>
    rw [Function.iterate_succ_apply', ih, hfl]
    push_cast
    ring

/-- With no rounding, `AddDocumentWith` is `AddDocument`. -/
theorem AddDocumentWith_id (s : SearchServer) (id : Int) (text : Str) (status : DocumentStatus)
    (ratings : List Int) :
    SearchServer.AddDocumentWith (fun x => x) s id text status ratings =
      SearchServer.AddDocument s id text status ratings := rfl

theorem foldl_applyWith_id (ops : List Op) (s : SearchServer) :
    ops.foldl (SearchServer.applyWith (fun x => x)) s = ops.foldl SearchServer.apply s := by
  induction ops generalizing s with
  | nil => rfl
  | cons op rest ih =>
    rw [List.foldl_cons, List.foldl_cons, ih]
    cases op <;> rfl

/-- With no rounding, the states reached are those of `SearchServer.run`. -/
theorem runWith_id (stop_words : StdSet Str) (ops : List Op) :
    SearchServer.runWith (fun x => x) stop_words ops = SearchServer.run stop_words ops :=
  foldl_applyWith_id ops _

/-- The tokens `AddDocument` indexes, as a filter on the stop-word set. -/
theorem indexedWords_eq_filter (s : SearchServer) (text : Str) :
    SearchServer.indexedWords s text =
      (SplitIntoWords text).filter (fun t => decide (t ∉ s.stop_words_)) := by
  unfold SearchServer.indexedWords
  apply List.filter_congr
  intro t _
  by_cases ht : t ∈ s.stop_words_
  · simp [ht, (IsStopWord_iff _ t).mpr ht]
  · have : SearchServer.IsStopWord s t = false := by
      cases h : SearchServer.IsStopWord s t with
      | false => rfl
      | true => exact absurd ((IsStopWord_iff _ t).mp h) ht
    simp [ht, this]

/-- The ten rounded additions of `0.1`, the `double` nearest to `1/10`. -/
theorem accumulated_tenth :
    roundDouble 10 = 10 ∧
    roundDouble (1 / 10) = 3602879701896397 / 36028797018963968 ∧
    accumulated roundDouble (3602879701896397 / 36028797018963968) 10 =
      9007199254740991 / 9007199254740992 := by
  refine ⟨by with_unfolding_all rfl, by with_unfolding_all rfl, ?_⟩
  have h1 : roundDouble (0 + 3602879701896397 / 36028797018963968) = 3602879701896397 / 36028797018963968 := by
    with_unfolding_all rfl
  have h2 : roundDouble (3602879701896397 / 36028797018963968 + 3602879701896397 / 36028797018963968) = 3602879701896397 / 18014398509481984 := by
    with_unfolding_all rfl
  have h3 : roundDouble (3602879701896397 / 18014398509481984 + 3602879701896397 / 36028797018963968) = 1351079888211149 / 4503599627370496 := by
    with_unfolding_all rfl
  have h4 : roundDouble (1351079888211149 / 4503599627370496 + 3602879701896397 / 36028797018963968) = 3602879701896397 / 9007199254740992 := by
    with_unfolding_all rfl
  have h5 : roundDouble (3602879701896397 / 9007199254740992 + 3602879701896397 / 36028797018963968) = 1 / 2 := by
    with_unfolding_all rfl
  have h6 : roundDouble (1 / 2 + 3602879701896397 / 36028797018963968) = 5404319552844595 / 9007199254740992 := by
    with_unfolding_all rfl
  have h7 : roundDouble (5404319552844595 / 9007199254740992 + 3602879701896397 / 36028797018963968) = 3152519739159347 / 4503599627370496 := by
    with_unfolding_all rfl
  have h8 : roundDouble (3152519739159347 / 4503599627370496 + 3602879701896397 / 36028797018963968) = 7205759403792793 / 9007199254740992 := by
    with_unfolding_all rfl
  have h9 : roundDouble (7205759403792793 / 9007199254740992 + 3602879701896397 / 36028797018963968) = 2026619832316723 / 2251799813685248 := by
    with_unfolding_all rfl
  have h10 : roundDouble (2026619832316723 / 2251799813685248 + 3602879701896397 / 36028797018963968) = 9007199254740991 / 9007199254740992 := by
    with_unfolding_all rfl
  unfold accumulated
  simp only [Function.iterate_succ_apply, Function.iterate_zero_apply]
  rw [h1, h2, h3, h4, h5, h6, h7, h8, h9, h10]

/-! ## Claims C3, C4: the order of the results -/

/-- C10, as amended: after a successful `AddDocument(id, text, ..)` on a reachable
server, in any arithmetic `fl`, the keys of `GetWordFrequencies(id)` are, each once,
exactly the tokens of the text that are not stop words; each key maps to the value
accumulated from `0.0` by one `+= 1.0 / n` per occurrence of the word, `n` being the
number of tokens that are not stop words; in exact arithmetic that value is the
number of occurrences divided by `n`; no stop word is a key. -/
theorem C10_word_frequencies_accumulated (fl : ℚ → ℚ) (stop_words : StdSet Str)
    (ops : List Op) (id : Int) (text : Str) (status : DocumentStatus) (ratings : List Int)
    (hok : (SearchServer.AddDocumentWith fl (SearchServer.runWith fl stop_words ops) id text
      status ratings).1 = .ok ()) :
    (StdMap.keys (SearchServer.GetWordFrequencies
      (SearchServer.AddDocumentWith fl (SearchServer.runWith fl stop_words ops) id text status
        ratings).2 id)).Nodup ∧
    (∀ w, w ∈ StdMap.keys (SearchServer.GetWordFrequencies
        (SearchServer.AddDocumentWith fl (SearchServer.runWith fl stop_words ops) id text status
          ratings).2 id) ↔
      (w ∈ SplitIntoWords text ∧ w ∉ (SearchServer.runWith fl stop_words ops).stop_words_)) ∧
    (∀ w, w ∈ SplitIntoWords text → w ∉ (SearchServer.runWith fl stop_words ops).stop_words_ →
      StdMap.find (SearchServer.GetWordFrequencies
        (SearchServer.AddDocumentWith fl (SearchServer.runWith fl stop_words ops) id text status
          ratings).2 id) w =
      some (accumulated fl
        (fl (1 / fl (((SplitIntoWords text).filter
          (fun t => decide (t ∉ (SearchServer.runWith fl stop_words ops).stop_words_))).length :
            ℚ)))
        ((SplitIntoWords text).count w))) ∧
    ((∀ x, fl x = x) →
      ∀ w, w ∈ SplitIntoWords text →
        w ∉ (SearchServer.runWith fl stop_words ops).stop_words_ →
        StdMap.find (SearchServer.GetWordFrequencies
          (SearchServer.AddDocumentWith fl (SearchServer.runWith fl stop_words ops) id text
            status ratings).2 id) w =
        some (((SplitIntoWords text).count w : ℚ) /
          (((SplitIntoWords text).filter
            (fun t => decide (t ∉ (SearchServer.runWith fl stop_words ops).stop_words_))).length :
              ℚ))) ∧
    (∀ w, w ∈ (SearchServer.AddDocumentWith fl (SearchServer.runWith fl stop_words ops) id text
        status ratings).2.stop_words_ →
      w ∉ StdMap.keys (SearchServer.GetWordFrequencies
        (SearchServer.AddDocumentWith fl (SearchServer.runWith fl stop_words ops) id text status
          ratings).2 id)) := by
  have hinv := runWith_Inv fl stop_words ops
  have hinv2 := AddDocumentWith_Inv fl _ id text status ratings hinv
  have hspec := GetWordFrequencies_spec _ id hinv2.index_wf.1
  have hfind := find_GetWordFrequencies_AddDocumentWith fl _ hinv id text status ratings hok
  have hkeys : ∀ w, w ∈ StdMap.keys (SearchServer.GetWordFrequencies
        (SearchServer.AddDocumentWith fl (SearchServer.runWith fl stop_words ops) id text status
          ratings).2 id) ↔
      w ∈ SearchServer.indexedWords (SearchServer.runWith fl stop_words ops) text := by
    intro w
    rw [← StdMap.find_isSome_iff, hfind w]
    by_cases hw : w ∈ SearchServer.indexedWords (SearchServer.runWith fl stop_words ops) text <;>
      simp [hw]
  have hstop : (SearchServer.AddDocumentWith fl (SearchServer.runWith fl stop_words ops) id text
      status ratings).2.stop_words_ = (SearchServer.runWith fl stop_words ops).stop_words_ := by
    rw [AddDocumentWith_eq]
    split <;> rfl
  have hfilter := indexedWords_eq_filter (SearchServer.runWith fl stop_words ops) text
  have hvalue : ∀ w, w ∈ SplitIntoWords text →
      w ∉ (SearchServer.runWith fl stop_words ops).stop_words_ →
      StdMap.find (SearchServer.GetWordFrequencies
        (SearchServer.AddDocumentWith fl (SearchServer.runWith fl stop_words ops) id text status
          ratings).2 id) w =
      some (accumulated fl
        (fl (1 / fl (((SplitIntoWords text).filter
          (fun t => decide (t ∉ (SearchServer.runWith fl stop_words ops).stop_words_))).length :
            ℚ)))
        ((SplitIntoWords text).count w)) := by
    intro w hw1 hw2
    have hw : w ∈ SearchServer.indexedWords (SearchServer.runWith fl stop_words ops) text :=
      (mem_indexedWords _ _ _).mpr ⟨hw1, hw2⟩
    have hcount : (SearchServer.indexedWords (SearchServer.runWith fl stop_words ops) text).count
        w = (SplitIntoWords text).count w := by
      rw [hfilter]
      apply List.count_filter
      simpa using hw2
    rw [hfind w, if_pos hw, hcount, ← hfilter]
  refine ⟨StdMap.nodup_keys _ hspec.1, ?_, hvalue, ?_, ?_⟩
  · intro w
    rw [hkeys w, mem_indexedWords]
  · intro hfl w hw1 hw2
    rw [hvalue w hw1 hw2, accumulated_exact fl hfl, hfl, hfl]
    congr 1
    ring
  · intro w hw hk
    rw [hstop] at hw
    exact ((mem_indexedWords _ _ _).mp ((hkeys w).mp hk)).2 hw

/-- Witness of C10: the document `a b a c` with stop word `b`, in the arithmetic of
`double`. -/
theorem C10_word_frequencies_accumulated_witness :
    (SearchServer.AddDocumentWith roundDouble
        (SearchServer.runWith roundDouble [['b']] [Op.add 0 ['c', 'a', 't'] .ACTUAL [5]])
        3 ['a', ' ', 'b', ' ', 'a', ' ', 'c'] .ACTUAL []).1 = .ok () ∧
    StdMap.find (SearchServer.GetWordFrequencies
      (SearchServer.AddDocumentWith roundDouble
        (SearchServer.runWith roundDouble [['b']] [Op.add 0 ['c', 'a', 't'] .ACTUAL [5]])
        3 ['a', ' ', 'b', ' ', 'a', ' ', 'c'] .ACTUAL []).2 3) ['a'] =
      some (accumulated roundDouble
        (roundDouble (1 / roundDouble
          (((SplitIntoWords ['a', ' ', 'b', ' ', 'a', ' ', 'c']).filter
            (fun t => decide (t ∉ (SearchServer.runWith roundDouble [['b']]
              [Op.add 0 ['c', 'a', 't'] .ACTUAL [5]]).stop_words_))).length : ℚ)))
        ((SplitIntoWords ['a', ' ', 'b', ' ', 'a', ' ', 'c']).count ['a'])) :=
  ⟨by rfl,
    (C10_word_frequencies_accumulated roundDouble [['b']]
      [Op.add 0 ['c', 'a', 't'] .ACTUAL [5]] 3
      ['a', ' ', 'b', ' ', 'a', ' ', 'c'] .ACTUAL [] (by rfl)).2.2.1 ['a'] (by decide)
      (by decide)⟩

/-- Counterexample to C10 as stated: a document of ten tokens `w` is added to a fresh
server. The word occurs ten times among ten tokens, yet the stored frequency is not
`10 / 10`: the ten additions of the `double` nearest to `1/10` leave
`0x1.fffffffffffffp-1`, the largest `double` below 1. -/
theorem C10_counterexample :
    (SearchServer.AddDocumentWith roundDouble (SearchServer.runWith roundDouble [] []) 0
      "w w w w w w w w w w".toList DocumentStatus.ACTUAL []).1 = .ok () ∧
    (SplitIntoWords "w w w w w w w w w w".toList).count "w".toList = 10 ∧
    (SplitIntoWords "w w w w w w w w w w".toList).length = 10 ∧
    StdMap.find (SearchServer.GetWordFrequencies
      (SearchServer.AddDocumentWith roundDouble (SearchServer.runWith roundDouble [] []) 0
        "w w w w w w w w w w".toList DocumentStatus.ACTUAL []).2 0) "w".toList =
      some (9007199254740991 / 9007199254740992) ∧
    StdMap.find (SearchServer.GetWordFrequencies
      (SearchServer.AddDocumentWith roundDouble (SearchServer.runWith roundDouble [] []) 0
        "w w w w w w w w w w".toList DocumentStatus.ACTUAL []).2 0) "w".toList ≠
      some (10 / 10) := by
  have hfind := find_GetWordFrequencies_AddDocumentWith roundDouble
    (SearchServer.runWith roundDouble [] []) (runWith_Inv roundDouble [] []) 0
    "w w w w w w w w w w".toList DocumentStatus.ACTUAL [] (by rfl) "w".toList
  have hwords : SearchServer.indexedWords (SearchServer.runWith roundDouble [] [])
      "w w w w w w w w w w".toList = List.replicate 10 "w".toList := by rfl
  have hvalue : StdMap.find (SearchServer.GetWordFrequencies
      (SearchServer.AddDocumentWith roundDouble (SearchServer.runWith roundDouble [] []) 0
        "w w w w w w w w w w".toList DocumentStatus.ACTUAL []).2 0) "w".toList =
      some (9007199254740991 / 9007199254740992) := by
    rw [hfind, hwords, if_pos (by decide)]
    have hcount : (List.replicate 10 "w".toList).count "w".toList = 10 := by decide
    have hlen : ((List.replicate 10 "w".toList).length : ℚ) = 10 := by
      rw [List.length_replicate]
      norm_num
    rw [hcount, hlen, accumulated_tenth.1, accumulated_tenth.2.1, accumulated_tenth.2.2]
  refine ⟨by rfl, by decide, by decide, hvalue, ?_⟩
  rw [hvalue]
  intro h
  injection h with h
  norm_num at h
